import Mathlib

/-!
Verification of the jwzthreading repository (jwzthreading.py).

The Python code mutates a graph of `Container` objects.  We embed it by
explicit state passing over a `Store : List Container`, where a list index
plays the role of Python object identity (`is` comparisons become index
equality).  Operations that can raise in Python (`list.remove` on a missing
element, `children[0]` on an empty list, `len(None)`) return `Option`;
recursions over the mutable graph take explicit fuel, and exhausted fuel is
an `Option` failure as well (except for `has_descendant`, whose Python
original always terminates thanks to its `seen` set; our fueled version
returns `false` on exhaustion, and the fuel far exceeds the possible number
of stack pops).
-/

namespace Jwz

/-- Input record, class `Message` of jwzthreading.py: `message_id`,
`subject` (a Python attribute that can be `None`), ordered `references`. -/
structure Message where
  message_id : String
  subject : Option String
  references : List String
deriving DecidableEq, Repr

/-- Tree node, class `Container`: optional message, parent pointer and the
ordered children, all over store indices. -/
structure Container where
  message : Option Message
  parent : Option Nat
  children : List Nat
deriving DecidableEq, Repr

def Container.empty : Container := ⟨none, none, []⟩

/-- The heap of containers; the index is the object identity. -/
abbrev Store := List Container

def getC (s : Store) (i : Nat) : Container := s.getD i Container.empty

def setC (s : Store) (i : Nat) (c : Container) : Store := s.set i c

/-! ### The SUBJECT_RE substitution

`SUBJECT_RE = re.compile(r'((Re(\[\d+\])?:) | (\[ [^]]+ \])\s*)+', re.I | re.VERBOSE)`
— with `re.VERBOSE` the blanks in the pattern are ignored, so the regex is
`((Re(\[\d+\])?:)|(\[[^]]+\])\s*)+` and `SUBJECT_RE.sub('', subj)` removes
every non-overlapping leftmost match anywhere in the string.  We model the
backtracking matcher directly on `List Char`. -/

def ciEq (c lower : Char) : Bool := c == lower || c == lower.toUpper

def takeDigits : List Char → Nat × List Char
  | [] => (0, [])
  | c :: rest =>
    if '0' ≤ c ∧ c ≤ '9' then
      let (n, r) := takeDigits rest
      (n + 1, r)
    else (0, c :: rest)

def isPySpace (c : Char) : Bool :=
  c == ' ' || c == '\t' || c == '\n' || c == '\r' || c == '\x0b' || c == '\x0c'

/-- Match `Re(\[\d+\])?:` (case-insensitive `Re`), returning the rest. -/
def matchReMarker (cs : List Char) : Option (List Char) :=
  match cs with
  | c1 :: c2 :: rest =>
    if ciEq c1 'r' && ciEq c2 'e' then
      match rest with
      | '[' :: r2 =>
        -- greedy optional bracket group, backtracking to the plain `:` form
        let (n, r3) := takeDigits r2
        (if n = 0 then none else
          match r3 with
          | ']' :: ':' :: r4 => some r4
          | _ => none).orElse
          (fun _ => match rest with | ':' :: r => some r | _ => none)
      | ':' :: r => some r
      | _ => none
    else none
  | _ => none

/-- Match `\[[^]]+\]\s*`, returning the rest. -/
def matchTag (cs : List Char) : Option (List Char) :=
  match cs with
  | '[' :: r2 =>
    let seg := r2.takeWhile (· ≠ ']')
    let r3 := r2.dropWhile (· ≠ ']')
    if seg = [] then none else
      match r3 with
      | ']' :: r4 => some (r4.dropWhile (isPySpace ·))
      | _ => none
  | _ => none

/-- One repetition of the alternation: `Re…:` is tried first. -/
def matchOne (cs : List Char) : Option (List Char) :=
  (matchReMarker cs).orElse (fun _ => matchTag cs)

/-- Greedy `+` repetition of `matchOne`; fuel bounds the repetitions. -/
def matchPlus : Nat → List Char → Option (List Char)
  | 0, _ => none
  | fuel + 1, cs =>
    match matchOne cs with
    | none => none
    | some rest =>
      match matchPlus fuel rest with
      | some rest2 => some rest2
      | none => some rest

/-- `SUBJECT_RE.sub('', ·)` on a character list: scan left to right, remove
each leftmost match, continue after it. -/
def subChars : Nat → List Char → List Char
  | 0, cs => cs
  | fuel + 1, cs =>
    match matchPlus (cs.length + 1) cs with
    | some rest => subChars fuel rest
    | none =>
      match cs with
      | [] => []
      | c :: rest => c :: subChars fuel rest

/-- `SUBJECT_RE.sub('', subj)`. -/
def subjectSub (s : String) : String :=
  String.mk (subChars (s.length + 1) s.data)

/-! ### Container tree operations

`Container.remove_child` raises `ValueError` when the element is absent
(`list.remove`), hence the `Option`.  `Container.add_child` first detaches
the child from its previous parent. -/

/-- `Container.remove_child(self=p, child=c)`. -/
def remove_child (s : Store) (p c : Nat) : Option Store :=
  let pn := getC s p
  if c ∈ pn.children then
    let s1 := setC s p { pn with children := pn.children.erase c }
    let cn := getC s1 c
    some (setC s1 c { cn with parent := none })
  else none

/-- The second half of `add_child`: append `c` to the children of `p` and
set the parent pointer of `c`. -/
def attach (s1 : Store) (p c : Nat) : Store :=
  let pn := getC s1 p
  let s2 := setC s1 p { pn with children := pn.children ++ [c] }
  let cn := getC s2 c
  setC s2 c { cn with parent := some p }

/-- `Container.add_child(self=p, child=c)`: `if child.parent:
child.parent.remove_child(child)` and then attach. -/
def add_child (s : Store) (p c : Nat) : Option Store :=
  match (getC s c).parent with
  | some q =>
    match remove_child s q c with
    | none => none
    | some s1 => some (attach s1 p c)
  | none => some (attach s p c)

/-- Total number of child entries in the store (an edge count). -/
def totalKids (s : Store) : Nat := (s.map (fun c => c.children.length)).sum

/-- The loop of `Container.has_descendant`: a depth-first search with an
explicit stack (`deque.pop` pops the most recently appended element) and a
`seen` set consulted before pushing children.  The Python loop always
terminates; the fuel we pass in `has_descendant` exceeds any possible
number of pops, and exhaustion returns `false`. -/
def hdStep : Nat → Store → Nat → List Nat → List Nat → Bool
  | 0, _, _, _, _ => false
  | fuel + 1, s, tgt, stack, seen =>
    match stack with
    | [] => false
    | node :: rest =>
      if node = tgt then true
      else
        let seen2 := if node ∈ seen then seen else node :: seen
        let push := ((getC s node).children.filter (fun c => ¬ c ∈ seen2)).reverse
        hdStep fuel s tgt (push ++ rest) seen2

/-- `Container.has_descendant(self=root, ctr=tgt)`. -/
def has_descendant (s : Store) (root tgt : Nat) : Bool :=
  hdStep ((s.length + 1) * (totalKids s + 2) + 2) s tgt [root] []

/-- Re-attach a list of children in order (`for child in new_children:
container.add_child(child)` in `prune_container`). -/
def addAll (s : Store) (p : Nat) : List Nat → Option Store
  | [] => some s
  | c :: rest => do
    let s1 ← add_child s p c
    addAll s1 p rest

/-- Detach a list of children in order (the promote branch of
`prune_container`). -/
def removeAll (s : Store) (p : Nat) : List Nat → Option Store
  | [] => some s
  | c :: rest => do
    let s1 ← remove_child s p c
    removeAll s1 p rest

/-! ### prune_container

Recursion over the mutable tree: the fuel counts the recursion depth, as in
the Python call stack.  For each child of the snapshot
`container.children[:]`: recurse, collect the replacement list, then
`container.remove_child(ctr)`; afterwards re-attach the collected list and
decide between the three cases of step 4. -/

mutual

def prune_container : Nat → Store → Nat → Option (Store × List Nat)
  | 0, _, _ => none
  | fuel + 1, s, i =>
    match pruneKids fuel s i ((getC s i).children) with
    | none => none
    | some (s1, newKids) =>
      match addAll s1 i newKids with
      | none => none
      | some s2 =>
        let nd := getC s2 i
        if nd.message = none ∧ nd.children = [] then some (s2, [])
        else if nd.message = none ∧ (nd.children.length = 1 ∨ nd.parent ≠ none) then
          match removeAll s2 i nd.children with
          | none => none
          | some s3 => some (s3, nd.children)
        else some (s2, [i])
termination_by fuel s i => (fuel, 0)

def pruneKids : Nat → Store → Nat → List Nat → Option (Store × List Nat)
  | _, s, _, [] => some (s, [])
  | fuel, s, i, c :: rest =>
    match prune_container fuel s c with
    | none => none
    | some (s1, pr) =>
      match remove_child s1 i c with
      | none => none
      | some s2 =>
        match pruneKids fuel s2 i rest with
        | none => none
        | some (s3, prs) => some (s3, pr ++ prs)
termination_by fuel s i cs => (fuel, cs.length + 1)

end

/-! ### The ordered table (Python `OrderedDict`)

Keys are unique; insertion appends, update keeps the original position, and
`values()` lists the values in key-insertion order. -/

abbrev Table := List (String × Nat)

def lookupT (t : Table) (k : String) : Option Nat :=
  (t.find? (fun p => p.1 == k)).map (fun p => p.2)

def setT (t : Table) (k : String) (v : Nat) : Table :=
  if (t.find? (fun p => p.1 == k)).isSome then
    t.map (fun p => if p.1 == k then (k, v) else p)
  else t ++ [(k, v)]

def valuesT (t : Table) : List Nat := t.map (fun p => p.2)

/-! ### The linker (step one of `thread`) -/

structure LState where
  store : Store
  tbl : Table
deriving Repr

/-- `id_table.get(key)` followed by creation of an empty container when the
key is absent. -/
def getOrCreate (st : LState) (key : String) : LState × Nat :=
  match lookupT st.tbl key with
  | some i => (st, i)
  | none =>
    (⟨st.store ++ [Container.empty], setT st.tbl key st.store.length⟩, st.store.length)

/-- One iteration of the reference loop (step one (b)) with the running
`prev`; returns the new state and the new `prev` (always the reference's
container). -/
def refStep (thisC : Nat) (st : LState) (prev : Option Nat) (ref : String) :
    Option (LState × Option Nat) := do
  let (st1, container) := getOrCreate st ref
  match prev with
  | none => pure (st1, some container)
  | some prevC =>
    if (getC st1.store container).parent ≠ none then
      pure (st1, some container)
    else if container = thisC ∨ has_descendant st1.store container prevC ∨
        has_descendant st1.store prevC container then
      pure (st1, some container)
    else do
      let s2 ← add_child st1.store prevC container
      pure (⟨s2, st1.tbl⟩, some container)

def refsLoop (thisC : Nat) : LState → Option Nat → List String → Option (LState × Option Nat)
  | st, prev, [] => some (st, prev)
  | st, prev, r :: rs => do
    let (st1, p1) ← refStep thisC st prev r
    refsLoop thisC st1 p1 rs

/-- Step one (a): look up the message id; if a container exists attach the
message to it (`this_container.message = msg`), else create a populated
container. -/
def step1a (st : LState) (msg : Message) : LState × Nat :=
  match lookupT st.tbl msg.message_id with
  | some i =>
    (LState.mk (setC st.store i { getC st.store i with message := some msg }) st.tbl, i)
  | none =>
    (LState.mk (st.store ++ [{ Container.empty with message := some msg }])
      (setT st.tbl msg.message_id st.store.length), st.store.length)

/-- Processing of one `Message` by the loop of `thread` (steps one (a), (b)
and the final 1C block). -/
def msgStep (st : LState) (msg : Message) : Option LState := do
  let (st1, thisC) := step1a st msg
  let (st2, prev) ← refsLoop thisC st1 none msg.references
  match prev with
  | some p => do
    let s3 ← add_child st2.store p thisC
    pure ⟨s3, st2.tbl⟩
  | none =>
    match (getC st2.store thisC).parent with
    | some q => do
      let s3 ← remove_child st2.store q thisC
      pure ⟨s3, st2.tbl⟩
    | none => pure st2

/-! ### Step five: grouping by subject -/

/-- The representative subject of a root container: its message's subject,
or the first child's message's subject.  `none` models the Python errors
(missing child, missing message, `None` subject). -/
def containerSubj (s : Store) (i : Nat) : Option String :=
  match (getC s i).message with
  | some m => m.subject
  | none =>
    match (getC s i).children with
    | [] => none
    | c0 :: _ =>
      match (getC s c0).message with
      | some m => m.subject
      | none => none

/-- One iteration of the subject-table building loop (lines 344-361). -/
def subjStep (s : Store) (tbl : Table) (c : Nat) : Option Table := do
  let subj0 ← containerSubj s c
  let subj := subjectSub subj0
  if subj = "" then pure tbl
  else
    match lookupT tbl subj with
    | none => pure (setT tbl subj c)
    | some e =>
      match (getC s e).message, (getC s c).message with
      | some _, none => pure (setT tbl subj c)
      | some em, some cm => do
        let es ← em.subject
        let cs' ← cm.subject
        if es.length > cs'.length then pure (setT tbl subj c) else pure tbl
      | none, _ => pure tbl

/-- `for child in ctr.children: container.add_child(child)` — Python list
iteration over the live list, which `add_child` shrinks, so every other
element is skipped; modeled with the internal iteration index. -/
def spliceGo : Nat → Store → Nat → Nat → Nat → Option Store
  | 0, _, _, _, _ => none
  | fuel + 1, s, dst, src, i =>
    let kids := (getC s src).children
    if h : i < kids.length then do
      let s2 ← add_child s dst (kids.get ⟨i, h⟩)
      spliceGo fuel s2 dst src (i + 1)
    else some s

/-- One iteration of step five (c) (lines 365-395). -/
def mergeStep (acc : Store × Table) (c : Nat) : Option (Store × Table) := do
  let (s, tbl) := acc
  let subj0 ← containerSubj s c
  let subj := subjectSub subj0
  match lookupT tbl subj with
  | none => pure (s, tbl)
  | some ctr =>
    if ctr = c then pure (s, tbl)
    else
      match (getC s ctr).message, (getC s c).message with
      | none, none => do
        let s2 ← spliceGo ((getC s ctr).children.length + 1) s c ctr 0
        pure (s2, tbl)
      | none, some _ => do
        let s2 ← add_child s ctr c
        pure (s2, tbl)
      | some _, none => do
        let s2 ← add_child s c ctr
        pure (s2, tbl)
      | some em, some cm => do
        let es ← em.subject
        let cs' ← cm.subject
        if es.length < cs'.length then do
          let s2 ← add_child s ctr c
          pure (s2, tbl)
        else if es.length > cs'.length then do
          let s2 ← add_child s c ctr
          pure (s2, tbl)
        else do
          let n := s.length
          let s1 := s ++ [Container.empty]
          let s2 ← add_child s1 n ctr
          let s3 ← add_child s2 n c
          pure (s3, setT tbl subj n)

/-! ### thread -/

/-- Fuel for a `prune_container` recursion: the store size bounds every
simple child chain. -/
def pruneFuel (s : Store) : Nat := s.length + 1

/-- The linking phase: the fold of `msgStep` over the input. -/
def linkPhase (messages : List Message) : Option LState :=
  messages.foldlM msgStep ⟨[], []⟩

/-- Step two: the containers of the id table without a parent, in table
order. -/
def rootSetOf (st : LState) : List Nat :=
  (valuesT st.tbl).filter (fun i => (getC st.store i).parent = none)

/-- One iteration of step four: prune a root and append the replacement
roots. -/
def pruneStep (acc : Store × List Nat) (i : Nat) : Option (Store × List Nat) := do
  let (s2, rs) ← prune_container (pruneFuel acc.1) acc.1 i
  pure (s2, acc.2 ++ rs)

/-- `thread(messages, group_by_subject)`: returns the final root list
(store indices) and the final store, or `none` where the Python code would
raise or our fuel is exhausted. -/
def thread (messages : List Message) (group_by_subject : Bool := true) :
    Option (List Nat × Store) := do
  let st ← linkPhase messages
  let root_set := rootSetOf st
  -- step four's `assert container.parent == None`
  if root_set.all (fun i => (getC st.store i).parent = none) then
    let (s1, roots) ← root_set.foldlM pruneStep (st.store, [])
    if ¬ group_by_subject then
      pure (roots, s1)
    else do
      let tbl2 ← roots.foldlM (fun t c => subjStep s1 t c) ([] : Table)
      let (s3, tbl3) ← roots.foldlM mergeStep (s1, tbl2)
      pure (valuesT tbl3, s3)
  else none

/-! ### sort_threads -/

/-- The key function `_sort_func`: the sentinel for a dummy container or a
`None` attribute, else the requested attribute.  `reverse` is accepted and
ignored, exactly as in the source (the parameter is never used). -/
def sortKey (key : String) (missing : String) (s : Store) (i : Nat) : String :=
  match (getC s i).message with
  | none => missing
  | some m =>
    match (if key = "subject" then m.subject else some m.message_id) with
    | none => missing
    | some v => v

/-- `sort_threads(threads, key, missing, reverse)`; raises `ValueError`
(`Except.error`) exactly for a key outside `{message_id, subject}`, else
stable-sorts (Python `sorted`) by the key. -/
def sort_threads (s : Store) (threads : List Nat) (key : String)
    (missing : String) (reverse : Bool) : Except String (List Nat) :=
  if key = "message_id" ∨ key = "subject" then
    Except.ok (threads.insertionSort
      (fun a b => sortKey key missing s a ≤ sortKey key missing s b))
  else Except.error "Wrong input argument"

/-! ### Basic store lemmas -/

theorem getC_oob {s : Store} {i : Nat} (h : s.length ≤ i) : getC s i = Container.empty := by
  simp [getC, List.getD_eq_getElem?_getD, List.getElem?_eq_none h]

theorem length_setC (s : Store) (i : Nat) (x : Container) :
    (setC s i x).length = s.length := by
  simp [setC]

theorem getC_setC (s : Store) (i j : Nat) (x : Container) :
    getC (setC s i x) j = if i = j ∧ i < s.length then x else getC s j := by
  simp only [getC, setC, List.getD_eq_getElem?_getD, List.getElem?_set]
  by_cases hij : i = j
  · subst hij
    by_cases hi : i < s.length
    · simp [hi]
    · simp [hi, List.getElem?_eq_none (Nat.le_of_not_lt hi)]
  · simp [hij]

theorem getC_setC_self {s : Store} {i : Nat} (h : i < s.length) (x : Container) :
    getC (setC s i x) i = x := by
  simp [getC_setC, h]

theorem getC_setC_ne {s : Store} {i j : Nat} (h : i ≠ j) (x : Container) :
    getC (setC s i x) j = getC s j := by
  simp [getC_setC, h]

theorem getC_append (s : Store) (x : Container) (j : Nat) :
    getC (s ++ [x]) j = if j = s.length then x else getC s j := by
  simp only [getC, List.getD_eq_getElem?_getD, List.getElem?_append]
  by_cases hj : j < s.length
  · simp [hj, Nat.ne_of_lt hj]
  · by_cases hje : j = s.length
    · subst hje; simp [List.getElem?_concat_length]
    · have h1 : s.length < j := Nat.lt_of_le_of_ne (Nat.le_of_not_lt hj) (Ne.symm hje)
      have h2 : (1 : Nat) ≤ j - s.length := by omega
      simp [hj, hje, List.getElem?_eq_none (l := [x]) (by simpa using h2),
        List.getElem?_eq_none (Nat.le_of_lt h1)]

/-! ### The well-formedness invariant

Parent pointers and children lists are mutually consistent and children
lists have no duplicates.  Note this does not exclude cycles (the code can
build them); acyclicity is a separate, derived property of the nodes
reachable from parentless containers. -/

structure Wf (s : Store) : Prop where
  pm : ∀ i c, c ∈ (getC s i).children → (getC s c).parent = some i
  mp : ∀ c p, (getC s c).parent = some p → c ∈ (getC s p).children
  nd : ∀ i, (getC s i).children.Nodup

theorem Wf.child_lt {s : Store} (hwf : Wf s) {i c : Nat}
    (h : c ∈ (getC s i).children) : c < s.length := by
  by_contra hc
  have := hwf.pm i c h
  rw [getC_oob (Nat.le_of_not_lt hc)] at this
  simp [Container.empty] at this

theorem Wf.parent_lt {s : Store} (hwf : Wf s) {c p : Nat}
    (h : (getC s c).parent = some p) : p < s.length := by
  by_contra hp
  have := hwf.mp c p h
  rw [getC_oob (Nat.le_of_not_lt hp)] at this
  simp [Container.empty] at this

theorem Wf.holder_lt {s : Store} (hwf : Wf s) {i c : Nat}
    (h : c ∈ (getC s i).children) : i < s.length :=
  hwf.parent_lt (hwf.pm i c h)

theorem Wf.parent_unique {s : Store} (hwf : Wf s) {i j c : Nat}
    (hi : c ∈ (getC s i).children) (hj : c ∈ (getC s j).children) : i = j := by
  have h1 := hwf.pm i c hi
  have h2 := hwf.pm j c hj
  rw [h1] at h2
  exact Option.some.inj h2

/-! ### Effect of remove_child -/

theorem remove_child_some {s : Store} {p c : Nat}
    (hmem : c ∈ (getC s p).children) :
    remove_child s p c = some (setC (setC s p { getC s p with
      children := (getC s p).children.erase c }) c
      { getC (setC s p { getC s p with children := (getC s p).children.erase c }) c
        with parent := none }) := by
  simp [remove_child, hmem]

theorem remove_child_length {s s' : Store} {p c : Nat}
    (h : remove_child s p c = some s') : s'.length = s.length := by
  by_cases hmem : c ∈ (getC s p).children
  · simp only [remove_child, if_pos hmem, Option.some.injEq] at h
    subst h
    simp [length_setC]
  · simp [remove_child, hmem] at h

theorem mem_children_lt {s : Store} {p c : Nat} (hmem : c ∈ (getC s p).children) :
    p < s.length := by
  by_contra hp
  rw [getC_oob (Nat.le_of_not_lt hp)] at hmem
  simp [Container.empty] at hmem

theorem remove_child_getC {s s' : Store} {p c : Nat}
    (h : remove_child s p c = some s') (j : Nat) :
    getC s' j = { message := (getC s j).message,
                  parent := if j = c then none else (getC s j).parent,
                  children := if j = p then (getC s p).children.erase c
                              else (getC s j).children } := by
  by_cases hmem : c ∈ (getC s p).children
  case neg => simp [remove_child, hmem] at h
  simp only [remove_child, if_pos hmem, Option.some.injEq] at h
  subst h
  have hp : p < s.length := mem_children_lt hmem
  rcases eq_or_ne j c with rfl | hjc
  · by_cases hl : j < s.length
    · rw [getC_setC_self (by rw [length_setC]; exact hl)]
      rcases eq_or_ne j p with rfl | hjp
      · rw [getC_setC_self hp]
        simp
      · rw [getC_setC_ne (fun he => hjp he.symm)]
        simp [hjp]
    · have hjp : j ≠ p := fun he => hl (he ▸ hp)
      rw [getC_setC]
      simp only [length_setC, hl, and_false, if_false]
      rw [getC_setC_ne (fun he => hjp he.symm), getC_oob (Nat.le_of_not_lt hl)]
      simp [hjp, Container.empty]
  · rw [getC_setC_ne (fun he => hjc he.symm)]
    rcases eq_or_ne j p with rfl | hjp
    · rw [getC_setC_self hp]
      simp [hjc]
    · rw [getC_setC_ne (fun he => hjp he.symm)]
      simp [hjc, hjp]

theorem remove_child_children {s s' : Store} {p c : Nat}
    (h : remove_child s p c = some s') (j : Nat) :
    (getC s' j).children =
      if j = p then (getC s p).children.erase c else (getC s j).children := by
  rw [remove_child_getC h]

theorem remove_child_parent {s s' : Store} {p c : Nat}
    (h : remove_child s p c = some s') (j : Nat) :
    (getC s' j).parent = if j = c then none else (getC s j).parent := by
  rw [remove_child_getC h]

theorem remove_child_message {s s' : Store} {p c : Nat}
    (h : remove_child s p c = some s') (j : Nat) :
    (getC s' j).message = (getC s j).message := by
  rw [remove_child_getC h]

/-! ### Effect of add_child -/

theorem attach_getC {s1 : Store} {p c : Nat} (hp : p < s1.length) (hc : c < s1.length)
    (j : Nat) :
    getC (attach s1 p c) j =
      { message := (getC s1 j).message,
        parent := if j = c then some p else (getC s1 j).parent,
        children := if j = p then (getC s1 j).children ++ [c] else (getC s1 j).children } := by
  unfold attach
  rcases eq_or_ne j c with rfl | hjc
  · rw [getC_setC_self (by rw [length_setC]; exact hc)]
    rcases eq_or_ne j p with rfl | hjp
    · rw [getC_setC_self hp]
      simp
    · rw [getC_setC_ne (fun he => hjp he.symm)]
      simp [hjp]
  · rw [getC_setC_ne (fun he => hjc he.symm)]
    rcases eq_or_ne j p with rfl | hjp
    · rw [getC_setC_self hp]
      simp [hjc]
    · rw [getC_setC_ne (fun he => hjp he.symm)]
      simp [hjc, hjp]

theorem attach_length (s1 : Store) (p c : Nat) :
    (attach s1 p c).length = s1.length := by
  unfold attach
  simp [length_setC]

theorem add_child_eq_some {s : Store} {p c : Nat} (hwf : Wf s) :
    ∃ s', add_child s p c = some s' := by
  unfold add_child
  split
  case h_1 q hq =>
    have hmem := hwf.mp c q hq
    rw [remove_child_some hmem]
    exact ⟨_, rfl⟩
  case h_2 => exact ⟨_, rfl⟩

theorem add_child_length {s s' : Store} {p c : Nat}
    (h : add_child s p c = some s') : s'.length = s.length := by
  unfold add_child at h
  split at h
  case h_1 q hq =>
    split at h
    case h_1 => exact absurd h (by simp)
    case h_2 s1 h1 =>
      simp only [Option.some.injEq] at h
      subst h
      rw [attach_length, remove_child_length h1]
  case h_2 hq =>
    simp only [Option.some.injEq] at h
    subst h
    exact attach_length s p c

theorem add_child_getC {s s' : Store} {p c : Nat}
    (h : add_child s p c = some s') (hp : p < s.length) (hc : c < s.length) (j : Nat) :
    getC s' j = { message := (getC s j).message,
                  parent := if j = c then some p else (getC s j).parent,
                  children :=
                    if j = p then
                      (if (getC s c).parent = some p then (getC s p).children.erase c
                       else (getC s p).children) ++ [c]
                    else if (getC s c).parent = some j then (getC s j).children.erase c
                         else (getC s j).children } := by
  unfold add_child at h
  split at h
  case h_2 hq =>
    simp only [Option.some.injEq] at h
    subst h
    rw [attach_getC hp hc]
    rcases eq_or_ne j p with rfl | hjp
    · simp [hq]
    · simp [hq, hjp]
  case h_1 q hq =>
    split at h
    case h_1 => exact absurd h (by simp)
    case h_2 s1 h1 =>
      simp only [Option.some.injEq] at h
      subst h
      have hlen := remove_child_length h1
      rw [attach_getC (by rw [hlen]; exact hp) (by rw [hlen]; exact hc)]
      rw [remove_child_getC h1 j, hq]
      rcases eq_or_ne j c with rfl | hjc
      · rcases eq_or_ne j p with rfl | hjp
        · rcases eq_or_ne j q with rfl | hjq
          · simp
          · simp [hjq, Ne.symm hjq]
        · rcases eq_or_ne j q with rfl | hjq
          · simp [hjp, Ne.symm hjp]
          · simp [hjp, hjq, Ne.symm hjp, Ne.symm hjq]
      · rcases eq_or_ne j p with rfl | hjp
        · rcases eq_or_ne j q with rfl | hjq
          · simp [hjc]
          · simp [hjc, hjq, Ne.symm hjq]
        · rcases eq_or_ne j q with rfl | hjq
          · simp [hjc, hjp, Ne.symm hjp]
          · simp [hjc, hjp, hjq, Ne.symm hjp, Ne.symm hjq]

/-! ### Preservation of well-formedness -/

theorem remove_child_mem {s s' : Store} {p c : Nat}
    (h : remove_child s p c = some s') : c ∈ (getC s p).children := by
  by_cases hmem : c ∈ (getC s p).children
  · exact hmem
  · simp [remove_child, hmem] at h

theorem Wf.remove_child {s s' : Store} {p c : Nat} (hwf : Wf s)
    (h : remove_child s p c = some s') : Wf s' := by
  have hmem := remove_child_mem h
  constructor
  · intro i c' hc'
    rw [remove_child_children h] at hc'
    rw [remove_child_parent h]
    by_cases hip : i = p
    · subst hip
      rw [if_pos rfl] at hc'
      have hne : c' ≠ c := fun he => (hwf.nd i).not_mem_erase (he ▸ hc')
      rw [if_neg hne]
      exact hwf.pm i c' (List.mem_of_mem_erase hc')
    · rw [if_neg hip] at hc'
      have hpar := hwf.pm i c' hc'
      have hne : c' ≠ c := by
        intro he
        subst he
        exact hip (hwf.parent_unique hc' hmem)
      rw [if_neg hne]
      exact hpar
  · intro c' q hq
    rw [remove_child_parent h] at hq
    by_cases hcc : c' = c
    · rw [if_pos hcc] at hq
      exact absurd hq (by simp)
    · rw [if_neg hcc] at hq
      have := hwf.mp c' q hq
      rw [remove_child_children h]
      by_cases hqp : q = p
      · subst hqp
        rw [if_pos rfl]
        exact (List.mem_erase_of_ne hcc).mpr this
      · rw [if_neg hqp]
        exact this
  · intro i
    rw [remove_child_children h]
    by_cases hip : i = p
    · rw [if_pos hip]
      exact (hwf.nd p).erase c
    · rw [if_neg hip]
      exact hwf.nd i

theorem add_child_base_subset {s : Store} {c x : Nat} (b : List Nat) :
    b = (if (getC s c).parent = some x then (getC s x).children.erase c
         else (getC s x).children) → ∀ y ∈ b, y ∈ (getC s x).children := by
  intro hb y hy
  subst hb
  split at hy
  · exact List.mem_of_mem_erase hy
  · exact hy

theorem Wf.c_not_mem_base {s : Store} (hwf : Wf s) (c x : Nat) :
    c ∉ (if (getC s c).parent = some x then (getC s x).children.erase c
         else (getC s x).children) := by
  split
  · exact (hwf.nd x).not_mem_erase
  · intro hmem
    next hne => exact hne (hwf.pm x c hmem)

theorem Wf.add_child {s s' : Store} {p c : Nat} (hwf : Wf s)
    (h : add_child s p c = some s') (hp : p < s.length) (hc : c < s.length) : Wf s' := by
  have hget := add_child_getC h hp hc
  constructor
  · intro i c' hc'
    rw [hget c', hget i] at *
    simp only at hc' ⊢
    by_cases hip : i = p
    · subst hip
      rw [if_pos rfl] at hc'
      rcases List.mem_append.mp hc' with hin | hin
      · have hmem : c' ∈ (getC s i).children := add_child_base_subset _ rfl c' hin
        have hne : c' ≠ c := by
          intro he
          subst he
          exact hwf.c_not_mem_base c' i hin
        rw [if_neg hne]
        exact hwf.pm i c' hmem
      · have : c' = c := by simpa using hin
        subst this
        rw [if_pos rfl]
    · rw [if_neg hip] at hc'
      have hmem : c' ∈ (getC s i).children := add_child_base_subset _ rfl c' hc'
      have hne : c' ≠ c := by
        intro he
        subst he
        exact hwf.c_not_mem_base c' i hc'
      rw [if_neg hne]
      exact hwf.pm i c' hmem
  · intro c' q hq
    rw [hget c'] at hq
    rw [hget q]
    simp only at hq ⊢
    by_cases hcc : c' = c
    · subst hcc
      rw [if_pos rfl] at hq
      have hqp : q = p := by simpa using hq.symm
      subst hqp
      rw [if_pos rfl]
      simp
    · rw [if_neg hcc] at hq
      have hmem := hwf.mp c' q hq
      by_cases hqp : q = p
      · subst hqp
        rw [if_pos rfl]
        refine List.mem_append.mpr (Or.inl ?_)
        split
        · exact (List.mem_erase_of_ne hcc).mpr hmem
        · exact hmem
      · rw [if_neg hqp]
        split
        · exact (List.mem_erase_of_ne hcc).mpr hmem
        · exact hmem
  · intro i
    rw [hget i]
    simp only
    by_cases hip : i = p
    · subst hip
      rw [if_pos rfl]
      have hbase : (if (getC s c).parent = some i then (getC s i).children.erase c
          else (getC s i).children).Nodup := by
        split
        · exact (hwf.nd i).erase c
        · exact hwf.nd i
      refine List.Nodup.append hbase (List.nodup_singleton c) ?_
      intro y hy hz
      have : y = c := by simpa using hz
      subst this
      exact hwf.c_not_mem_base y i hy
    · rw [if_neg hip]
      split
      · exact (hwf.nd i).erase c
      · exact hwf.nd i

/-! ### Reachability along children edges -/

/-- `c` is a direct child of `p`. -/
def childEdge (s : Store) (p c : Nat) : Prop := c ∈ (getC s p).children

/-- `x` is in the subtree of `i` (reflexive-transitive closure). -/
def Reaches (s : Store) : Nat → Nat → Prop := Relation.ReflTransGen (childEdge s)

/-- `x` is a proper descendant of `i` (at least one edge). -/
def ProperReach (s : Store) : Nat → Nat → Prop := Relation.TransGen (childEdge s)

theorem Reaches.refl {s : Store} (i : Nat) : Reaches s i i := Relation.ReflTransGen.refl

theorem childEdge_lt {s : Store} (hwf : Wf s) {p c : Nat} (h : childEdge s p c) :
    c < s.length := hwf.child_lt h

theorem reaches_lt {s : Store} (hwf : Wf s) {i x : Nat} (h : Reaches s i x) :
    x = i ∨ x < s.length := by
  induction h with
  | refl => exact Or.inl rfl
  | tail _ hedge _ => exact Or.inr (childEdge_lt hwf hedge)

/-- Going up one step: the parent pointer. -/
def upEdge (s : Store) (c p : Nat) : Prop := (getC s c).parent = some p

/-- The chain of parents from `x`. -/
def UpChain (s : Store) : Nat → Nat → Prop := Relation.ReflTransGen (upEdge s)

theorem reaches_iff_upChain {s : Store} (hwf : Wf s) {a x : Nat} :
    Reaches s a x ↔ UpChain s x a := by
  constructor
  · intro h
    induction h with
    | refl => exact Relation.ReflTransGen.refl
    | tail _ hedge ih =>
      exact Relation.ReflTransGen.head (hwf.pm _ _ hedge) ih
  · intro h
    induction h with
    | refl => exact Relation.ReflTransGen.refl
    | tail _ hedge ih =>
      exact Relation.ReflTransGen.trans (Relation.ReflTransGen.single (hwf.mp _ _ hedge)) ih

theorem upChain_linear {s : Store} {x a b : Nat}
    (ha : UpChain s x a) (hb : UpChain s x b) : UpChain s a b ∨ UpChain s b a := by
  induction ha with
  | refl => exact Or.inl hb
  | @tail m n hxm hmn ih =>
    rcases ih with h | h
    · rcases Relation.ReflTransGen.cases_head h with he | ⟨p, hp, hchain⟩
      · subst he
        exact Or.inr (Relation.ReflTransGen.single hmn)
      · rw [upEdge] at hp hmn
        rw [hp] at hmn
        cases hmn
        exact Or.inl hchain
    · exact Or.inr (Relation.ReflTransGen.tail h hmn)

theorem upChain_parentless {s : Store} {a b : Nat}
    (h : UpChain s a b) (ha : (getC s a).parent = none) : a = b := by
  rcases Relation.ReflTransGen.cases_head h with he | ⟨p, hp, _⟩
  · exact he
  · rw [upEdge, ha] at hp
    cases hp

/-- Two parentless containers have disjoint subtrees. -/
theorem roots_disjoint {s : Store} (hwf : Wf s) {r1 r2 x : Nat}
    (h1 : (getC s r1).parent = none) (h2 : (getC s r2).parent = none)
    (hr1 : Reaches s r1 x) (hr2 : Reaches s r2 x) : r1 = r2 := by
  have u1 := (reaches_iff_upChain hwf).mp hr1
  have u2 := (reaches_iff_upChain hwf).mp hr2
  rcases upChain_linear u1 u2 with h | h
  · exact upChain_parentless h h1
  · exact (upChain_parentless h h2).symm

/-- A cycle through a reachable node pulls back to the source. -/
theorem cycle_pullback {s : Store} (hwf : Wf s) {v x : Nat}
    (hr : Reaches s v x) (hc : ProperReach s x x) : ProperReach s v v := by
  induction hr using Relation.ReflTransGen.head_induction_on with
  | refl => exact hc
  | @head v w hedge _ ih =>
    rcases Relation.TransGen.tail'_iff.mp ih with ⟨z, hwz, hzw⟩
    have hz : z = v := by
      have hp1 := hwf.pm _ _ hzw
      have hp2 := hwf.pm _ _ hedge
      exact Option.some.inj (hp1.symm.trans hp2)
    subst hz
    exact Relation.TransGen.head' hedge hwz

/-- Nothing reachable from a parentless container lies on a cycle. -/
theorem parentless_acyclic {s : Store} (hwf : Wf s) {r x : Nat}
    (hr : (getC s r).parent = none) (hx : Reaches s r x) : ¬ ProperReach s x x := by
  intro hc
  have := cycle_pullback hwf hx hc
  rcases Relation.TransGen.tail'_iff.mp this with ⟨z, _, hzr⟩
  have := hwf.pm _ _ hzr
  rw [hr] at this
  cases this

/-- A proper descendant has a parent. -/
theorem properReach_parented {s : Store} (hwf : Wf s) {a x : Nat}
    (h : ProperReach s a x) : (getC s x).parent ≠ none := by
  rcases Relation.TransGen.tail'_iff.mp h with ⟨z, _, hzx⟩
  rw [hwf.pm _ _ hzx]
  simp

/-- Transport reachability along a subtree with pointwise-equal children
lists (reachability only reads the children). -/
theorem reaches_congr {s s' : Store} {a : Nat}
    (h : ∀ j, Reaches s a j → (getC s' j).children = (getC s j).children) :
    ∀ x, Reaches s a x ↔ Reaches s' a x := by
  intro x
  constructor
  · intro hx
    induction hx with
    | refl => exact Relation.ReflTransGen.refl
    | @tail b c hab hbc ih =>
      refine Relation.ReflTransGen.tail ih ?_
      unfold childEdge
      rw [h b hab]
      exact hbc
  · intro hx
    induction hx with
    | refl => exact Relation.ReflTransGen.refl
    | @tail b c hab hbc ih =>
      refine Relation.ReflTransGen.tail ih ?_
      unfold childEdge at hbc ⊢
      rw [h b ih] at hbc
      exact hbc

theorem properReach_congr {s s' : Store} {a : Nat}
    (h : ∀ j, Reaches s a j → (getC s' j).children = (getC s j).children) :
    ∀ x, ProperReach s a x ↔ ProperReach s' a x := by
  intro x
  constructor
  · intro hx
    rcases Relation.TransGen.tail'_iff.mp hx with ⟨z, haz, hzx⟩
    refine Relation.TransGen.tail'_iff.mpr ⟨z, ?_, ?_⟩
    · exact ((reaches_congr h) z).mp haz
    · unfold childEdge
      rw [h z haz]
      exact hzx
  · intro hx
    rcases Relation.TransGen.tail'_iff.mp hx with ⟨z, haz, hzx⟩
    have haz' : Reaches s a z := ((reaches_congr h) z).mpr haz
    refine Relation.TransGen.tail'_iff.mpr ⟨z, haz', ?_⟩
    unfold childEdge at hzx ⊢
    rw [h z haz'] at hzx
    exact hzx

/-! ### Edges after a mutation -/

theorem remove_child_childEdge {s s' : Store} {p c : Nat} (hwf : Wf s)
    (h : remove_child s p c = some s') (a b : Nat) :
    childEdge s' a b ↔ childEdge s a b ∧ b ≠ c := by
  have hmem := remove_child_mem h
  unfold childEdge
  rw [remove_child_children h]
  by_cases hap : a = p
  · subst hap
    rw [if_pos rfl]
    constructor
    · intro hb
      refine ⟨List.mem_of_mem_erase hb, ?_⟩
      intro he
      subst he
      exact (hwf.nd a).not_mem_erase hb
    · intro ⟨hb, hne⟩
      exact (List.mem_erase_of_ne hne).mpr hb
  · rw [if_neg hap]
    constructor
    · intro hb
      refine ⟨hb, ?_⟩
      intro he
      subst he
      exact hap (hwf.parent_unique hb hmem)
    · exact fun h => h.1

theorem add_child_childEdge {s s' : Store} {p c : Nat} (hwf : Wf s)
    (h : add_child s p c = some s') (hp : p < s.length) (hc : c < s.length) (a b : Nat) :
    childEdge s' a b ↔ (a = p ∧ b = c) ∨ (childEdge s a b ∧ b ≠ c) := by
  unfold childEdge
  rw [add_child_getC h hp hc]
  simp only
  by_cases hap : a = p
  · subst hap
    rw [if_pos rfl, List.mem_append]
    constructor
    · intro hb
      rcases hb with hb | hb
      · right
        constructor
        · exact add_child_base_subset _ rfl b hb
        · intro he
          subst he
          exact hwf.c_not_mem_base b a hb
      · left
        exact ⟨rfl, by simpa using hb⟩
    · intro hb
      rcases hb with ⟨-, rfl⟩ | ⟨hb, hne⟩
      · right
        simp
      · left
        split
        · exact (List.mem_erase_of_ne hne).mpr hb
        · exact hb
  · rw [if_neg hap]
    constructor
    · intro hb
      right
      constructor
      · exact add_child_base_subset _ rfl b hb
      · intro he
        subst he
        exact hwf.c_not_mem_base b a hb
    · intro hb
      rcases hb with ⟨he, -⟩ | ⟨hb, hne⟩
      · exact absurd he hap
      · split
        · exact (List.mem_erase_of_ne hne).mpr hb
        · exact hb

/-! ### Cycles are never created -/

theorem remove_child_no_new_cycle {s s' : Store} {p c : Nat} (hwf : Wf s)
    (h : remove_child s p c = some s') {x : Nat}
    (hx : ProperReach s' x x) : ProperReach s x x := by
  refine Relation.TransGen.mono ?_ hx
  intro a b hab
  exact ((remove_child_childEdge hwf h a b).mp hab).1

theorem add_child_reach_split {s s' : Store} {p c : Nat} (hwf : Wf s)
    (h : add_child s p c = some s') (hp : p < s.length) (hc : c < s.length)
    (hnc : ¬ Reaches s c p) {x y : Nat} (hxy : Relation.ReflTransGen (childEdge s') x y) :
    Reaches s x y ∨ (Reaches s x p ∧ Reaches s c y) := by
  induction hxy with
  | refl => exact Or.inl Relation.ReflTransGen.refl
  | @tail b y hxb hby ih =>
    rcases (add_child_childEdge hwf h hp hc b y).mp hby with ⟨hbp, hyc⟩ | ⟨hedge, -⟩
    · subst hbp
      subst hyc
      rcases ih with hxb' | ⟨-, hcb⟩
      · exact Or.inr ⟨hxb', Relation.ReflTransGen.refl⟩
      · exact absurd hcb hnc
    · rcases ih with hxb' | ⟨hxp, hcb⟩
      · exact Or.inl (Relation.ReflTransGen.tail hxb' hedge)
      · exact Or.inr ⟨hxp, Relation.ReflTransGen.tail hcb hedge⟩

theorem add_child_no_new_cycle {s s' : Store} {p c : Nat} (hwf : Wf s)
    (h : add_child s p c = some s') (hp : p < s.length) (hc : c < s.length)
    (hnc : ¬ Reaches s c p) {x : Nat}
    (hx : ProperReach s' x x) : ProperReach s x x := by
  rcases Relation.TransGen.tail'_iff.mp hx with ⟨z, hxz, hzx⟩
  rcases (add_child_childEdge hwf h hp hc z x).mp hzx with ⟨hzp, hxc⟩ | ⟨hedge, -⟩
  · subst hzp
    subst hxc
    rcases add_child_reach_split hwf h hp hc hnc hxz with h1 | ⟨-, h2⟩
    · exact absurd h1 hnc
    · exact absurd h2 hnc
  · rcases add_child_reach_split hwf h hp hc hnc hxz with h1 | ⟨hxp, hcz⟩
    · exact Relation.TransGen.tail' h1 hedge
    · exfalso
      have hcx : Reaches s c x := Relation.ReflTransGen.tail hcz hedge
      exact hnc (Relation.ReflTransGen.trans hcx hxp)

/-! ### Reach-set cardinality (bounds the pruning recursion) -/

def reachSet (s : Store) (i : Nat) : Set Nat := {x | Reaches s i x}

theorem reachSet_finite (hwf : Wf s) (i : Nat) : (reachSet s i).Finite := by
  refine Set.Finite.subset ((Set.finite_Iio s.length).insert i) ?_
  intro x hx
  rcases reaches_lt hwf hx with he | hl
  · exact Or.inl he
  · exact Or.inr hl

theorem ncard_reach_child_lt {s : Store} (hwf : Wf s) {i c : Nat}
    (hacy : ¬ ProperReach s i i) (hedge : childEdge s i c) :
    (reachSet s c).ncard < (reachSet s i).ncard := by
  have hsub : reachSet s c ⊆ reachSet s i := by
    intro x hx
    exact Relation.ReflTransGen.head hedge hx
  have hmem : i ∈ reachSet s i := Relation.ReflTransGen.refl
  have hnot : i ∉ reachSet s c := by
    intro hi
    exact hacy (Relation.TransGen.head' hedge hi)
  refine Set.ncard_lt_ncard ?_ (reachSet_finite hwf i)
  exact ⟨hsub, fun hsup => hnot (hsup hmem)⟩

/-! ### Effect of removeAll and addAll -/

structure RemoveAllOut (s : Store) (i : Nat) (ks : List Nat) (s' : Store) : Prop where
  wf : Wf s'
  len : s'.length = s.length
  frame : ∀ j, j ∉ ks → j ≠ i → getC s' j = getC s j
  kidsEq : ∀ k ∈ ks, getC s' k = { getC s k with parent := none }
  nodeI : getC s' i = { getC s i with children := ks.foldl List.erase (getC s i).children }
  noNewCycle : ∀ x, ProperReach s' x x → ProperReach s x x

theorem removeAll_spec {s : Store} {i : Nat} {ks : List Nat} (hwf : Wf s)
    (hnd : ks.Nodup) (hsub : ∀ k ∈ ks, k ∈ (getC s i).children) (hni : i ∉ ks) :
    ∃ s', removeAll s i ks = some s' ∧ RemoveAllOut s i ks s' := by
  induction ks generalizing s with
  | nil =>
    refine ⟨s, rfl, ?_⟩
    exact ⟨hwf, rfl, fun j _ _ => rfl, by simp, by simp, fun x hx => hx⟩
  | cons k ks ih =>
    have hmem : k ∈ (getC s i).children := hsub k (by simp)
    obtain ⟨s1, h1⟩ : ∃ s1, remove_child s i k = some s1 := ⟨_, remove_child_some hmem⟩
    have hwf1 : Wf s1 := hwf.remove_child h1
    have hki : k ≠ i := fun he => hni (he ▸ List.mem_cons_self k ks)
    have hget := remove_child_getC h1
    have hsub1 : ∀ x ∈ ks, x ∈ (getC s1 i).children := by
      intro x hx
      rw [hget i, if_pos rfl]
      · have hxk : x ≠ k := fun he => (List.nodup_cons.mp hnd).1 (he ▸ hx)
        exact (List.mem_erase_of_ne hxk).mpr (hsub x (List.mem_cons_of_mem k hx))
    have hni1 : i ∉ ks := fun hx => hni (List.mem_cons_of_mem k hx)
    obtain ⟨s', hrun, hout⟩ := ih hwf1 (List.nodup_cons.mp hnd).2 hsub1 hni1
    refine ⟨s', ?_, ?_⟩
    · simp only [removeAll, h1, Option.bind_eq_bind, Option.some_bind]
      exact hrun
    constructor
    · exact hout.wf
    · rw [hout.len, remove_child_length h1]
    · intro j hj hji
      have hjk : j ≠ k := fun he => hj (he ▸ List.mem_cons_self k ks)
      rw [hout.frame j (fun hx => hj (List.mem_cons_of_mem k hx)) hji, hget j,
        if_neg hjk, if_neg hji]
    · intro x hx
      rcases List.mem_cons.mp hx with rfl | hx2
      · by_cases hxks : x ∈ ks
        · rw [hout.kidsEq x hxks, hget x, if_pos rfl]
          have hxi : x ≠ i := hki
          rw [if_neg hxi]
        · rw [hout.frame x hxks hki, hget x, if_pos rfl, if_neg hki]
      · have hxk : x ≠ k := fun he => (List.nodup_cons.mp hnd).1 (he ▸ hx2)
        have hxi : x ≠ i := fun he => hni1 (he ▸ hx2)
        rw [hout.kidsEq x hx2, hget x, if_neg hxk, if_neg hxi]
    · rw [hout.nodeI, hget i, if_pos rfl, if_neg (fun he : i = k => hki he.symm)]
      simp [List.foldl_cons]
    · intro x hx
      exact remove_child_no_new_cycle hwf h1 (hout.noNewCycle x hx)

structure AddAllOut (s : Store) (i : Nat) (ks : List Nat) (s' : Store) : Prop where
  wf : Wf s'
  len : s'.length = s.length
  frame : ∀ j, j ∉ ks → j ≠ i → getC s' j = getC s j
  kidsEq : ∀ k ∈ ks, getC s' k = { getC s k with parent := some i }
  nodeI : getC s' i = { getC s i with children := (getC s i).children ++ ks }
  noNewCycle : ∀ x, ProperReach s' x x → ProperReach s x x

theorem addAll_spec {s : Store} {i : Nat} {ks : List Nat} (hwf : Wf s)
    (hi : i < s.length) (hnd : ks.Nodup)
    (hfree : ∀ k ∈ ks, (getC s k).parent = none)
    (hlt : ∀ k ∈ ks, k < s.length)
    (hki : ∀ k ∈ ks, k ≠ i)
    (hnr : ∀ k ∈ ks, ¬ Reaches s k i) :
    ∃ s', addAll s i ks = some s' ∧ AddAllOut s i ks s' := by
  induction ks generalizing s with
  | nil =>
    refine ⟨s, rfl, ?_⟩
    exact ⟨hwf, rfl, fun j _ _ => rfl, by simp, by simp, fun x hx => hx⟩
  | cons k ks ih =>
    have hk := List.mem_cons_self k ks
    obtain ⟨sa, ha⟩ := add_child_eq_some (p := i) (c := k) hwf
    have hwfa : Wf sa := hwf.add_child ha hi (hlt k hk)
    have hgeta := add_child_getC ha hi (hlt k hk)
    have hfreek := hfree k hk
    have hget : ∀ j, getC sa j =
        { message := (getC s j).message,
          parent := if j = k then some i else (getC s j).parent,
          children := if j = i then (getC s i).children ++ [k]
                      else (getC s j).children } := by
      intro j
      rw [hgeta j, hfreek]
      rcases eq_or_ne j i with rfl | hji
      · simp
      · simp [hji]
    have hlena : sa.length = s.length := add_child_length ha
    have hedges : ∀ a b, childEdge sa a b ↔ (a = i ∧ b = k) ∨ (childEdge s a b ∧ b ≠ k) :=
      add_child_childEdge hwf ha hi (hlt k hk)
    have hsplit : ∀ x y, Relation.ReflTransGen (childEdge sa) x y →
        Reaches s x y ∨ (Reaches s x i ∧ Reaches s k y) :=
      fun x y h => add_child_reach_split hwf ha hi (hlt k hk) (hnr k hk) h
    have hnd2 := List.nodup_cons.mp hnd
    obtain ⟨s', hrun, hout⟩ := ih hwfa
      (by rw [hlena]; exact hi) hnd2.2
      (by
        intro x hx
        have hxk : x ≠ k := fun he => hnd2.1 (he ▸ hx)
        rw [hget x]
        simp [hxk, hfree x (List.mem_cons_of_mem k hx)])
      (by
        intro x hx
        rw [hlena]
        exact hlt x (List.mem_cons_of_mem k hx))
      (fun x hx => hki x (List.mem_cons_of_mem k hx))
      (by
        intro x hx hr
        rcases hsplit x i hr with h2 | ⟨h2, -⟩ <;>
          exact hnr x (List.mem_cons_of_mem k hx) h2)
    refine ⟨s', ?_, ?_⟩
    · simp only [addAll, ha, Option.bind_eq_bind, Option.some_bind]
      exact hrun
    constructor
    · exact hout.wf
    · rw [hout.len, hlena]
    · intro j hj hji
      have hjk : j ≠ k := fun he => hj (he ▸ hk)
      rw [hout.frame j (fun hx => hj (List.mem_cons_of_mem k hx)) hji, hget j,
        if_neg hjk, if_neg hji]
    · intro x hx
      rcases List.mem_cons.mp hx with rfl | hx2
      · by_cases hxks : x ∈ ks
        · exact absurd hxks hnd2.1
        · rw [hout.frame x hxks (hki x hx), hget x, if_pos rfl,
            if_neg (hki x hx)]
      · have hxk : x ≠ k := fun he => hnd2.1 (he ▸ hx2)
        rw [hout.kidsEq x hx2, hget x, if_neg hxk,
          if_neg (hki x (List.mem_cons_of_mem k hx2))]
    · rw [hout.nodeI, hget i, if_pos rfl, if_neg (fun he : i = k => hki k hk he.symm)]
      simp
    · intro x hx
      have h2 := hout.noNewCycle x hx
      rcases Relation.TransGen.tail'_iff.mp h2 with ⟨z, hxz, hzx⟩
      rcases (hedges z x).mp hzx with ⟨rfl, rfl⟩ | ⟨hedge, -⟩
      · rcases hsplit x z hxz with h3 | ⟨-, h3⟩
        · exact absurd h3 (hnr x hk)
        · exact absurd h3 (hnr x hk)
      · rcases hsplit x z hxz with h3 | ⟨hxi, hkz⟩
        · exact Relation.TransGen.tail' h3 hedge
        · exfalso
          exact hnr k hk (Relation.ReflTransGen.trans
            (Relation.ReflTransGen.tail hkz hedge) hxi)

/-! ### Small helpers for the pruning proof -/

theorem foldl_erase_self {l : List Nat} (h : l.Nodup) :
    l.foldl List.erase l = [] := by
  induction l with
  | nil => rfl
  | cons c rest ih =>
    have h2 := List.nodup_cons.mp h
    show List.foldl List.erase ((c :: rest).erase c) rest = []
    rw [List.erase_cons_head]
    exact ih h2.2

theorem siblings_disjoint {s : Store} (hwf : Wf s) {i c c' : Nat}
    (hc : childEdge s i c) (hc' : childEdge s i c') (hne : c ≠ c')
    (hacyc : ∀ x, Reaches s c x → ¬ ProperReach s x x)
    (hacyc' : ∀ x, Reaches s c' x → ¬ ProperReach s x x)
    {x : Nat} (hx : Reaches s c x) (hx' : Reaches s c' x) : False := by
  have u1 := (reaches_iff_upChain hwf).mp hx
  have u2 := (reaches_iff_upChain hwf).mp hx'
  have key : ∀ a b : Nat, childEdge s i a → childEdge s i b →
      (∀ y, Reaches s b y → ¬ ProperReach s y y) → a ≠ b → UpChain s a b → False := by
    intro a b ha hb hacyb hab hchain
    rcases Relation.ReflTransGen.cases_head hchain with he | ⟨p, hp, hpc⟩
    · exact hab he
    · have hpi : p = i := by
        have := hwf.pm i a ha
        rw [upEdge] at hp
        rw [this] at hp
        exact (Option.some.inj hp).symm
      subst hpi
      have hbi : Reaches s b p := (reaches_iff_upChain hwf).mpr hpc
      have : ProperReach s b b := Relation.TransGen.tail' hbi hb
      exact hacyb b Relation.ReflTransGen.refl this
  rcases upChain_linear u1 u2 with h | h
  · exact key c c' hc hc' hacyc' hne h
  · exact key c' c hc' hc hacyc (Ne.symm hne) h

theorem reachSet_congr {s s' : Store} {a : Nat}
    (h : ∀ j, Reaches s a j → (getC s' j).children = (getC s j).children) :
    reachSet s' a = reachSet s a := by
  ext x
  exact Iff.symm ((reaches_congr h) x)

/-! ### The pruning mega-theorem -/

/-- Everything `prune_container` guarantees about one call on a node whose
subtree is acyclic. -/
structure PruneOut (s : Store) (i : Nat) (s' : Store) (res : List Nat) : Prop where
  wf : Wf s'
  len : s'.length = s.length
  frame : ∀ j, ¬ Reaches s i j → getC s' j = getC s j
  parentI : (getC s' i).parent = (getC s i).parent
  msgs : ∀ j, (getC s' j).message = (getC s j).message
  subRes : ∀ r ∈ res, Reaches s i r
  nodes : ∀ r ∈ res, ∀ x, Reaches s' r x → Reaches s i x
  cover : ∀ x, (getC s x).message ≠ none → (Reaches s i x ↔ ∃ r ∈ res, Reaches s' r x)
  rootsFree : res = [i] ∨ ∀ r ∈ res, (getC s' r).parent = none
  noNewCycle : ∀ x, ProperReach s' x x → ProperReach s x x
  shapeChild : (getC s i).parent ≠ none → ∀ r ∈ res, (getC s' r).message ≠ none
  shapeDeep : ∀ r ∈ res, ∀ x, ProperReach s' r x → (getC s' x).message ≠ none
  shapeDummy : ∀ r ∈ res, (getC s' r).message = none → 2 ≤ (getC s' r).children.length
  ndRes : res.Nodup

/-- Everything the child loop of `prune_container` guarantees. -/
structure KidsOut (s : Store) (i : Nat) (cs : List Nat) (s1 : Store) (kids : List Nat) :
    Prop where
  wf : Wf s1
  len : s1.length = s.length
  msgs : ∀ j, (getC s1 j).message = (getC s j).message
  frame : ∀ j, (∀ c ∈ cs, ¬ Reaches s c j) → j ≠ i → getC s1 j = getC s j
  childrenI : (getC s1 i).children = cs.foldl List.erase (getC s i).children
  parentI : (getC s1 i).parent = (getC s i).parent
  msgI : (getC s1 i).message = (getC s i).message
  subKids : ∀ r ∈ kids, ∃ c ∈ cs, Reaches s c r
  nodes : ∀ r ∈ kids, ∀ x, Reaches s1 r x → ∃ c ∈ cs, Reaches s c x
  cover : ∀ x, (getC s x).message ≠ none →
    ((∃ c ∈ cs, Reaches s c x) ↔ ∃ r ∈ kids, Reaches s1 r x)
  kidsFree : ∀ r ∈ kids, (getC s1 r).parent = none
  kidsMsg : ∀ r ∈ kids, (getC s1 r).message ≠ none
  kidsDeep : ∀ r ∈ kids, ∀ x, ProperReach s1 r x → (getC s1 x).message ≠ none
  noNewCycle : ∀ x, ProperReach s1 x x → ProperReach s x x
  ndKids : kids.Nodup

theorem remove_child_frame {s s' : Store} {p c : Nat}
    (h : remove_child s p c = some s') {j : Nat} (hjc : j ≠ c) (hjp : j ≠ p) :
    getC s' j = getC s j := by
  rw [remove_child_getC h j, if_neg hjc, if_neg hjp]

/-- The statement proved about `prune_container` at a given fuel. -/
def PrunePartP (fuel : Nat) : Prop :=
  ∀ s i, Wf s → (∀ x, Reaches s i x → ¬ ProperReach s x x) → i < s.length →
    (reachSet s i).ncard < fuel →
    ∃ s' res, prune_container fuel s i = some (s', res) ∧ PruneOut s i s' res

/-- The statement proved about `pruneKids` at a given fuel. -/
def KidsPartP (fuel : Nat) : Prop :=
  ∀ cs s i, Wf s → i < s.length →
    (∀ c ∈ cs, childEdge s i c) → cs.Nodup →
    (∀ c ∈ cs, ∀ x, Reaches s c x → ¬ ProperReach s x x) →
    (∀ c ∈ cs, (reachSet s c).ncard < fuel) →
    ¬ ProperReach s i i →
    ∃ s1 kids, pruneKids fuel s i cs = some (s1, kids) ∧ KidsOut s i cs s1 kids

theorem kids_step (fuel : Nat) (hP : PrunePartP fuel) : KidsPartP fuel := by
  intro cs
  induction cs with
  | nil =>
    intro s i hwf hi hcs hnd hacy hfuel hacyI
    refine ⟨s, [], by simp [pruneKids], ?_⟩
    exact ⟨hwf, rfl, fun j => rfl, fun j _ _ => rfl, rfl, rfl, rfl,
      by simp, by simp, by simp, by simp, by simp, by simp,
      fun x hx => hx, List.nodup_nil⟩
  | cons c rest ih =>
    intro s i hwf hi hcs hnd hacy hfuel hacyI
    have hmemc : c ∈ c :: rest := List.mem_cons_self c rest
    have hc : childEdge s i c := hcs c hmemc
    have hcl : c < s.length := hwf.child_lt hc
    have hacyC := hacy c hmemc
    obtain ⟨sc, pr, hpr, O⟩ := hP s c hwf hacyC hcl (hfuel c hmemc)
    have hndr := List.nodup_cons.mp hnd
    have hci : c ≠ i := by
      intro he
      subst he
      exact hacyI (Relation.TransGen.single hc)
    have hIc : ¬ Reaches s c i := fun hr => hacyI (Relation.TransGen.head' hc hr)
    have hIframe : getC sc i = getC s i := O.frame i hIc
    have hmem : c ∈ (getC sc i).children := by rw [hIframe]; exact hc
    obtain ⟨s2, h2⟩ : ∃ s2, remove_child sc i c = some s2 := ⟨_, remove_child_some hmem⟩
    have hwf2 : Wf s2 := O.wf.remove_child h2
    have hlen2 : s2.length = s.length := (remove_child_length h2).trans O.len
    -- sibling subtrees are untouched so far
    have hdisj : ∀ c' ∈ rest, ∀ j, Reaches s c' j → ¬ Reaches s c j := by
      intro c' hc' j hj hcj
      have hne : c ≠ c' := fun he => hndr.1 (he ▸ hc')
      exact siblings_disjoint hwf hc (hcs c' (List.mem_cons_of_mem c hc')) hne
        hacyC (hacy c' (List.mem_cons_of_mem c hc')) hcj hj
    have hsib : ∀ c' ∈ rest, ∀ j, Reaches s c' j → getC s2 j = getC s j := by
      intro c' hc' j hj
      have hji : j ≠ i := by
        intro he
        subst he
        exact hacyI (Relation.TransGen.head'
          (hcs c' (List.mem_cons_of_mem c hc')) hj)
      have hjc : j ≠ c := fun he => hdisj c' hc' j hj (by rw [he]; exact Reaches.refl c)
      rw [remove_child_frame h2 hjc hji]
      exact O.frame j (hdisj c' hc' j hj)
    have hsibR : ∀ c' ∈ rest, ∀ x, Reaches s2 c' x ↔ Reaches s c' x := by
      intro c' hc' x
      exact (reaches_congr (fun j hj => by rw [hsib c' hc' j hj]) x).symm
    -- cycles in s2 were cycles in s
    have hcyc2 : ∀ x, ProperReach s2 x x → ProperReach s x x := by
      intro x hx
      exact O.noNewCycle x (remove_child_no_new_cycle O.wf h2 hx)
    -- recurse on the rest
    obtain ⟨s3, kids2, hrun3, K⟩ := ih s2 i hwf2 (by rw [hlen2]; exact hi)
      (by
        intro c' hc'
        have hcc' : c' ≠ c := fun he => hndr.1 (he ▸ hc')
        unfold childEdge
        rw [remove_child_children h2 i, if_pos rfl, hIframe]
        exact (List.mem_erase_of_ne hcc').mpr
          (hcs c' (List.mem_cons_of_mem c hc')))
      hndr.2
      (by
        intro c' hc' x hx hcyc
        exact hacy c' (List.mem_cons_of_mem c hc') x ((hsibR c' hc' x).mp hx)
          (hcyc2 x hcyc))
      (by
        intro c' hc'
        have : reachSet s2 c' = reachSet s c' :=
          reachSet_congr (fun j hj => by rw [hsib c' hc' j hj])
        rw [this]
        exact hfuel c' (List.mem_cons_of_mem c hc'))
      (fun hcy => hacyI (hcyc2 i hcy))
    -- subtrees of the results of the prune of c keep their children lists
    have hprC : ∀ r ∈ pr, ∀ j, Reaches sc r j →
        (getC s3 j).children = (getC sc j).children := by
      intro r hr j hj
      have hjc : Reaches s c j := O.nodes r hr j hj
      have hji : j ≠ i := fun he => hIc (he ▸ hjc)
      have hframe3 : getC s3 j = getC s2 j := by
        refine K.frame j ?_ hji
        intro c' hc' hr2
        exact hdisj c' hc' j ((hsibR c' hc' j).mp hr2) hjc
      rw [hframe3, remove_child_children h2 j, if_neg hji]
    have hprR : ∀ r ∈ pr, ∀ x, Reaches s3 r x ↔ Reaches sc r x := by
      intro r hr x
      exact (reaches_congr (fun j hj => hprC r hr j hj) x).symm
    -- global message chain
    have hmsgs : ∀ j, (getC s3 j).message = (getC s j).message := by
      intro j
      rw [K.msgs j, remove_child_message h2 j, O.msgs j]
    -- parents of the pruned results are cleared
    have hprFree : ∀ r ∈ pr, (getC s3 r).parent = none := by
      intro r hr
      have hjc : Reaches s c r := O.subRes r hr
      have hji : r ≠ i := fun he => hIc (he ▸ hjc)
      have hframe3 : getC s3 r = getC s2 r := by
        refine K.frame r ?_ hji
        intro c' hc' hr2
        exact hdisj c' hc' r ((hsibR c' hc' r).mp hr2) hjc
      rw [hframe3, remove_child_parent h2 r]
      rcases eq_or_ne r c with rfl | hrc
      · rw [if_pos rfl]
      · rw [if_neg hrc]
        rcases O.rootsFree with hres | hfree
        · exact absurd (hres ▸ hr) (by simpa using hrc)
        · exact hfree r hr
    refine ⟨s3, pr ++ kids2, ?_, ?_⟩
    · simp only [pruneKids, hpr, h2, hrun3]
    constructor
    · exact K.wf
    · rw [K.len, hlen2]
    · exact hmsgs
    · -- frame
      intro j hj hji
      have hjc : ¬ Reaches s c j := hj c hmemc
      have hjnec : j ≠ c := fun he => hjc (by rw [he]; exact Reaches.refl c)
      have h32 : getC s3 j = getC s2 j := by
        refine K.frame j ?_ hji
        intro c' hc' hr2
        exact hj c' (List.mem_cons_of_mem c hc') ((hsibR c' hc' j).mp hr2)
      rw [h32, remove_child_frame h2 hjnec hji]
      exact O.frame j hjc
    · -- childrenI
      rw [K.childrenI]
      have : (getC s2 i).children = ((getC s i).children).erase c := by
        rw [remove_child_children h2 i, if_pos rfl, hIframe]
      rw [this]
      rfl
    · -- parentI
      rw [K.parentI, remove_child_parent h2 i,
        if_neg (fun he : i = c => hci he.symm), hIframe]
    · -- msgI
      rw [hmsgs i]
    · -- subKids
      intro r hr
      rcases List.mem_append.mp hr with hr | hr
      · exact ⟨c, hmemc, O.subRes r hr⟩
      · obtain ⟨c', hc', hrr⟩ := K.subKids r hr
        exact ⟨c', List.mem_cons_of_mem c hc', (hsibR c' hc' r).mp hrr⟩
    · -- nodes
      intro r hr x hx
      rcases List.mem_append.mp hr with hr | hr
      · exact ⟨c, hmemc, O.nodes r hr x ((hprR r hr x).mp hx)⟩
      · obtain ⟨c', hc', hrr⟩ := K.nodes r hr x hx
        exact ⟨c', List.mem_cons_of_mem c hc', (hsibR c' hc' x).mp hrr⟩
    · -- cover
      intro x hmsg
      constructor
      · intro ⟨c0, hc0, hr0⟩
        rcases List.mem_cons.mp hc0 with rfl | hc0r
        · obtain ⟨r, hrp, hrx⟩ := (O.cover x hmsg).mp hr0
          exact ⟨r, List.mem_append.mpr (Or.inl hrp), (hprR r hrp x).mpr hrx⟩
        · have hx2 : Reaches s2 c0 x := (hsibR c0 hc0r x).mpr hr0
          have hmsg2 : (getC s2 x).message ≠ none := by
            rw [remove_child_message h2 x, O.msgs x]
            exact hmsg
          obtain ⟨r, hrk, hrx⟩ := (K.cover x hmsg2).mp ⟨c0, hc0r, hx2⟩
          exact ⟨r, List.mem_append.mpr (Or.inr hrk), hrx⟩
      · intro ⟨r, hrk, hrx⟩
        rcases List.mem_append.mp hrk with hrp | hrk2
        · have := (O.cover x hmsg).mpr ⟨r, hrp, (hprR r hrp x).mp hrx⟩
          exact ⟨c, hmemc, this⟩
        · have hmsg2 : (getC s2 x).message ≠ none := by
            rw [remove_child_message h2 x, O.msgs x]
            exact hmsg
          obtain ⟨c', hc', hcx⟩ := (K.cover x hmsg2).mpr ⟨r, hrk2, hrx⟩
          exact ⟨c', List.mem_cons_of_mem c hc', (hsibR c' hc' x).mp hcx⟩
    · -- kidsFree
      intro r hr
      rcases List.mem_append.mp hr with hr | hr
      · exact hprFree r hr
      · exact K.kidsFree r hr
    · -- kidsMsg
      intro r hr
      rcases List.mem_append.mp hr with hr | hr
      · have hpc : (getC s c).parent ≠ none := by
          rw [hwf.pm i c hc]
          simp
        have := O.shapeChild hpc r hr
        rw [hmsgs r, ← O.msgs r]
        exact this
      · exact K.kidsMsg r hr
    · -- kidsDeep
      intro r hr x hx
      rcases List.mem_append.mp hr with hr | hr
      · have hx' : ProperReach sc r x :=
          (properReach_congr (fun j hj => hprC r hr j hj) x).mpr hx
        have := O.shapeDeep r hr x hx'
        rw [hmsgs x, ← O.msgs x]
        exact this
      · exact K.kidsDeep r hr x hx
    · -- noNewCycle
      intro x hx
      exact hcyc2 x (K.noNewCycle x hx)
    · -- ndKids
      refine (@List.nodup_append _ pr _).mpr ⟨O.ndRes, K.ndKids, ?_⟩
      intro r hrp hrk
      obtain ⟨c', hc', hrr⟩ := K.subKids r hrk
      exact hdisj c' hc' r ((hsibR c' hc' r).mp hrr) (O.subRes r hrp)

theorem parent_none_eta {c : Container} (h : c.parent = none) :
    { c with parent := none } = c := by
  cases c with
  | mk m p ch =>
    simp only at h
    rw [← h]

theorem reaches_eq_or_proper {s : Store} {a b : Nat} (h : Reaches s a b) :
    a = b ∨ ProperReach s a b := by
  rcases Relation.ReflTransGen.cases_head h with he | ⟨c, hac, hcb⟩
  · exact Or.inl he
  · exact Or.inr (Relation.TransGen.head' hac hcb)

theorem prune_step (fuel : Nat) (hK : KidsPartP fuel) : PrunePartP (fuel + 1) := by
  intro s i hwf hacy hi hfuel
  have hacyI : ¬ ProperReach s i i := hacy i (Reaches.refl i)
  have hnd : ((getC s i).children).Nodup := hwf.nd i
  have hacyKids : ∀ c ∈ (getC s i).children, ∀ x, Reaches s c x → ¬ ProperReach s x x :=
    fun c hc x hx => hacy x (Relation.ReflTransGen.head hc hx)
  have hfuelK : ∀ c ∈ (getC s i).children, (reachSet s c).ncard < fuel := by
    intro c hc
    have h1 : (reachSet s c).ncard < (reachSet s i).ncard :=
      ncard_reach_child_lt hwf hacyI hc
    omega
  obtain ⟨s1, kids, hrun, K⟩ := hK ((getC s i).children) s i hwf hi
    (fun c hc => hc) hnd hacyKids hfuelK hacyI
  have hempty : (getC s1 i).children = [] := by
    rw [K.childrenI]
    exact foldl_erase_self hnd
  have hkid_sub : ∀ k ∈ kids, Reaches s i k := by
    intro k hk
    obtain ⟨c, hc, hr⟩ := K.subKids k hk
    exact Relation.ReflTransGen.head hc hr
  have hkid_lt : ∀ k ∈ kids, k < s.length := by
    intro k hk
    obtain ⟨c, hc, hr⟩ := K.subKids k hk
    rcases reaches_lt hwf hr with rfl | h
    · exact hwf.child_lt hc
    · exact h
  have hkid_ne : ∀ k ∈ kids, k ≠ i := by
    intro k hk he
    subst he
    obtain ⟨c, hc, hr⟩ := K.subKids k hk
    exact hacyI (Relation.TransGen.head' hc hr)
  have hkid_ni : ∀ k ∈ kids, ¬ Reaches s1 k i := by
    intro k hk hr
    obtain ⟨c, hc, hr2⟩ := K.nodes k hk i hr
    exact hacyI (Relation.TransGen.head' hc hr2)
  obtain ⟨s2, hadd, A⟩ := addAll_spec K.wf (by rw [K.len]; exact hi) K.ndKids
    K.kidsFree (fun k hk => by rw [K.len]; exact hkid_lt k hk) hkid_ne hkid_ni
  have hs2i : getC s2 i = { message := (getC s i).message,
                            parent := (getC s i).parent,
                            children := kids } := by
    rw [A.nodeI]
    simp only [hempty, K.parentI, K.msgI, List.nil_append]
  have hmsg2 : ∀ j, (getC s2 j).message = (getC s j).message := by
    intro j
    rcases eq_or_ne j i with rfl | hji
    · rw [hs2i]
    · by_cases hjk : j ∈ kids
      · rw [A.kidsEq j hjk]
        exact K.msgs j
      · rw [A.frame j hjk hji]
        exact K.msgs j
  have hpar2 : ∀ j, j ≠ i → j ∉ kids → (getC s2 j).parent = (getC s1 j).parent := by
    intro j hji hjk
    rw [A.frame j hjk hji]
  have hcyc2 : ∀ x, ProperReach s2 x x → ProperReach s x x :=
    fun x hx => K.noNewCycle x (A.noNewCycle x hx)
  have hframe2 : ∀ j, ¬ Reaches s i j → getC s2 j = getC s j := by
    intro j hj
    have hji : j ≠ i := fun he => hj (by rw [he]; exact Reaches.refl i)
    have hjk : j ∉ kids := fun hk => hj (hkid_sub j hk)
    rw [A.frame j hjk hji]
    refine K.frame j ?_ hji
    intro c hc hr
    exact hj (Relation.ReflTransGen.head hc hr)
  -- children lists inside each kid subtree are unchanged by the re-attach
  have hkidC : ∀ k ∈ kids, ∀ j, Reaches s1 k j →
      (getC s2 j).children = (getC s1 j).children := by
    intro k hk j hj
    have hji : j ≠ i := by
      intro he
      exact hkid_ni k hk (he ▸ hj)
    by_cases hjk : j ∈ kids
    · rw [A.kidsEq j hjk]
    · rw [A.frame j hjk hji]
  have hkidR : ∀ k ∈ kids, ∀ x, Reaches s2 k x ↔ Reaches s1 k x :=
    fun k hk x => (reaches_congr (hkidC k hk) x).symm
  have hkidP : ∀ k ∈ kids, ∀ x, ProperReach s2 k x ↔ ProperReach s1 k x :=
    fun k hk x => (properReach_congr (hkidC k hk) x).symm
  -- decompose reachability from i in s2
  have hedge2 : ∀ k, childEdge s2 i k ↔ k ∈ kids := by
    intro k
    unfold childEdge
    rw [hs2i]
  have hreach2 : ∀ x, Reaches s2 i x ↔ (x = i ∨ ∃ k ∈ kids, Reaches s2 k x) := by
    intro x
    constructor
    · intro h
      rcases Relation.ReflTransGen.cases_head h with he | ⟨k, hik, hkx⟩
      · exact Or.inl he.symm
      · exact Or.inr ⟨k, (hedge2 k).mp hik, hkx⟩
    · intro h
      rcases h with rfl | ⟨k, hk, hkx⟩
      · exact Reaches.refl x
      · exact Relation.ReflTransGen.head ((hedge2 k).mpr hk) hkx
  have hreachS : ∀ x, (getC s x).message ≠ none → x ≠ i →
      (Reaches s i x ↔ ∃ k ∈ kids, Reaches s2 k x) := by
    intro x hmsg hxi
    constructor
    · intro h
      rcases Relation.ReflTransGen.cases_head h with he | ⟨c, hic, hcx⟩
      · exact absurd he.symm hxi
      · obtain ⟨k, hk, hkx⟩ := (K.cover x hmsg).mp ⟨c, hic, hcx⟩
        exact ⟨k, hk, (hkidR k hk x).mpr hkx⟩
    · intro ⟨k, hk, hkx⟩
      obtain ⟨c, hc, hcx⟩ := (K.cover x hmsg).mpr ⟨k, hk, (hkidR k hk x).mp hkx⟩
      exact Relation.ReflTransGen.head hc hcx
  -- reduce the program
  have hred : prune_container (fuel + 1) s i =
      (if (getC s2 i).message = none ∧ (getC s2 i).children = [] then some (s2, [])
       else if (getC s2 i).message = none ∧
           ((getC s2 i).children.length = 1 ∨ (getC s2 i).parent ≠ none) then
         match removeAll s2 i ((getC s2 i).children) with
         | none => none
         | some s3 => some (s3, (getC s2 i).children)
       else some (s2, [i])) := by
    simp only [prune_container, hrun, hadd]
  by_cases hmi : (getC s i).message = none
  case neg =>
    -- keep the node
    have hcond1 : ¬ ((getC s2 i).message = none ∧ (getC s2 i).children = []) := by
      rw [hs2i]
      exact fun h => hmi h.1
    have hcond2 : ¬ ((getC s2 i).message = none ∧
        ((getC s2 i).children.length = 1 ∨ (getC s2 i).parent ≠ none)) := by
      rw [hs2i]
      exact fun h => hmi h.1
    rw [hred, if_neg hcond1, if_neg hcond2]
    refine ⟨s2, [i], rfl, ?_⟩
    constructor
    · exact A.wf
    · rw [A.len, K.len]
    · exact hframe2
    · rw [hs2i]
    · exact hmsg2
    · intro r hr
      have : r = i := by simpa using hr
      subst this
      exact Reaches.refl r
    · intro r hr x hx
      have : r = i := by simpa using hr
      subst this
      rcases (hreach2 x).mp hx with rfl | ⟨k, hk, hkx⟩
      · exact Reaches.refl x
      · obtain ⟨c, hc, hcx⟩ := K.nodes k hk x ((hkidR k hk x).mp hkx)
        exact Relation.ReflTransGen.head hc hcx
    · intro x hmsg
      simp only [List.mem_singleton, exists_eq_left]
      constructor
      · intro h
        rcases eq_or_ne x i with rfl | hxi
        · exact Reaches.refl x
        · obtain ⟨k, hk, hkx⟩ := (hreachS x hmsg hxi).mp h
          exact (hreach2 x).mpr (Or.inr ⟨k, hk, hkx⟩)
      · intro h
        rcases (hreach2 x).mp h with rfl | ⟨k, hk, hkx⟩
        · exact Reaches.refl x
        · exact (hreachS x hmsg (by
            intro he
            subst he
            exact hkid_ni k hk ((hkidR k hk x).mp hkx))).mpr ⟨k, hk, hkx⟩
    · exact Or.inl rfl
    · exact hcyc2
    · intro _ r hr
      have : r = i := by simpa using hr
      subst this
      rw [hmsg2 r]
      exact hmi
    · intro r hr x hx
      have hri : r = i := by simpa using hr
      rw [hri] at hx
      rcases Relation.TransGen.head'_iff.mp hx with ⟨k, hik, hkx⟩
      have hk := (hedge2 k).mp hik
      rcases reaches_eq_or_proper hkx with he | hprop
      · rw [← he, A.kidsEq k hk]
        exact K.kidsMsg k hk
      · have hdeep := K.kidsDeep k hk x ((hkidP k hk x).mp hprop)
        have hxi : x ≠ i := by
          intro he
          have hrx : Reaches s1 k x := (hkidR k hk x).mp
            (Relation.TransGen.to_reflTransGen hprop)
          rw [he] at hrx
          exact hkid_ni k hk hrx
        by_cases hxk : x ∈ kids
        · rw [A.kidsEq x hxk]
          exact hdeep
        · rw [A.frame x hxk hxi]
          exact hdeep
    · intro r hr hmr
      have hri : r = i := by simpa using hr
      subst hri
      rw [hmsg2 r] at hmr
      exact absurd hmr hmi
    · exact List.nodup_singleton i
  case pos =>
    by_cases hknil : kids = []
    · -- nuke the empty container
      have hcond1 : (getC s2 i).message = none ∧ (getC s2 i).children = [] := by
        rw [hs2i]
        exact ⟨hmi, by rw [hknil]⟩
      rw [hred, if_pos hcond1]
      refine ⟨s2, [], rfl, ?_⟩
      refine ⟨A.wf, by rw [A.len, K.len], hframe2, by rw [hs2i], hmsg2,
        by simp, by simp, ?_, Or.inr (by simp), hcyc2, by simp, by simp, by simp,
        List.nodup_nil⟩
      intro x hmsg
      refine iff_of_false ?_ (by simp)
      intro h
      rcases eq_or_ne x i with rfl | hxi
      · exact hmsg hmi
      · obtain ⟨k, hk, -⟩ := (hreachS x hmsg hxi).mp h
        rw [hknil] at hk
        exact absurd hk (List.not_mem_nil k)
    · by_cases hprom : kids.length = 1 ∨ (getC s i).parent ≠ none
      · -- promote the children
        have hcond1 : ¬ ((getC s2 i).message = none ∧ (getC s2 i).children = []) := by
          rw [hs2i]
          exact fun h => hknil h.2
        have hcond2 : (getC s2 i).message = none ∧
            ((getC s2 i).children.length = 1 ∨ (getC s2 i).parent ≠ none) := by
          rw [hs2i]
          exact ⟨hmi, hprom⟩
        have hchil2 : (getC s2 i).children = kids := by rw [hs2i]
        have hini : i ∉ kids := fun hik => (hkid_ne i hik) rfl
        obtain ⟨s3, hrem, R⟩ := removeAll_spec A.wf K.ndKids
          (by rw [hchil2]; exact fun k hk => hk) hini
        rw [hred, if_neg hcond1, if_pos hcond2, hchil2, hrem]
        refine ⟨s3, kids, rfl, ?_⟩
        have h31 : ∀ j, j ≠ i → getC s3 j = getC s1 j := by
          intro j hji
          by_cases hjk : j ∈ kids
          · rw [R.kidsEq j hjk, A.kidsEq j hjk]
            exact parent_none_eta (K.kidsFree j hjk)
          · rw [R.frame j hjk hji, A.frame j hjk hji]
        have h3i : getC s3 i = { message := (getC s i).message,
                                 parent := (getC s i).parent,
                                 children := [] } := by
          rw [R.nodeI, hchil2, hs2i]
          simp only
          rw [foldl_erase_self K.ndKids]
        have hkR3 : ∀ k ∈ kids, ∀ x, Reaches s3 k x ↔ Reaches s1 k x := by
          intro k hk x
          refine (reaches_congr ?_ x).symm
          intro j hj
          have hji : j ≠ i := by
            intro he
            exact hkid_ni k hk (he ▸ hj)
          rw [h31 j hji]
        have hkP3 : ∀ k ∈ kids, ∀ x, ProperReach s3 k x ↔ ProperReach s1 k x := by
          intro k hk x
          refine (properReach_congr ?_ x).symm
          intro j hj
          have hji : j ≠ i := by
            intro he
            exact hkid_ni k hk (he ▸ hj)
          rw [h31 j hji]
        have hmsg3 : ∀ j, (getC s3 j).message = (getC s j).message := by
          intro j
          rcases eq_or_ne j i with rfl | hji
          · rw [h3i]
          · rw [h31 j hji, K.msgs j]
        constructor
        · exact R.wf
        · rw [R.len, A.len, K.len]
        · intro j hj
          have hji : j ≠ i := fun he => hj (by rw [he]; exact Reaches.refl i)
          rw [h31 j hji]
          refine K.frame j ?_ hji
          intro c hc hr
          exact hj (Relation.ReflTransGen.head hc hr)
        · rw [h3i]
        · exact hmsg3
        · exact hkid_sub
        · intro r hr x hx
          obtain ⟨c, hc, hcx⟩ := K.nodes r hr x ((hkR3 r hr x).mp hx)
          exact Relation.ReflTransGen.head hc hcx
        · intro x hmsg
          constructor
          · intro h
            rcases Relation.ReflTransGen.cases_head h with he | ⟨c, hic, hcx⟩
            · rw [← he] at hmsg
              exact absurd hmi hmsg
            · obtain ⟨k, hk, hkx⟩ := (K.cover x hmsg).mp ⟨c, hic, hcx⟩
              exact ⟨k, hk, (hkR3 k hk x).mpr hkx⟩
          · intro ⟨k, hk, hkx⟩
            obtain ⟨c, hc, hcx⟩ := (K.cover x hmsg).mpr ⟨k, hk, (hkR3 k hk x).mp hkx⟩
            exact Relation.ReflTransGen.head hc hcx
        · refine Or.inr ?_
          intro r hr
          rw [R.kidsEq r hr]
        · intro x hx
          exact hcyc2 x (R.noNewCycle x hx)
        · intro _ r hr
          rw [hmsg3 r, ← K.msgs r]
          exact K.kidsMsg r hr
        · intro r hr x hx
          have hdeep := K.kidsDeep r hr x ((hkP3 r hr x).mp hx)
          have hxi : x ≠ i := by
            intro he
            have hrx : Reaches s1 r x := (hkR3 r hr x).mp
              (Relation.TransGen.to_reflTransGen hx)
            rw [he] at hrx
            exact hkid_ni r hr hrx
          rw [h31 x hxi]
          exact hdeep
        · intro r hr hmr
          rw [hmsg3 r, ← K.msgs r] at hmr
          exact absurd hmr (K.kidsMsg r hr)
        · exact K.ndKids
      · -- keep a parentless dummy with at least two children
        have hcond1 : ¬ ((getC s2 i).message = none ∧ (getC s2 i).children = []) := by
          rw [hs2i]
          exact fun h => hknil h.2
        have hcond2 : ¬ ((getC s2 i).message = none ∧
            ((getC s2 i).children.length = 1 ∨ (getC s2 i).parent ≠ none)) := by
          rw [hs2i]
          exact fun h => hprom h.2
        rw [hred, if_neg hcond1, if_neg hcond2]
        refine ⟨s2, [i], rfl, ?_⟩
        constructor
        · exact A.wf
        · rw [A.len, K.len]
        · exact hframe2
        · rw [hs2i]
        · exact hmsg2
        · intro r hr
          have hri : r = i := by simpa using hr
          rw [hri]
          exact Reaches.refl i
        · intro r hr x hx
          have hri : r = i := by simpa using hr
          rw [hri] at hx
          rcases (hreach2 x).mp hx with rfl | ⟨k, hk, hkx⟩
          · exact Reaches.refl x
          · obtain ⟨c, hc, hcx⟩ := K.nodes k hk x ((hkidR k hk x).mp hkx)
            exact Relation.ReflTransGen.head hc hcx
        · intro x hmsg
          simp only [List.mem_singleton, exists_eq_left]
          constructor
          · intro h
            rcases eq_or_ne x i with rfl | hxi
            · exact Reaches.refl x
            · obtain ⟨k, hk, hkx⟩ := (hreachS x hmsg hxi).mp h
              exact (hreach2 x).mpr (Or.inr ⟨k, hk, hkx⟩)
          · intro h
            rcases (hreach2 x).mp h with rfl | ⟨k, hk, hkx⟩
            · exact Reaches.refl x
            · exact (hreachS x hmsg (by
                intro he
                have hrx : Reaches s1 k x := (hkidR k hk x).mp hkx
                rw [he] at hrx
                exact hkid_ni k hk hrx)).mpr ⟨k, hk, hkx⟩
        · exact Or.inl rfl
        · exact hcyc2
        · intro hp
          exact absurd (Or.inr hp) hprom
        · intro r hr x hx
          have hri : r = i := by simpa using hr
          rw [hri] at hx
          rcases Relation.TransGen.head'_iff.mp hx with ⟨k, hik, hkx⟩
          have hk := (hedge2 k).mp hik
          rcases reaches_eq_or_proper hkx with he | hprop
          · rw [← he, A.kidsEq k hk]
            exact K.kidsMsg k hk
          · have hdeep := K.kidsDeep k hk x ((hkidP k hk x).mp hprop)
            have hxi : x ≠ i := by
              intro he
              have hrx : Reaches s1 k x := (hkidR k hk x).mp
                (Relation.TransGen.to_reflTransGen hprop)
              rw [he] at hrx
              exact hkid_ni k hk hrx
            by_cases hxk : x ∈ kids
            · rw [A.kidsEq x hxk]
              exact hdeep
            · rw [A.frame x hxk hxi]
              exact hdeep
        · intro r hr _
          have hri : r = i := by simpa using hr
          rw [hri, hs2i]
          simp only
          have h0 : kids.length ≠ 0 := fun h0 => hknil (List.length_eq_zero.mp h0)
          have h1 : kids.length ≠ 1 := fun h1 => hprom (Or.inl h1)
          omega
        · exact List.nodup_singleton i

/-! ### Top-level pruning spec -/

theorem prune_parts : ∀ fuel, PrunePartP fuel ∧ KidsPartP fuel := by
  intro fuel
  induction fuel with
  | zero =>
    have hP : PrunePartP 0 := by
      intro s i _ _ _ hfuel
      exact absurd hfuel (by omega)
    exact ⟨hP, kids_step 0 hP⟩
  | succ F ih =>
    have hP := prune_step F ih.2
    exact ⟨hP, kids_step (F + 1) hP⟩

theorem prune_container_spec {s : Store} {i : Nat} (hwf : Wf s)
    (hacy : ∀ x, Reaches s i x → ¬ ProperReach s x x) (hi : i < s.length)
    {fuel : Nat} (hfuel : (reachSet s i).ncard < fuel) :
    ∃ s' res, prune_container fuel s i = some (s', res) ∧ PruneOut s i s' res :=
  (prune_parts fuel).1 s i hwf hacy hi hfuel

theorem reachSet_ncard_le {s : Store} (hwf : Wf s) {i : Nat} (hi : i < s.length) :
    (reachSet s i).ncard ≤ s.length := by
  have hsub : reachSet s i ⊆ Set.Iio s.length := by
    intro x hx
    rcases reaches_lt hwf hx with rfl | h
    · exact hi
    · exact h
  calc (reachSet s i).ncard ≤ (Set.Iio s.length).ncard :=
        Set.ncard_le_ncard hsub (Set.finite_Iio s.length)
    _ = s.length := by
        rw [← Finset.coe_Iio, Set.ncard_coe_Finset, Nat.card_Iio]

/-! ### Table lemmas (the OrderedDict) -/

theorem setT_of_absent {t : Table} {k : String} (h : lookupT t k = none) (v : Nat) :
    setT t k v = t ++ [(k, v)] := by
  unfold setT
  unfold lookupT at h
  have hf : t.find? (fun p => p.1 == k) = none := by
    rcases hf : t.find? (fun p => p.1 == k) with _ | p
    · exact hf
    · rw [hf] at h
      simp at h
  rw [hf]
  simp

theorem lookupT_append (t1 t2 : Table) (k : String) :
    lookupT (t1 ++ t2) k =
      match lookupT t1 k with
      | some v => some v
      | none => lookupT t2 k := by
  unfold lookupT
  rw [List.find?_append]
  rcases h : t1.find? (fun p => p.1 == k) with _ | p <;> simp [Option.orElse, h]

theorem lookupT_single (k k' : String) (v : Nat) :
    lookupT [(k, v)] k' = if k = k' then some v else none := by
  unfold lookupT
  rcases eq_or_ne k k' with rfl | hne
  · simp
  · have hb : (k == k') = false := beq_eq_false_iff_ne.mpr hne
    rw [if_neg hne]
    simp only [List.find?, hb]
    rfl

theorem valuesT_append (t1 t2 : Table) :
    valuesT (t1 ++ t2) = valuesT t1 ++ valuesT t2 := by
  simp [valuesT]

theorem lookupT_mem_values {t : Table} {k : String} {v : Nat}
    (h : lookupT t k = some v) : v ∈ valuesT t := by
  unfold lookupT at h
  rcases hf : t.find? (fun p => p.1 == k) with _ | p
  · rw [hf] at h
    simp at h
  · rw [hf] at h
    have hv : p.2 = v := by simpa using h
    exact List.mem_map.mpr ⟨p, List.mem_of_find?_eq_some hf, hv⟩

/-! ### The linker invariant -/

structure LInv (msgs : List Message) (st : LState) : Prop where
  wf : Wf st.store
  vals_lt : ∀ v ∈ valuesT st.tbl, v < st.store.length
  vals_nd : (valuesT st.tbl).Nodup
  vals_all : ∀ i, i < st.store.length → i ∈ valuesT st.tbl
  stored : ∀ i m, (getC st.store i).message = some m → m ∈ msgs
  storedId : ∀ i m, (getC st.store i).message = some m →
    lookupT st.tbl m.message_id = some i

theorem Wf.of_fields {s s' : Store}
    (hpar : ∀ j, (getC s' j).parent = (getC s j).parent)
    (hch : ∀ j, (getC s' j).children = (getC s j).children)
    (hwf : Wf s) : Wf s' := by
  constructor
  · intro i c hc
    rw [hch i] at hc
    rw [hpar c]
    exact hwf.pm i c hc
  · intro c p hp
    rw [hpar c] at hp
    rw [hch p]
    exact hwf.mp c p hp
  · intro i
    rw [hch i]
    exact hwf.nd i

theorem Wf.append_node {s : Store} (hwf : Wf s) (m : Option Message) :
    Wf (s ++ [{ Container.empty with message := m }]) := by
  constructor
  · intro i c hc
    rw [getC_append] at hc
    rw [getC_append]
    split at hc
    · simp [Container.empty] at hc
    · have := hwf.pm i c hc
      rw [if_neg (fun he : c = s.length => by
        rw [he, getC_oob (le_refl s.length)] at this
        simp [Container.empty] at this)]
      exact this
  · intro c p hp
    rw [getC_append] at hp
    rw [getC_append]
    split at hp
    · simp [Container.empty] at hp
    · have := hwf.mp c p hp
      rw [if_neg (fun he : p = s.length => by
        rw [he, getC_oob (le_refl s.length)] at this
        simp [Container.empty] at this)]
      exact this
  · intro i
    rw [getC_append]
    split
    · simp [Container.empty]
    · exact hwf.nd i

/-- Effect of step one (a): only the message field of the container of the
message id (existing or fresh) is written. -/
theorem step1a_lookup_getC {st : LState} {m : Message} {i : Nat}
    (h : lookupT st.tbl m.message_id = some i) (j : Nat) :
    getC (step1a st m).1.store j =
      if j = i ∧ i < st.store.length then { getC st.store i with message := some m }
      else getC st.store j := by
  unfold step1a
  rw [h]
  simp only
  rw [getC_setC]
  by_cases hji : i = j
  · subst hji
    rfl
  · rw [if_neg (fun hh => hji hh.1), if_neg (fun hh => hji hh.1.symm)]

theorem step1a_lookup_tbl {st : LState} {m : Message} {i : Nat}
    (h : lookupT st.tbl m.message_id = some i) :
    (step1a st m).1.tbl = st.tbl ∧ (step1a st m).2 = i := by
  unfold step1a
  rw [h]
  exact ⟨rfl, rfl⟩

theorem step1a_inv {msgs : List Message} {st : LState} (h : LInv msgs st)
    {m : Message} (hm : m ∈ msgs) :
    LInv msgs (step1a st m).1 ∧ (step1a st m).2 < (step1a st m).1.store.length ∧
      st.store.length ≤ (step1a st m).1.store.length := by
  rcases hl : lookupT st.tbl m.message_id with _ | i
  · -- fresh container
    unfold step1a
    rw [hl]
    simp only
    rw [setT_of_absent hl]
    have hget : ∀ j, getC (st.store ++ [{ Container.empty with message := some m }]) j
        = if j = st.store.length then { Container.empty with message := some m }
          else getC st.store j := fun j => getC_append st.store _ j
    refine ⟨⟨h.wf.append_node (some m), ?_, ?_, ?_, ?_, ?_⟩, by simp, by simp⟩
    · intro v hv
      rw [valuesT_append] at hv
      simp only [List.length_append, List.length_singleton]
      rcases List.mem_append.mp hv with hv | hv
      · have := h.vals_lt v hv
        omega
      · simp [valuesT] at hv
        omega
    · rw [valuesT_append]
      refine List.Nodup.append h.vals_nd (by simp [valuesT]) ?_
      intro v hv hv2
      simp [valuesT] at hv2
      rw [hv2] at hv
      exact absurd (h.vals_lt _ hv) (by omega)
    · intro i hi
      rw [valuesT_append]
      simp only [List.length_append, List.length_singleton] at hi
      rcases Nat.lt_or_ge i st.store.length with h2 | h2
      · exact List.mem_append.mpr (Or.inl (h.vals_all i h2))
      · have : i = st.store.length := by omega
        subst this
        simp [valuesT]
    · intro j mj hmj
      rw [hget j] at hmj
      split at hmj
      · simp only [Option.some.injEq] at hmj
        subst hmj
        exact hm
      · exact h.stored j mj hmj
    · intro j mj hmj
      rw [hget j] at hmj
      rw [lookupT_append]
      split at hmj
      case isTrue hje =>
        simp only [Option.some.injEq] at hmj
        subst hmj
        rw [hl]
        rw [lookupT_single]
        simp [hje]
      case isFalse hje =>
        have := h.storedId j mj hmj
        rw [this]
  · -- existing container
    have hi : i < st.store.length :=
      h.vals_lt i (lookupT_mem_values hl)
    have hget := step1a_lookup_getC hl
    have htbl := (step1a_lookup_tbl hl).1
    have hidx := (step1a_lookup_tbl hl).2
    have hlen : (step1a st m).1.store.length = st.store.length := by
      unfold step1a
      rw [hl]
      simp [length_setC]
    refine ⟨⟨?_, ?_, ?_, ?_, ?_, ?_⟩, ?_, ?_⟩
    · refine Wf.of_fields ?_ ?_ h.wf
      · intro j
        rw [hget j]
        split
        case isTrue hj => rw [hj.1]
        case isFalse => rfl
      · intro j
        rw [hget j]
        split
        case isTrue hj => rw [hj.1]
        case isFalse => rfl
    · intro v hv
      rw [htbl] at hv
      rw [hlen]
      exact h.vals_lt v hv
    · rw [htbl]
      exact h.vals_nd
    · intro j hj
      rw [htbl]
      rw [hlen] at hj
      exact h.vals_all j hj
    · intro j mj hmj
      rw [hget j] at hmj
      split at hmj
      · simp only [Option.some.injEq] at hmj
        subst hmj
        exact hm
      · exact h.stored j mj hmj
    · intro j mj hmj
      rw [htbl]
      rw [hget j] at hmj
      split at hmj
      case isTrue hj =>
        simp only [Option.some.injEq] at hmj
        subst hmj
        rw [hj.1]
        exact hl
      case isFalse => exact h.storedId j mj hmj
    · rw [hlen, hidx]
      exact hi
    · rw [hlen]

theorem add_child_message {s s' : Store} {p c : Nat}
    (h : add_child s p c = some s') (hp : p < s.length) (hc : c < s.length) (j : Nat) :
    (getC s' j).message = (getC s j).message := by
  rw [add_child_getC h hp hc j]

theorem getOrCreate_inv {msgs : List Message} {st : LState} (h : LInv msgs st)
    (key : String) :
    LInv msgs (getOrCreate st key).1 ∧
      (getOrCreate st key).2 < (getOrCreate st key).1.store.length ∧
      st.store.length ≤ (getOrCreate st key).1.store.length := by
  rcases hl : lookupT st.tbl key with _ | i
  · unfold getOrCreate
    rw [hl]
    simp only
    rw [setT_of_absent hl]
    have hget : ∀ j, getC (st.store ++ [Container.empty]) j
        = if j = st.store.length then Container.empty
          else getC st.store j := fun j => getC_append st.store _ j
    refine ⟨⟨h.wf.append_node none, ?_, ?_, ?_, ?_, ?_⟩, by simp, by simp⟩
    · intro v hv
      rw [valuesT_append] at hv
      simp only [List.length_append, List.length_singleton]
      rcases List.mem_append.mp hv with hv | hv
      · have := h.vals_lt v hv
        omega
      · simp [valuesT] at hv
        omega
    · rw [valuesT_append]
      refine List.Nodup.append h.vals_nd (by simp [valuesT]) ?_
      intro v hv hv2
      simp [valuesT] at hv2
      rw [hv2] at hv
      exact absurd (h.vals_lt _ hv) (by omega)
    · intro i hi
      rw [valuesT_append]
      simp only [List.length_append, List.length_singleton] at hi
      rcases Nat.lt_or_ge i st.store.length with h2 | h2
      · exact List.mem_append.mpr (Or.inl (h.vals_all i h2))
      · have : i = st.store.length := by omega
        rw [this]
        simp [valuesT]
    · intro j mj hmj
      rw [hget j] at hmj
      split at hmj
      · simp [Container.empty] at hmj
      · exact h.stored j mj hmj
    · intro j mj hmj
      rw [hget j] at hmj
      rw [lookupT_append]
      split at hmj
      · simp [Container.empty] at hmj
      · rw [h.storedId j mj hmj]
  · unfold getOrCreate
    rw [hl]
    exact ⟨h, h.vals_lt i (lookupT_mem_values hl), le_refl _⟩

theorem refStep_inv {msgs : List Message} {st : LState} {prev : Option Nat}
    {thisC : Nat} (h : LInv msgs st) (ref : String)
    (hthis : thisC < st.store.length)
    (hprev : ∀ p, prev = some p → p < st.store.length) :
    ∃ st1 p1, refStep thisC st prev ref = some (st1, p1) ∧ LInv msgs st1 ∧
      thisC < st1.store.length ∧ (∀ p, p1 = some p → p < st1.store.length) ∧
      st.store.length ≤ st1.store.length := by
  obtain ⟨hA, hc, hmono⟩ := getOrCreate_inv h ref
  unfold refStep
  rcases hg : getOrCreate st ref with ⟨stA, container⟩
  rw [hg] at hA hc hmono
  simp only at hA hc hmono
  rcases prev with _ | prevC
  · exact ⟨stA, some container, rfl, hA, lt_of_lt_of_le hthis hmono,
      fun p hp => by cases hp; exact hc, hmono⟩
  · have hprevA : prevC < stA.store.length :=
      lt_of_lt_of_le (hprev prevC rfl) hmono
    simp only
    by_cases h1 : (getC stA.store container).parent ≠ none
    · rw [if_pos h1]
      exact ⟨stA, some container, rfl, hA, lt_of_lt_of_le hthis hmono,
        fun p hp => by cases hp; exact hc, hmono⟩
    · rw [if_neg h1]
      by_cases h2 : container = thisC ∨ has_descendant stA.store container prevC ∨
          has_descendant stA.store prevC container
      · rw [if_pos h2]
        exact ⟨stA, some container, rfl, hA, lt_of_lt_of_le hthis hmono,
          fun p hp => by cases hp; exact hc, hmono⟩
      · rw [if_neg h2]
        obtain ⟨s2, hs2⟩ := add_child_eq_some (p := prevC) (c := container) hA.wf
        rw [hs2]
        simp only [Option.some.injEq, Option.bind_eq_bind, Option.some_bind]
        refine ⟨⟨s2, stA.tbl⟩, some container, rfl, ?_, ?_, ?_, ?_⟩
        · constructor
          · exact hA.wf.add_child hs2 hprevA hc
          · intro v hv
            rw [add_child_length hs2]
            exact hA.vals_lt v hv
          · exact hA.vals_nd
          · intro i hi
            rw [add_child_length hs2] at hi
            exact hA.vals_all i hi
          · intro j mj hmj
            rw [add_child_message hs2 hprevA hc j] at hmj
            exact hA.stored j mj hmj
          · intro j mj hmj
            rw [add_child_message hs2 hprevA hc j] at hmj
            exact hA.storedId j mj hmj
        · simp only
          rw [add_child_length hs2]
          exact lt_of_lt_of_le hthis hmono
        · intro p hp
          cases hp
          simp only
          rw [add_child_length hs2]
          exact hc
        · simp only
          rw [add_child_length hs2]
          exact hmono

theorem refsLoop_inv {msgs : List Message} {thisC : Nat} (refs : List String) :
    ∀ {st : LState} {prev : Option Nat}, LInv msgs st →
    thisC < st.store.length →
    (∀ p, prev = some p → p < st.store.length) →
    ∃ st2 p2, refsLoop thisC st prev refs = some (st2, p2) ∧ LInv msgs st2 ∧
      thisC < st2.store.length ∧ (∀ p, p2 = some p → p < st2.store.length) := by
  induction refs with
  | nil =>
    intro st prev h hthis hprev
    exact ⟨st, prev, rfl, h, hthis, hprev⟩
  | cons r rs ih =>
    intro st prev h hthis hprev
    obtain ⟨st1, p1, hstep, h1, hthis1, hprev1, -⟩ := refStep_inv h r hthis hprev
    obtain ⟨st2, p2, hloop, h2, hthis2, hprev2⟩ := ih h1 hthis1 hprev1
    refine ⟨st2, p2, ?_, h2, hthis2, hprev2⟩
    simp only [refsLoop, hstep, Option.bind_eq_bind, Option.some_bind]
    exact hloop

theorem msgStep_inv {msgs : List Message} {st : LState} (h : LInv msgs st)
    {m : Message} (hm : m ∈ msgs) :
    ∃ st', msgStep st m = some st' ∧ LInv msgs st' := by
  obtain ⟨h1, hthis, hmono⟩ := step1a_inv h hm
  rcases hs : step1a st m with ⟨st1, thisC⟩
  rw [hs] at h1 hthis
  simp only at h1 hthis
  obtain ⟨st2, p2, hloop, h2, hthis2, hprev2⟩ :=
    @refsLoop_inv msgs thisC m.references st1 none h1 hthis (by intro p hp; cases hp)
  unfold msgStep
  rw [hs]
  dsimp only
  rw [hloop]
  simp only [Option.bind_eq_bind, Option.some_bind]
  rcases p2 with _ | p
  · rcases hq : (getC st2.store thisC).parent with _ | q
    · exact ⟨st2, rfl, h2⟩
    · have hmem := h2.wf.mp thisC q hq
      obtain ⟨s3, hs3⟩ : ∃ s3, remove_child st2.store q thisC = some s3 :=
        ⟨_, remove_child_some hmem⟩
      dsimp only
      rw [hs3]
      simp only [Option.pure_def, Option.bind_eq_bind, Option.some_bind,
        Option.some.injEq]
      refine ⟨⟨s3, st2.tbl⟩, rfl, ?_⟩
      constructor
      · exact h2.wf.remove_child hs3
      · intro v hv
        rw [remove_child_length hs3]
        exact h2.vals_lt v hv
      · exact h2.vals_nd
      · intro i hi
        rw [remove_child_length hs3] at hi
        exact h2.vals_all i hi
      · intro j mj hmj
        rw [remove_child_message hs3 j] at hmj
        exact h2.stored j mj hmj
      · intro j mj hmj
        rw [remove_child_message hs3 j] at hmj
        exact h2.storedId j mj hmj
  · have hp : p < st2.store.length := hprev2 p rfl
    obtain ⟨s3, hs3⟩ := add_child_eq_some (p := p) (c := thisC) h2.wf
    dsimp only
    rw [hs3]
    simp only [Option.pure_def, Option.bind_eq_bind, Option.some_bind,
      Option.some.injEq]
    refine ⟨⟨s3, st2.tbl⟩, rfl, ?_⟩
    constructor
    · exact h2.wf.add_child hs3 hp hthis2
    · intro v hv
      rw [add_child_length hs3]
      exact h2.vals_lt v hv
    · exact h2.vals_nd
    · intro i hi
      rw [add_child_length hs3] at hi
      exact h2.vals_all i hi
    · intro j mj hmj
      rw [add_child_message hs3 hp hthis2 j] at hmj
      exact h2.stored j mj hmj
    · intro j mj hmj
      rw [add_child_message hs3 hp hthis2 j] at hmj
      exact h2.storedId j mj hmj

theorem LInv_init (msgs : List Message) : LInv msgs ⟨[], []⟩ := by
  constructor
  · constructor
    · intro i c hc
      rw [getC_oob (by simp)] at hc
      simp [Container.empty] at hc
    · intro c p hp
      rw [getC_oob (by simp)] at hp
      simp [Container.empty] at hp
    · intro i
      rw [getC_oob (by simp)]
      simp [Container.empty]
  · intro v hv
    simp [valuesT] at hv
  · simp [valuesT]
  · intro i hi
    simp at hi
  · intro i m hm
    rw [getC_oob (by simp)] at hm
    simp [Container.empty] at hm
  · intro i m hm
    rw [getC_oob (by simp)] at hm
    simp [Container.empty] at hm

theorem linker_inv (msgs : List Message) :
    ∀ {l : List Message} {st : LState}, LInv msgs st → (∀ m ∈ l, m ∈ msgs) →
    ∃ st', l.foldlM msgStep st = some st' ∧ LInv msgs st' := by
  intro l
  induction l with
  | nil => exact fun h _ => ⟨_, rfl, h⟩
  | cons m ms ih =>
    intro st h hsub
    obtain ⟨st1, hstep, h1⟩ := msgStep_inv h (hsub m (List.mem_cons_self m ms))
    obtain ⟨st2, hrun, h2⟩ := ih h1 (fun x hx => hsub x (List.mem_cons_of_mem m hx))
    refine ⟨st2, ?_, h2⟩
    simp only [List.foldlM_cons, hstep, Option.bind_eq_bind, Option.some_bind]
    exact hrun

/-! ### Pruning the whole root set -/

structure ForestOut (s : Store) (rs : List Nat) (s1 : Store) (out : List Nat) :
    Prop where
  wf : Wf s1
  len : s1.length = s.length
  msgs : ∀ j, (getC s1 j).message = (getC s j).message
  frame : ∀ j, (∀ r ∈ rs, ¬ Reaches s r j) → getC s1 j = getC s j
  outFree : ∀ r ∈ out, (getC s1 r).parent = none
  subOut : ∀ r ∈ out, ∃ r0 ∈ rs, Reaches s r0 r
  nodes : ∀ r ∈ out, ∀ x, Reaches s1 r x → ∃ r0 ∈ rs, Reaches s r0 x
  cover : ∀ x, (getC s x).message ≠ none →
    ((∃ r0 ∈ rs, Reaches s r0 x) ↔ ∃ r ∈ out, Reaches s1 r x)
  deep : ∀ r ∈ out, ∀ x, ProperReach s1 r x → (getC s1 x).message ≠ none
  dummy2 : ∀ r ∈ out, (getC s1 r).message = none → 2 ≤ (getC s1 r).children.length
  noNewCycle : ∀ x, ProperReach s1 x x → ProperReach s x x
  ndOut : out.Nodup

theorem pruneFold_spec (rs : List Nat) :
    ∀ {s : Store}, Wf s → rs.Nodup →
    (∀ r ∈ rs, (getC s r).parent = none) →
    (∀ r ∈ rs, r < s.length) →
    ∃ s1 out, (∀ acc0 : List Nat,
        rs.foldlM pruneStep (s, acc0) = some (s1, acc0 ++ out)) ∧
      ForestOut s rs s1 out := by
  induction rs with
  | nil =>
    intro s hwf _ _ _
    refine ⟨s, [], fun acc0 => by simp, ?_⟩
    exact ⟨hwf, rfl, fun j => rfl, fun j _ => rfl, by simp, by simp, by simp,
      fun x _ => by simp, by simp, by simp, fun x hx => hx, List.nodup_nil⟩
  | cons r rest ih =>
    intro s hwf hnd hfree hlt
    have hr := List.mem_cons_self r rest
    have hndr := List.nodup_cons.mp hnd
    have hacy : ∀ x, Reaches s r x → ¬ ProperReach s x x :=
      fun x hx => parentless_acyclic hwf (hfree r hr) hx
    have hfuel0 : (reachSet s r).ncard < pruneFuel s := by
      unfold pruneFuel
      have := reachSet_ncard_le hwf (hlt r hr)
      omega
    obtain ⟨sc, pr, hpr, O⟩ := prune_container_spec hwf hacy (hlt r hr) hfuel0
    -- disjointness of distinct parentless roots
    have hdisj : ∀ r' ∈ rest, ∀ j, Reaches s r' j → ¬ Reaches s r j := by
      intro r' hr' j hj hrj
      have := roots_disjoint hwf (hfree r hr)
        (hfree r' (List.mem_cons_of_mem r hr')) hrj hj
      exact hndr.1 (this ▸ hr')
    have hsib : ∀ r' ∈ rest, ∀ j, Reaches s r' j → getC sc j = getC s j := by
      intro r' hr' j hj
      exact O.frame j (hdisj r' hr' j hj)
    have hsibR : ∀ r' ∈ rest, ∀ x, Reaches sc r' x ↔ Reaches s r' x := by
      intro r' hr' x
      exact (reaches_congr (fun j hj => by rw [hsib r' hr' j hj]) x).symm
    obtain ⟨s1, out, hrun, F⟩ := ih O.wf hndr.2
      (by
        intro r' hr'
        rw [hsib r' hr' r' (Reaches.refl r')]
        exact hfree r' (List.mem_cons_of_mem r hr'))
      (by
        intro r' hr'
        rw [O.len]
        exact hlt r' (List.mem_cons_of_mem r hr'))
    -- pr subtrees are untouched by the remaining prunes
    have hprS : ∀ p ∈ pr, ∀ j, Reaches sc p j → getC s1 j = getC sc j := by
      intro p hp j hj
      refine F.frame j ?_
      intro r' hr' hr2
      exact hdisj r' hr' j ((hsibR r' hr' j).mp hr2) (O.nodes p hp j hj)
    have hprR : ∀ p ∈ pr, ∀ x, Reaches s1 p x ↔ Reaches sc p x := by
      intro p hp x
      exact (reaches_congr (fun j hj => by rw [hprS p hp j hj]) x).symm
    have hmsgs : ∀ j, (getC s1 j).message = (getC s j).message := by
      intro j
      rw [F.msgs j, O.msgs j]
    refine ⟨s1, pr ++ out, ?_, ?_⟩
    · intro acc0
      simp only [List.foldlM_cons, pruneStep, Option.bind_eq_bind, Option.pure_def]
      rw [hpr]
      simp only [Option.some_bind]
      rw [hrun (acc0 ++ pr), List.append_assoc]
    constructor
    · exact F.wf
    · rw [F.len, O.len]
    · exact hmsgs
    · intro j hj
      have h1 : getC sc j = getC s j := O.frame j (hj r hr)
      rw [← h1]
      refine F.frame j ?_
      intro r' hr' hr2
      exact hj r' (List.mem_cons_of_mem r hr') ((hsibR r' hr' j).mp hr2)
    · intro p hp
      rcases List.mem_append.mp hp with hp | hp
      · have hfree2 : (getC sc p).parent = none := by
          rcases O.rootsFree with hres | hall
          · rw [hres] at hp
            have : p = r := by simpa using hp
            rw [this, O.parentI]
            exact hfree r hr
          · exact hall p hp
        rw [hprS p hp p (Reaches.refl p)]
        exact hfree2
      · exact F.outFree p hp
    · intro p hp
      rcases List.mem_append.mp hp with hp | hp
      · exact ⟨r, hr, O.subRes p hp⟩
      · obtain ⟨r0, hr0, hrr⟩ := F.subOut p hp
        exact ⟨r0, List.mem_cons_of_mem r hr0, (hsibR r0 hr0 p).mp hrr⟩
    · intro p hp x hx
      rcases List.mem_append.mp hp with hp | hp
      · exact ⟨r, hr, O.nodes p hp x ((hprR p hp x).mp hx)⟩
      · obtain ⟨r0, hr0, hrr⟩ := F.nodes p hp x hx
        exact ⟨r0, List.mem_cons_of_mem r hr0, (hsibR r0 hr0 x).mp hrr⟩
    · intro x hmsg
      constructor
      · intro ⟨r0, hr0, hrx⟩
        rcases List.mem_cons.mp hr0 with rfl | hr0r
        · obtain ⟨p, hp, hpx⟩ := (O.cover x hmsg).mp hrx
          exact ⟨p, List.mem_append.mpr (Or.inl hp), (hprR p hp x).mpr hpx⟩
        · have hmsg2 : (getC sc x).message ≠ none := by
            rw [O.msgs x]
            exact hmsg
          obtain ⟨p, hp, hpx⟩ := (F.cover x hmsg2).mp
            ⟨r0, hr0r, (hsibR r0 hr0r x).mpr hrx⟩
          exact ⟨p, List.mem_append.mpr (Or.inr hp), hpx⟩
      · intro ⟨p, hp, hpx⟩
        rcases List.mem_append.mp hp with hp | hp
        · exact ⟨r, hr, (O.cover x hmsg).mpr ⟨p, hp, (hprR p hp x).mp hpx⟩⟩
        · have hmsg2 : (getC sc x).message ≠ none := by
            rw [O.msgs x]
            exact hmsg
          obtain ⟨r0, hr0r, hrx⟩ := (F.cover x hmsg2).mpr ⟨p, hp, hpx⟩
          exact ⟨r0, List.mem_cons_of_mem r hr0r, (hsibR r0 hr0r x).mp hrx⟩
    · intro p hp x hx
      rcases List.mem_append.mp hp with hp | hp
      · have hx' : ProperReach sc p x :=
          (properReach_congr (fun j hj => by rw [hprS p hp j hj]) x).mpr hx
        have := O.shapeDeep p hp x hx'
        rw [hprS p hp x (Relation.TransGen.to_reflTransGen hx')]
        exact this
      · exact F.deep p hp x hx
    · intro p hp hdum
      rcases List.mem_append.mp hp with hp | hp
      · rw [hprS p hp p (Reaches.refl p)] at hdum ⊢
        exact O.shapeDummy p hp hdum
      · exact F.dummy2 p hp hdum
    · intro x hx
      exact O.noNewCycle x (F.noNewCycle x hx)
    · refine (@List.nodup_append _ pr _).mpr ⟨O.ndRes, F.ndOut, ?_⟩
      intro p hpp hpo
      obtain ⟨r0, hr0, hrr⟩ := F.subOut p hpo
      exact hdisj r0 hr0 p ((hsibR r0 hr0 p).mp hrr) (O.subRes p hpp)

/-! ### thread, without subject grouping -/

theorem linkPhase_spec (msgs : List Message) :
    ∃ st, linkPhase msgs = some st ∧ LInv msgs st :=
  linker_inv msgs (LInv_init msgs) (fun _ hm => hm)

theorem rootSetOf_free {st : LState} :
    ∀ r ∈ rootSetOf st, (getC st.store r).parent = none := by
  intro r hr
  have := List.of_mem_filter hr
  simpa using this

theorem rootSetOf_nodup {msgs : List Message} {st : LState} (h : LInv msgs st) :
    (rootSetOf st).Nodup := h.vals_nd.filter _

theorem rootSetOf_lt {msgs : List Message} {st : LState} (h : LInv msgs st) :
    ∀ r ∈ rootSetOf st, r < st.store.length := by
  intro r hr
  exact h.vals_lt r (List.mem_of_mem_filter hr)

theorem rootSetOf_complete {msgs : List Message} {st : LState} (h : LInv msgs st) :
    ∀ i, i < st.store.length → (getC st.store i).parent = none → i ∈ rootSetOf st := by
  intro i hi hp
  exact List.mem_filter.mpr ⟨h.vals_all i hi, by simpa using hp⟩

theorem thread_false_spec (msgs : List Message) :
    ∃ st s1 out, linkPhase msgs = some st ∧ LInv msgs st ∧
      thread msgs false = some (out, s1) ∧
      ForestOut st.store (rootSetOf st) s1 out := by
  obtain ⟨st, hlink, hinv⟩ := linkPhase_spec msgs
  obtain ⟨s1, out, hrun, F⟩ := pruneFold_spec (rootSetOf st) hinv.wf
    (rootSetOf_nodup hinv) rootSetOf_free (rootSetOf_lt hinv)
  refine ⟨st, s1, out, hlink, hinv, ?_, F⟩
  unfold thread
  rw [hlink]
  simp only [Option.bind_eq_bind, Option.some_bind]
  have hassert : (rootSetOf st).all (fun i => decide ((getC st.store i).parent = none))
      = true := by
    rw [List.all_eq_true]
    intro i hi
    simpa using rootSetOf_free i hi
  rw [if_pos (by simpa using hassert)]
  rw [hrun []]
  simp

/-! ### The subject table building pass (step five, first loop) -/

/-- Context produced by pruning, used by the grouping passes. -/
structure RootsCtx (s1 : Store) (roots : List Nat) : Prop where
  wf : Wf s1
  free : ∀ r ∈ roots, (getC s1 r).parent = none
  nd : roots.Nodup
  lt : ∀ r ∈ roots, r < s1.length
  deep : ∀ r ∈ roots, ∀ x, ProperReach s1 r x → (getC s1 x).message ≠ none
  dummy2 : ∀ r ∈ roots, (getC s1 r).message = none → 2 ≤ (getC s1 r).children.length
  subjP : ∀ x m, (getC s1 x).message = some m → m.subject.isSome
  acyc : ∀ r ∈ roots, ∀ x, Reaches s1 r x → ¬ ProperReach s1 x x

theorem RootsCtx.subj_some {s1 : Store} {roots : List Nat}
    (ctx : RootsCtx s1 roots) {r : Nat} (hr : r ∈ roots) :
    ∃ σ, containerSubj s1 r = some σ := by
  unfold containerSubj
  rcases hm : (getC s1 r).message with _ | m
  · rcases hch : (getC s1 r).children with _ | ⟨c0, rest⟩
    · have := ctx.dummy2 r hr hm
      rw [hch] at this
      simp at this
    · have hedge : childEdge s1 r c0 := by
        unfold childEdge
        rw [hch]
        exact List.mem_cons_self c0 rest
      have hc0 := ctx.deep r hr c0 (Relation.TransGen.single hedge)
      rcases hm0 : (getC s1 c0).message with _ | m0
      · exact absurd hm0 hc0
      · have := ctx.subjP c0 m0 hm0
        rcases hs : m0.subject with _ | σ
        · rw [hs] at this
          simp at this
        · exact ⟨σ, by simp [hm0, hs]⟩
  · have := ctx.subjP r m hm
    rcases hs : m.subject with _ | σ
    · rw [hs] at this
      simp at this
    · exact ⟨σ, by simp [hm, hs]⟩

/-- The build key of a container: normalized representative subject. -/
def bkey (s1 : Store) (r : Nat) : Option String :=
  (containerSubj s1 r).map subjectSub

/-- Invariant of the subject-table building fold. -/
structure BuildInv (s1 : Store) (processed : List Nat) (tbl : Table) : Prop where
  keysNd : (tbl.map (fun p => p.1)).Nodup
  vals : ∀ k v, lookupT tbl k = some v →
    v ∈ processed ∧ bkey s1 v = some k ∧ k ≠ ""
  complete : ∀ z ∈ processed, ∀ k, bkey s1 z = some k → k ≠ "" →
    (lookupT tbl k).isSome
  dummyRep : ∀ k v, lookupT tbl k = some v → ∀ z ∈ processed,
    (getC s1 z).message = none → bkey s1 z = some k → (getC s1 v).message = none
  firstDummy : ∀ k v, lookupT tbl k = some v → (getC s1 v).message = none →
    ∀ pre z suf, processed = pre ++ z :: suf → (getC s1 z).message = none →
      bkey s1 z = some k → v ∈ pre ++ [z]

theorem append_singleton_cases {l pre suf : List Nat} {z a : Nat}
    (h : l ++ [a] = pre ++ z :: suf) :
    (∃ suf', l = pre ++ z :: suf' ∧ suf = suf' ++ [a]) ∨
      (pre = l ∧ z = a ∧ suf = []) := by
  rcases suf.eq_nil_or_concat with rfl | ⟨s', b, rfl⟩
  · have := List.append_inj' h (by simp)
    right
    refine ⟨this.1.symm, ?_, rfl⟩
    have := this.2
    simpa using this.symm
  · have h2 : l ++ [a] = (pre ++ z :: s') ++ [b] := by
      rw [h]
      simp
    have := List.append_inj' h2 (by simp)
    left
    refine ⟨s', this.1, ?_⟩
    have hb : a = b := by simpa using this.2
    rw [hb]
    simp

/-- Keys of an in-place table update are the keys of the table. -/
theorem keys_map_update (t : Table) (k : String) (v : Nat) :
    (t.map (fun p => if p.1 == k then (k, v) else p)).map (fun p => p.1) =
      t.map (fun p => p.1) := by
  induction t with
  | nil => rfl
  | cons q rest ih =>
    simp only [List.map_cons, ih]
    by_cases hq : (q.1 == k) = true
    · rw [if_pos hq]
      simp [eq_of_beq hq]
    · rw [if_neg hq]

theorem lookupT_cons (q : String × Nat) (rest : Table) (k : String) :
    lookupT (q :: rest) k =
      if (q.1 == k) = true then some q.2 else lookupT rest k := by
  unfold lookupT
  cases h : (q.1 == k) with
  | true => simp [List.find?_cons, h]
  | false => simp [List.find?_cons, h]

theorem lookupT_map_update (t : Table) (k : String) (v : Nat) (k' : String) :
    lookupT (t.map (fun p => if p.1 == k then (k, v) else p)) k' =
      if k' = k then (lookupT t k).map (fun _ => v) else lookupT t k' := by
  induction t with
  | nil =>
    simp [lookupT]
  | cons q rest ih =>
    simp only [List.map_cons, lookupT_cons]
    by_cases hq : (q.1 == k) = true
    · simp only [if_pos hq]
      rcases eq_or_ne k' k with rfl | hk'
      · rw [if_pos (show (((k', v) : String × Nat).1 == k') = true by simp)]
        simp
      · have hne1 : ¬ ((((k, v) : String × Nat).1 == k') = true) := by
          intro he
          exact hk' (eq_of_beq he).symm
        have hne2 : ¬ ((q.1 == k') = true) := by
          intro he
          exact hk' ((eq_of_beq hq).symm.trans (eq_of_beq he)).symm
        rw [if_neg hne1, if_neg hk', if_neg hne2, ih, if_neg hk']
    · simp only [if_neg hq]
      rcases eq_or_ne k' k with rfl | hk'
      · rw [ih]
        simp [hq]
      · rw [if_neg hk']
        by_cases hqk : (q.1 == k') = true
        · rw [if_pos hqk, if_pos hqk]
        · rw [if_neg hqk, if_neg hqk, ih, if_neg hk']

theorem keys_setT (t : Table) (k : String) (v : Nat) :
    (setT t k v).map (fun p => p.1) =
      if (lookupT t k).isSome then t.map (fun p => p.1)
      else t.map (fun p => p.1) ++ [k] := by
  unfold setT lookupT
  rcases hf : t.find? (fun p => p.1 == k) with _ | p
  · simp [hf]
  · simp only [hf, Option.map_some, Option.isSome_some, if_true]
    exact keys_map_update t k v

theorem lookupT_setT (t : Table) (k : String) (v : Nat) (k' : String) :
    lookupT (setT t k v) k' = if k' = k then some v else lookupT t k' := by
  unfold setT
  rcases hf : t.find? (fun p => p.1 == k) with _ | p
  · simp only [hf, Option.isSome_none, Bool.false_eq_true, if_false]
    rw [lookupT_append, lookupT_single]
    have hlk : lookupT t k = none := by
      unfold lookupT
      rw [hf]
      rfl
    rcases eq_or_ne k' k with rfl | hne
    · rw [hlk]
    · rw [if_neg (fun he => hne he.symm), if_neg hne]
      rcases h2 : lookupT t k' with _ | w
      · rfl
      · rfl
  · simp only [hf, Option.isSome_some, if_true]
    rw [lookupT_map_update]
    have hlk : lookupT t k = some p.2 := by
      unfold lookupT
      rw [hf]
      rfl
    rcases eq_or_ne k' k with rfl | hne
    · rw [if_pos rfl, if_pos rfl, hlk]
      rfl
    · rw [if_neg hne, if_neg hne]

theorem valuesT_setT_mem {t : Table} {k : String} {v x : Nat}
    (h : x ∈ valuesT (setT t k v)) : x = v ∨ x ∈ valuesT t := by
  unfold setT at h
  by_cases hs : (t.find? (fun p => p.1 == k)).isSome
  · rw [if_pos hs] at h
    unfold valuesT at h ⊢
    rcases List.mem_map.mp h with ⟨y, hy, hyx⟩
    rcases List.mem_map.mp hy with ⟨q, hq, hqy⟩
    by_cases hqk : (q.1 == k) = true
    · left
      rw [← hyx, ← hqy, if_pos hqk]
    · right
      rw [← hyx, ← hqy, if_neg hqk]
      exact List.mem_map.mpr ⟨q, hq, rfl⟩
  · rw [if_neg hs] at h
    rw [valuesT_append] at h
    rcases List.mem_append.mp h with h1 | h1
    · right
      exact h1
    · left
      simpa [valuesT] using h1

/-- With distinct keys, every stored value is hit by a lookup. -/
theorem values_lookup {t : Table} (hnd : (t.map (fun p => p.1)).Nodup)
    {x : Nat} (h : x ∈ valuesT t) : ∃ k, lookupT t k = some x := by
  induction t with
  | nil => simp [valuesT] at h
  | cons q rest ih =>
    rw [List.map_cons] at hnd
    unfold valuesT at h
    rw [List.map_cons] at h
    rcases List.mem_cons.mp h with h1 | h1
    · refine ⟨q.1, ?_⟩
      rw [lookupT_cons, if_pos (show (q.1 == q.1) = true by simp)]
      simp [h1]
    · rcases List.nodup_cons.mp hnd with ⟨hq1, hrest⟩
      rcases ih hrest h1 with ⟨k, hk⟩
      refine ⟨k, ?_⟩
      have hex : ∃ e, rest.find? (fun p => p.1 == k) = some e := by
        unfold lookupT at hk
        rcases hf : rest.find? (fun p => p.1 == k) with _ | e
        · rw [hf] at hk
          simp at hk
        · exact ⟨e, hf⟩
      rcases hex with ⟨e, he⟩
      have hpe := List.find?_some he
      have h1e : e.1 = k := eq_of_beq hpe
      have h2e : e ∈ rest := List.mem_of_find?_eq_some he
      have hqk : (q.1 == k) = false := by
        refine beq_eq_false_iff_ne.mpr ?_
        intro hqe
        exact hq1 (List.mem_map.mpr ⟨e, h2e, by rw [h1e, hqe]⟩)
      rw [lookupT_cons, if_neg (by simp [hqk])]
      exact hk

theorem mem_keys_lookupT {t : Table} {k : String}
    (h : k ∈ t.map (fun p => p.1)) : (lookupT t k).isSome := by
  rcases List.mem_map.mp h with ⟨q, hq, hqk⟩
  unfold lookupT
  rcases hf : t.find? (fun p => p.1 == k) with _ | p
  · exfalso
    have hnone := List.find?_eq_none.mp hf q hq
    exact hnone (beq_iff_eq.mpr hqk)
  · rw [hf]
    rfl

/-- Extending the processed prefix without touching the table. -/
theorem BuildInv.snoc_keep {s1 : Store} {processed : List Nat} {tbl : Table} {z : Nat}
    (inv : BuildInv s1 processed tbl)
    (hcomp : ∀ k, bkey s1 z = some k → k ≠ "" → (lookupT tbl k).isSome)
    (hdum : ∀ k v, lookupT tbl k = some v → (getC s1 z).message = none →
      bkey s1 z = some k → (getC s1 v).message = none) :
    BuildInv s1 (processed ++ [z]) tbl := by
  constructor
  · exact inv.keysNd
  · intro k v h
    obtain ⟨h1, h2, h3⟩ := inv.vals k v h
    exact ⟨List.mem_append_left _ h1, h2, h3⟩
  · intro z' hz' k hb hne
    rcases List.mem_append.mp hz' with h1 | h1
    · exact inv.complete z' h1 k hb hne
    · have hzz : z' = z := by simpa using h1
      rw [hzz] at hb
      exact hcomp k hb hne
  · intro k v h z' hz' hm hb
    rcases List.mem_append.mp hz' with h1 | h1
    · exact inv.dummyRep k v h z' h1 hm hb
    · have hzz : z' = z := by simpa using h1
      rw [hzz] at hm hb
      exact hdum k v h hm hb
  · intro k v h hv pre z' suf hsplit hm hb
    rcases append_singleton_cases hsplit with ⟨suf', hps, _⟩ | ⟨hpre, _, _⟩
    · exact inv.firstDummy k v h hv pre z' suf' hps hm hb
    · rw [hpre]
      exact List.mem_append_left _ (inv.vals k v h).1

/-- Extending the processed prefix while (re)binding the new root's key. -/
theorem BuildInv.snoc_set {s1 : Store} {processed : List Nat} {tbl : Table} {z : Nat}
    {k0 : String} (inv : BuildInv s1 processed tbl)
    (hbz : bkey s1 z = some k0) (hne : k0 ≠ "")
    (hnodummy : ∀ z' ∈ processed, (getC s1 z').message = none →
      bkey s1 z' = some k0 → False) :
    BuildInv s1 (processed ++ [z]) (setT tbl k0 z) := by
  constructor
  · rw [keys_setT]
    by_cases hs : (lookupT tbl k0).isSome
    · rw [if_pos hs]
      exact inv.keysNd
    · rw [if_neg hs]
      refine List.nodup_append.mpr ⟨inv.keysNd, List.nodup_singleton _, ?_⟩
      intro a ha hamem
      have haeq : a = k0 := by simpa using hamem
      rw [haeq] at ha
      exact hs (mem_keys_lookupT ha)
  · intro k v h
    rw [lookupT_setT] at h
    rcases eq_or_ne k k0 with rfl | hkk
    · rw [if_pos rfl] at h
      have hv : v = z := by simpa using h.symm
      rw [hv]
      exact ⟨List.mem_append_right _ (by simp), hbz, hne⟩
    · rw [if_neg hkk] at h
      obtain ⟨h1, h2, h3⟩ := inv.vals k v h
      exact ⟨List.mem_append_left _ h1, h2, h3⟩
  · intro z' hz' k hb hkne
    rw [lookupT_setT]
    rcases eq_or_ne k k0 with rfl | hkk
    · rw [if_pos rfl]
      rfl
    · rw [if_neg hkk]
      rcases List.mem_append.mp hz' with h1 | h1
      · exact inv.complete z' h1 k hb hkne
      · exfalso
        have hzz : z' = z := by simpa using h1
        rw [hzz] at hb
        rw [hbz] at hb
        exact hkk (Option.some_inj.mp hb).symm
  · intro k v h z' hz' hm hb
    rw [lookupT_setT] at h
    rcases eq_or_ne k k0 with rfl | hkk
    · rw [if_pos rfl] at h
      have hv : v = z := by simpa using h.symm
      rcases List.mem_append.mp hz' with h1 | h1
      · exact absurd hm (fun _ => hnodummy z' h1 hm hb)
      · have hzz : z' = z := by simpa using h1
        rw [hv]
        rw [hzz] at hm
        exact hm
    · rw [if_neg hkk] at h
      rcases List.mem_append.mp hz' with h1 | h1
      · exact inv.dummyRep k v h z' h1 hm hb
      · exfalso
        have hzz : z' = z := by simpa using h1
        rw [hzz] at hb
        rw [hbz] at hb
        exact hkk (Option.some_inj.mp hb).symm
  · intro k v h hv pre z' suf hsplit hm hb
    rw [lookupT_setT] at h
    rcases eq_or_ne k k0 with rfl | hkk
    · rw [if_pos rfl] at h
      have hveq : v = z := by simpa using h.symm
      rcases append_singleton_cases hsplit with ⟨suf', hps, _⟩ | ⟨hpre, hz', _⟩
      · exfalso
        refine hnodummy z' ?_ hm hb
        rw [hps]
        exact List.mem_append_right _ (List.mem_cons_self _ _)
      · rw [hveq, hz']
        exact List.mem_append_right _ (by simp)
    · rw [if_neg hkk] at h
      rcases append_singleton_cases hsplit with ⟨suf', hps, _⟩ | ⟨hpre, hz', _⟩
      · exact inv.firstDummy k v h hv pre z' suf' hps hm hb
      · exfalso
        rw [hz'] at hb
        rw [hbz] at hb
        exact hkk (Option.some_inj.mp hb).symm

/-- One build-pass step always succeeds and preserves the invariant. -/
theorem subjStep_inv {s1 : Store} {roots : List Nat} (ctx : RootsCtx s1 roots)
    {processed : List Nat} {tbl : Table} (inv : BuildInv s1 processed tbl)
    {z : Nat} (hz : z ∈ roots) :
    ∃ tbl', subjStep s1 tbl z = some tbl' ∧ BuildInv s1 (processed ++ [z]) tbl' := by
  obtain ⟨σ, hσ⟩ := ctx.subj_some hz
  have hbz : bkey s1 z = some (subjectSub σ) := by
    unfold bkey
    rw [hσ]
    rfl
  by_cases hk : subjectSub σ = ""
  · refine ⟨tbl, ?_, ?_⟩
    · simp only [subjStep, hσ, Option.bind_eq_bind, Option.some_bind]
      rw [if_pos hk]
      rfl
    · refine inv.snoc_keep ?_ ?_
      · intro k hb hkne
        exfalso
        rw [hbz] at hb
        apply hkne
        rw [← Option.some_inj.mp hb]
        exact hk
      · intro k v h hm hb
        exfalso
        rw [hbz] at hb
        have hke : k = "" := by
          rw [← Option.some_inj.mp hb]
          exact hk
        exact (inv.vals k v h).2.2 hke
  · rcases hl : lookupT tbl (subjectSub σ) with _ | e
    · refine ⟨setT tbl (subjectSub σ) z, ?_, ?_⟩
      · simp only [subjStep, hσ, Option.bind_eq_bind, Option.some_bind]
        rw [if_neg hk, hl]
        rfl
      · refine inv.snoc_set hbz hk ?_
        intro z' hz' hm hb
        have hs := inv.complete z' hz' (subjectSub σ) hb hk
        rw [hl] at hs
        simp at hs
    · rcases hme : (getC s1 e).message with _ | em
      · refine ⟨tbl, ?_, ?_⟩
        · simp only [subjStep, hσ, Option.bind_eq_bind, Option.some_bind]
          rw [if_neg hk, hl]
          dsimp only
          rw [hme]
          rfl
        · refine inv.snoc_keep ?_ ?_
          · intro k hb hkne
            rw [hbz] at hb
            rw [← Option.some_inj.mp hb, hl]
            rfl
          · intro k v h hm hb
            rw [hbz] at hb
            have hks : k = subjectSub σ := (Option.some_inj.mp hb).symm
            rw [hks, hl] at h
            have hve : v = e := (Option.some_inj.mp h).symm
            rw [hve]
            exact hme
      · rcases hmz : (getC s1 z).message with _ | cm
        · refine ⟨setT tbl (subjectSub σ) z, ?_, ?_⟩
          · simp only [subjStep, hσ, Option.bind_eq_bind, Option.some_bind]
            rw [if_neg hk, hl]
            dsimp only
            rw [hme, hmz]
            rfl
          · refine inv.snoc_set hbz hk ?_
            intro z' hz' hm hb
            have hed := inv.dummyRep (subjectSub σ) e hl z' hz' hm hb
            rw [hme] at hed
            simp at hed
        · have hsube := ctx.subjP e em hme
          rcases hes : em.subject with _ | es
          · rw [hes] at hsube
            simp at hsube
          · have hsubz := ctx.subjP z cm hmz
            rcases hcs : cm.subject with _ | cs2
            · rw [hcs] at hsubz
              simp at hsubz
            · by_cases hlen : es.length > cs2.length
              · refine ⟨setT tbl (subjectSub σ) z, ?_, ?_⟩
                · simp only [subjStep, hσ, Option.bind_eq_bind, Option.some_bind]
                  rw [if_neg hk, hl]
                  dsimp only
                  rw [hme, hmz]
                  dsimp only
                  rw [hes]
                  simp only [Option.bind_eq_bind, Option.some_bind]
                  rw [hcs]
                  simp only [Option.bind_eq_bind, Option.some_bind]
                  rw [if_pos hlen]
                  rfl
                · refine inv.snoc_set hbz hk ?_
                  intro z' hz' hm hb
                  have hed := inv.dummyRep (subjectSub σ) e hl z' hz' hm hb
                  rw [hme] at hed
                  simp at hed
              · refine ⟨tbl, ?_, ?_⟩
                · simp only [subjStep, hσ, Option.bind_eq_bind, Option.some_bind]
                  rw [if_neg hk, hl]
                  dsimp only
                  rw [hme, hmz]
                  dsimp only
                  rw [hes]
                  simp only [Option.bind_eq_bind, Option.some_bind]
                  rw [hcs]
                  simp only [Option.bind_eq_bind, Option.some_bind]
                  rw [if_neg hlen]
                  rfl
                · refine inv.snoc_keep ?_ ?_
                  · intro k hb hkne
                    rw [hbz] at hb
                    rw [← Option.some_inj.mp hb, hl]
                    rfl
                  · intro k v h hm hb
                    exfalso
                    rw [hmz] at hm
                    simp at hm

/-- The whole subject-table building pass succeeds and satisfies the
invariant for the full root list. -/
theorem buildFold_spec {s1 : Store} {roots : List Nat} (ctx : RootsCtx s1 roots) :
    ∃ tbl2, roots.foldlM (fun t c => subjStep s1 t c) ([] : Table) = some tbl2 ∧
      BuildInv s1 roots tbl2 := by
  have inv0 : BuildInv s1 [] [] := by
    constructor
    · simp
    · intro k v h
      simp [lookupT] at h
    · intro z hz
      simp at hz
    · intro k v h
      simp [lookupT] at h
    · intro k v h
      simp [lookupT] at h
  have main : ∀ (rem processed : List Nat) (tbl : Table),
      (∀ w ∈ rem, w ∈ roots) → BuildInv s1 processed tbl →
      ∃ tbl2, rem.foldlM (fun t c => subjStep s1 t c) tbl = some tbl2 ∧
        BuildInv s1 (processed ++ rem) tbl2 := by
    intro rem
    induction rem with
    | nil =>
      intro processed tbl _ inv
      exact ⟨tbl, rfl, by simpa using inv⟩
    | cons w rest ih =>
      intro processed tbl hsub inv
      obtain ⟨tbl1, h1, hinv1⟩ := subjStep_inv ctx inv (hsub w (List.mem_cons_self w rest))
      obtain ⟨tbl2, h2, hinv2⟩ :=
        ih (processed ++ [w]) tbl1 (fun u hu => hsub u (List.mem_cons_of_mem _ hu)) hinv1
      refine ⟨tbl2, ?_, ?_⟩
      · rw [List.foldlM_cons, h1]
        simp only [Option.bind_eq_bind, Option.some_bind]
        exact h2
      · rw [List.append_assoc] at hinv2
        exact hinv2
  obtain ⟨tbl2, h1, h2⟩ := main roots [] [] (fun w hw => hw) inv0
  exact ⟨tbl2, h1, by simpa using h2⟩

/-! ### The merge pass (step five (c)) -/

/-- The set of nodes the merge pass may touch: the pruned forests plus the
fresh containers allocated during the pass. -/
def Region (s1 : Store) (roots : List Nat) (n : Nat) (x : Nat) : Prop :=
  (∃ r ∈ roots, Reaches s1 r x) ∨ (s1.length ≤ x ∧ x < n)

/-- Store-level invariant of the merge fold, relative to the post-prune
store `s1` and the roots not yet processed. -/
structure GStore (s1 : Store) (roots : List Nat) (tbl2 : Table)
    (remaining : List Nat) (s : Store) : Prop where
  wf : Wf s
  len : s1.length ≤ s.length
  msgSame : ∀ x, x < s1.length → (getC s x).message = (getC s1 x).message
  freshDummy : ∀ x, s1.length ≤ x → (getC s x).message = none
  regionMsg : ∀ x, Region s1 roots s.length x → (getC s x).parent ≠ none →
    (getC s x).message ≠ none
  regionClosed : ∀ p x, Region s1 roots s.length p → childEdge s p x →
    Region s1 roots s.length x
  untouched : ∀ z ∈ remaining, z ∉ valuesT tbl2 →
    ∀ j, Reaches s1 z j → getC s j = getC s1 j
  dummyPrefix : ∀ z ∈ remaining, (getC s1 z).message = none →
    ∃ ext, (getC s z).children = (getC s1 z).children ++ ext
  noNewCycle : ∀ x, ProperReach s x x → ProperReach s1 x x

/-- Full invariant of the merge fold. -/
structure GInv (s1 : Store) (roots : List Nat) (tbl2 : Table)
    (processed remaining : List Nat) (s : Store) (tbl : Table) : Prop where
  store : GStore s1 roots tbl2 remaining s
  split : roots = processed ++ remaining
  keys : tbl.map (fun p => p.1) = tbl2.map (fun p => p.1)
  vals : ∀ k v, lookupT tbl k = some v →
    lookupT tbl2 k = some v ∨ (s1.length ≤ v ∧ v < s.length)

theorem GStore.weaken {s1 : Store} {roots : List Nat} {tbl2 : Table}
    {z : Nat} {rem : List Nat} {s : Store}
    (G : GStore s1 roots tbl2 (z :: rem) s) : GStore s1 roots tbl2 rem s := by
  refine ⟨G.wf, G.len, G.msgSame, G.freshDummy, G.regionMsg, G.regionClosed, ?_, ?_,
    G.noNewCycle⟩
  · intro w hw
    exact G.untouched w (List.mem_cons_of_mem _ hw)
  · intro w hw
    exact G.dummyPrefix w (List.mem_cons_of_mem _ hw)

theorem Region.of_root {s1 : Store} {roots : List Nat} {n r : Nat}
    (hr : r ∈ roots) : Region s1 roots n r :=
  Or.inl ⟨r, hr, Reaches.refl r⟩

theorem Region.of_fresh {s1 : Store} {roots : List Nat} {n x : Nat}
    (h1 : s1.length ≤ x) (h2 : x < n) : Region s1 roots n x :=
  Or.inr ⟨h1, h2⟩

theorem Region.mono {s1 : Store} {roots : List Nat} {n n' x : Nat}
    (h : Region s1 roots n x) (hn : n ≤ n') : Region s1 roots n' x := by
  rcases h with h | ⟨h1, h2⟩
  · exact Or.inl h
  · exact Or.inr ⟨h1, Nat.lt_of_lt_of_le h2 hn⟩

/-- A region dummy has no parent. -/
theorem GStore.region_dummy_free {s1 : Store} {roots : List Nat} {tbl2 : Table}
    {rem : List Nat} {s : Store} (G : GStore s1 roots tbl2 rem s) {x : Nat}
    (hx : Region s1 roots s.length x) (hm : (getC s x).message = none) :
    (getC s x).parent = none := by
  by_contra hpar
  exact G.regionMsg x hx hpar hm

/-- The representative subject read by the merge loop agrees with the one
computed over the post-prune store. -/
theorem containerSubj_stable {s1 : Store} {roots : List Nat} {tbl2 : Table}
    {rem : List Nat} {s : Store} (ctx : RootsCtx s1 roots)
    (G : GStore s1 roots tbl2 rem s) {z : Nat} (hzr : z ∈ rem) (hz : z ∈ roots) :
    containerSubj s z = containerSubj s1 z := by
  have hzlt := ctx.lt z hz
  unfold containerSubj
  rcases hm : (getC s1 z).message with _ | m
  · have hmsg : (getC s z).message = none := by
      rw [G.msgSame z hzlt, hm]
    rw [hmsg]
    obtain ⟨ext, hext⟩ := G.dummyPrefix z hzr hm
    rcases hch : (getC s1 z).children with _ | ⟨c0, t⟩
    · exfalso
      have h2 := ctx.dummy2 z hz hm
      rw [hch] at h2
      simp at h2
    · rw [hch] at hext
      rw [hext]
      dsimp only [List.cons_append]
      have hedge : childEdge s1 z c0 := by
        unfold childEdge
        rw [hch]
        exact List.mem_cons_self c0 t
      have hc0lt : c0 < s1.length := childEdge_lt ctx.wf hedge
      rw [G.msgSame c0 hc0lt]
  · have hmsg : (getC s z).message = some m := by
      rw [G.msgSame z hzlt, hm]
    rw [hmsg]

/-- No edge enters a node outside the store, so nothing reaches it. -/
theorem reach_no_inedge {s : Store} {n : Nat}
    (hno : ∀ w, ¬ childEdge s w n) {x : Nat} (hx : Reaches s x n) : x = n := by
  rcases Relation.ReflTransGen.cases_tail hx with h | ⟨w, _, hwn⟩
  · exact h.symm
  · exact absurd hwn (hno w)

theorem add_child_parent {s s' : Store} {p c : Nat}
    (h : add_child s p c = some s') (hp : p < s.length) (hc : c < s.length) (j : Nat) :
    (getC s' j).parent = if j = c then some p else (getC s j).parent := by
  rw [add_child_getC h hp hc j]

theorem add_child_frame {s s' : Store} {p c : Nat}
    (h : add_child s p c = some s') (hp : p < s.length) (hc : c < s.length)
    {j : Nat} (hjp : j ≠ p) (hjc : j ≠ c) (hpar : (getC s c).parent ≠ some j) :
    getC s' j = getC s j := by
  rw [add_child_getC h hp hc j]
  rw [if_neg hjc, if_neg hjp, if_neg hpar]

/-- One `add_child` inside the merge pass preserves the store invariant,
provided the child carries a message, both ends are in the region, the new
edge closes no cycle, and neither end lies in an untouched subtree. -/
theorem GStore.add {s1 : Store} {roots : List Nat} {tbl2 : Table}
    {rem : List Nat} {s s' : Store} {p0 c0 : Nat}
    (G : GStore s1 roots tbl2 rem s)
    (h : add_child s p0 c0 = some s')
    (hp0 : p0 < s.length) (hc0 : c0 < s.length)
    (hmsgc0 : (getC s c0).message ≠ none)
    (hregp0 : Region s1 roots s.length p0) (hregc0 : Region s1 roots s.length c0)
    (hnr : ¬ Reaches s c0 p0)
    (houtp : ∀ z ∈ rem, z ∉ valuesT tbl2 → ¬ Reaches s1 z p0)
    (houtc : ∀ z ∈ rem, z ∉ valuesT tbl2 → ¬ Reaches s1 z c0)
    (hnchild : ∀ z ∈ rem, (getC s1 z).message = none →
      c0 ∉ (getC s1 z).children) :
    GStore s1 roots tbl2 rem s' := by
  have hlen := add_child_length h
  constructor
  · exact G.wf.add_child h hp0 hc0
  · rw [hlen]
    exact G.len
  · intro x hx
    rw [add_child_message h hp0 hc0]
    exact G.msgSame x hx
  · intro x hx
    rw [add_child_message h hp0 hc0]
    exact G.freshDummy x hx
  · intro x hreg hpar
    rw [hlen] at hreg
    rw [add_child_message h hp0 hc0]
    rw [add_child_parent h hp0 hc0] at hpar
    rcases eq_or_ne x c0 with rfl | hxc
    · exact hmsgc0
    · rw [if_neg hxc] at hpar
      exact G.regionMsg x hreg hpar
  · intro p x hreg hedge
    rw [hlen] at hreg ⊢
    rcases (add_child_childEdge G.wf h hp0 hc0 p x).mp hedge with ⟨hpp, hxc⟩ | ⟨hold, -⟩
    · rw [hxc]
      exact hregc0
    · exact G.regionClosed p x hreg hold
  · intro z hz hnv j hj
    have hjp : j ≠ p0 := by
      intro he
      rw [he] at hj
      exact houtp z hz hnv hj
    have hjc : j ≠ c0 := by
      intro he
      rw [he] at hj
      exact houtc z hz hnv hj
    have hpar : (getC s c0).parent ≠ some j := by
      intro hpe
      have hmem : c0 ∈ (getC s j).children := G.wf.mp c0 j hpe
      have hjold := G.untouched z hz hnv j hj
      rw [hjold] at hmem
      have : Reaches s1 z c0 :=
        Relation.ReflTransGen.tail hj hmem
      exact houtc z hz hnv this
    rw [add_child_frame h hp0 hc0 hjp hjc hpar]
    exact G.untouched z hz hnv j hj
  · intro z hz hm
    obtain ⟨ext, hext⟩ := G.dummyPrefix z hz hm
    have hc0nm : c0 ∉ (getC s1 z).children := hnchild z hz hm
    rw [add_child_getC h hp0 hc0 z]
    simp only
    rcases eq_or_ne z p0 with rfl | hzp
    · rw [if_pos rfl]
      by_cases hcp : (getC s c0).parent = some z
      · rw [if_pos hcp, hext, List.erase_append_right _ hc0nm]
        exact ⟨ext.erase c0 ++ [c0], by rw [List.append_assoc]⟩
      · rw [if_neg hcp, hext]
        exact ⟨ext ++ [c0], by rw [List.append_assoc]⟩
    · rw [if_neg hzp]
      by_cases hcp : (getC s c0).parent = some z
      · rw [if_pos hcp, hext, List.erase_append_right _ hc0nm]
        exact ⟨ext.erase c0, rfl⟩
      · rw [if_neg hcp]
        exact ⟨ext, hext⟩
  · intro x hx
    exact G.noNewCycle x (add_child_no_new_cycle G.wf h hp0 hc0 hnr hx)

/-- Appending a fresh empty container preserves the store invariant. -/
theorem GStore.append {s1 : Store} {roots : List Nat} {tbl2 : Table}
    {rem : List Nat} {s : Store} (ctx : RootsCtx s1 roots)
    (G : GStore s1 roots tbl2 rem s) (hrem : ∀ z ∈ rem, z ∈ roots) :
    GStore s1 roots tbl2 rem (s ++ [Container.empty]) := by
  have hwf' : Wf (s ++ [Container.empty]) := G.wf.append_node none
  have hget : ∀ j, getC (s ++ [Container.empty]) j =
      if j = s.length then Container.empty else getC s j := getC_append s _
  constructor
  · exact hwf'
  · rw [List.length_append]
    exact Nat.le_trans G.len (Nat.le_add_right _ _)
  · intro x hx
    rw [hget x, if_neg (Nat.ne_of_lt (Nat.lt_of_lt_of_le hx G.len))]
    exact G.msgSame x hx
  · intro x hx
    rw [hget x]
    rcases eq_or_ne x s.length with rfl | hne
    · rw [if_pos rfl]
      rfl
    · rw [if_neg hne]
      exact G.freshDummy x hx
  · intro x hreg hpar
    rw [hget x] at hpar ⊢
    rcases eq_or_ne x s.length with rfl | hne
    · rw [if_pos rfl] at hpar
      exact absurd rfl hpar
    · rw [if_neg hne] at hpar ⊢
      refine G.regionMsg x ?_ hpar
      rcases hreg with hl | ⟨h1, h2⟩
      · exact Or.inl hl
      · refine Or.inr ⟨h1, ?_⟩
        rw [List.length_append] at h2
        simp only [List.length_cons, List.length_nil] at h2
        omega
  · intro p x hreg hedge
    unfold childEdge at hedge
    rw [hget p] at hedge
    rcases eq_or_ne p s.length with rfl | hne
    · rw [if_pos rfl] at hedge
      simp [Container.empty] at hedge
    · rw [if_neg hne] at hedge
      have hregp : Region s1 roots s.length p := by
        rcases hreg with hl | ⟨h1, h2⟩
        · exact Or.inl hl
        · refine Or.inr ⟨h1, ?_⟩
          rw [List.length_append] at h2
          simp only [List.length_cons, List.length_nil] at h2
          omega
      have := G.regionClosed p x hregp hedge
      exact Region.mono this (by rw [List.length_append]; omega)
  · intro z hz hnv j hj
    have hzlt : z < s1.length := ctx.lt z (hrem z hz)
    have hjlt : j < s1.length := by
      rcases reaches_lt ctx.wf hj with rfl | h
      · exact hzlt
      · exact h
    rw [hget j, if_neg (Nat.ne_of_lt (Nat.lt_of_lt_of_le hjlt G.len))]
    exact G.untouched z hz hnv j hj
  · intro z hz hm
    have hzlt : z < s1.length := ctx.lt z (hrem z hz)
    rw [hget z, if_neg (Nat.ne_of_lt (Nat.lt_of_lt_of_le hzlt G.len))]
    exact G.dummyPrefix z hz hm
  · intro x hx
    refine G.noNewCycle x ?_
    refine Relation.TransGen.mono ?_ hx
    intro a b hab
    unfold childEdge at hab ⊢
    rw [hget a] at hab
    rcases eq_or_ne a s.length with rfl | hne
    · rw [if_pos rfl] at hab
      simp [Container.empty] at hab
    · rw [if_neg hne] at hab
      exact hab

/-- A parentless node is reached only by itself. -/
theorem reaches_parentless {s : Store} (hwf : Wf s) {x d : Nat}
    (hfree : (getC s d).parent = none) (h : Reaches s x d) : x = d := by
  rcases reaches_eq_or_proper h with h1 | h1
  · exact h1
  · exact absurd hfree (properReach_parented hwf h1)

/-- The live-list splice loop of step five (c): totality and invariant
preservation. -/
theorem spliceGo_ginv {s1 : Store} {roots : List Nat} {tbl2 : Table}
    {rem : List Nat} (ctx : RootsCtx s1 roots) {dst src : Nat} :
    ∀ (fuel : Nat) (s : Store) (i : Nat),
    GStore s1 roots tbl2 rem s →
    dst < s.length → src < s.length → dst ≠ src →
    (getC s dst).parent = none →
    Region s1 roots s.length dst → Region s1 roots s.length src →
    (getC s src).children.length - i + 1 ≤ fuel →
    (∀ x ∈ (getC s src).children,
      (∀ z ∈ rem, z ∉ valuesT tbl2 → ¬ Reaches s1 z x) ∧
      (∀ z ∈ rem, (getC s1 z).message = none → x ∉ (getC s1 z).children)) →
    (∀ z ∈ rem, z ∉ valuesT tbl2 → ¬ Reaches s1 z dst) →
    ∃ s', spliceGo fuel s dst src i = some s' ∧
      GStore s1 roots tbl2 rem s' ∧ s'.length = s.length := by
  intro fuel
  induction fuel with
  | zero =>
    intro s i G hdst hsrc hne hfree hrd hrs hfuel hkids houtdst
    omega
  | succ f ih =>
    intro s i G hdst hsrc hne hfree hrd hrs hfuel hkids houtdst
    by_cases hi : i < (getC s src).children.length
    · set x := (getC s src).children.get ⟨i, hi⟩ with hxdef
      have hxmem : x ∈ (getC s src).children := List.get_mem _ _ hi
      have hxpar : (getC s x).parent = some src := G.wf.pm src x hxmem
      have hxlt : x < s.length := G.wf.child_lt hxmem
      have hxdst : x ≠ dst := by
        intro he
        rw [he, hfree] at hxpar
        simp at hxpar
      obtain ⟨s2, hs2⟩ := @add_child_eq_some s dst x G.wf
      have hregx : Region s1 roots s.length x := G.regionClosed src x hrs hxmem
      have hmsgx : (getC s x).message ≠ none := by
        refine G.regionMsg x hregx ?_
        rw [hxpar]
        simp
      have hnrx : ¬ Reaches s x dst := by
        intro hr
        exact hxdst (reaches_parentless G.wf hfree hr)
      have G2 : GStore s1 roots tbl2 rem s2 :=
        G.add hs2 hdst hxlt hmsgx hrd hregx hnrx houtdst
          (fun z hz hnv => (hkids x hxmem).1 z hz hnv)
          (fun z hz hm => (hkids x hxmem).2 z hz hm)
      have hlen2 := add_child_length hs2
      have hsrc_ne_dst : src ≠ dst := fun he => hne he.symm
      have hch2 : (getC s2 src).children = (getC s src).children.erase x := by
        rw [add_child_getC hs2 hdst hxlt src]
        simp only
        rw [if_neg hsrc_ne_dst, if_pos hxpar]
      have hlch2 : (getC s2 src).children.length = (getC s src).children.length - 1 := by
        rw [hch2]
        exact List.length_erase_of_mem hxmem
      have hfree2 : (getC s2 dst).parent = none := by
        rw [add_child_parent hs2 hdst hxlt dst, if_neg (Ne.symm hxdst)]
        exact hfree
      obtain ⟨s', hrun, G', hlen'⟩ := ih s2 (i + 1) G2
        (by rw [hlen2]; exact hdst) (by rw [hlen2]; exact hsrc) hne hfree2
        (by rw [hlen2]; exact hrd) (by rw [hlen2]; exact hrs)
        (by rw [hlch2]; omega)
        (fun y hy => hkids y (by rw [hch2] at hy; exact List.mem_of_mem_erase hy))
        houtdst
      refine ⟨s', ?_, G', by rw [hlen', hlen2]⟩
      simp only [spliceGo]
      rw [dif_pos hi, ← hxdef, hs2]
      simp only [Option.bind_eq_bind, Option.some_bind]
      exact hrun
    · refine ⟨s, ?_, G, rfl⟩
      simp only [spliceGo]
      rw [dif_neg hi]

/-- One step of step five (c) always succeeds and preserves the merge
invariant. -/
theorem mergeStep_inv {s1 : Store} {roots : List Nat} {tbl2 : Table}
    (ctx : RootsCtx s1 roots) (binv : BuildInv s1 roots tbl2)
    {processed rem : List Nat} {c : Nat} {s : Store} {tbl : Table}
    (inv : GInv s1 roots tbl2 processed (c :: rem) s tbl) :
    ∃ s' tbl', mergeStep (s, tbl) c = some (s', tbl') ∧
      GInv s1 roots tbl2 (processed ++ [c]) rem s' tbl' := by
  have G := inv.store
  have G' := G.weaken
  have hcroots : c ∈ roots := by
    rw [inv.split]
    exact List.mem_append_right _ (List.mem_cons_self _ _)
  have hrem_sub : ∀ z ∈ rem, z ∈ roots := by
    intro z hz
    rw [inv.split]
    exact List.mem_append_right _ (List.mem_cons_of_mem _ hz)
  have hnd : (processed ++ c :: rem).Nodup := by
    rw [← inv.split]
    exact ctx.nd
  have hcnrem : c ∉ rem := by
    have h2 := (List.nodup_append.mp hnd).2.1
    exact (List.nodup_cons.mp h2).1
  have hsplit2 : roots = (processed ++ [c]) ++ rem := by
    rw [inv.split]
    simp
  have hclt1 : c < s1.length := ctx.lt c hcroots
  have hclt : c < s.length := Nat.lt_of_lt_of_le hclt1 G.len
  have hregc : Region s1 roots s.length c := Region.of_root hcroots
  have hroot_nchild : ∀ w ∈ roots, ∀ z, w ∉ (getC s1 z).children := by
    intro w hw z hmem
    have h2 := ctx.wf.pm z w hmem
    rw [ctx.free w hw] at h2
    simp at h2
  have hroot_out : ∀ w ∈ roots, w ∉ rem → ∀ z ∈ rem, ¬ Reaches s1 z w := by
    intro w hw hwrem z hz hr
    have heq := roots_disjoint ctx.wf (ctx.free z (hrem_sub z hz)) (ctx.free w hw) hr
      (Reaches.refl w)
    rw [heq] at hz
    exact hwrem hz
  have hfresh_out : ∀ w, s1.length ≤ w → ∀ z ∈ rem, ¬ Reaches s1 z w := by
    intro w hw z hz hr
    have hzlt := ctx.lt z (hrem_sub z hz)
    rcases reaches_lt ctx.wf hr with heq | hlt
    · omega
    · omega
  have hc_out : ∀ z ∈ rem, ¬ Reaches s1 z c := hroot_out c hcroots hcnrem
  obtain ⟨σ, hσ1⟩ := ctx.subj_some hcroots
  have hσ : containerSubj s c = some σ := by
    rw [containerSubj_stable ctx G (List.mem_cons_self c rem) hcroots]
    exact hσ1
  have hbc : bkey s1 c = some (subjectSub σ) := by
    unfold bkey
    rw [hσ1]
    rfl
  rcases hlk : lookupT tbl (subjectSub σ) with _ | ctr
  · refine ⟨s, tbl, ?_, G', hsplit2, inv.keys, inv.vals⟩
    simp only [mergeStep, hσ, Option.bind_eq_bind, Option.some_bind]
    rw [hlk]
    rfl
  · rcases eq_or_ne ctr c with rfl | hne
    · refine ⟨s, tbl, ?_, G', hsplit2, inv.keys, inv.vals⟩
      simp only [mergeStep, hσ, Option.bind_eq_bind, Option.some_bind]
      rw [hlk]
      dsimp only
      rw [if_pos rfl]
      rfl
    · have hctr_lt : ctr < s.length := by
        rcases inv.vals _ ctr hlk with hv2 | ⟨h1, h2⟩
        · have hr2 := (binv.vals _ ctr hv2).1
          have := ctx.lt ctr hr2
          have := G.len
          omega
        · exact h2
      have hregctr : Region s1 roots s.length ctr := by
        rcases inv.vals _ ctr hlk with hv2 | ⟨h1, h2⟩
        · exact Region.of_root ((binv.vals _ ctr hv2).1)
        · exact Region.of_fresh h1 h2
      rcases hmc : (getC s ctr).message with _ | em
      · rcases hmz : (getC s c).message with _ | cm
        · -- both dummies: splice the representative's children into `c`
          have hmz1 : (getC s1 c).message = none := by
            rw [← G.msgSame c hclt1]
            exact hmz
          have hcfree : (getC s c).parent = none := G.region_dummy_free hregc hmz
          have hctr_facts : ctr ∉ rem ∧
              (∀ z ∈ rem, z ∉ valuesT tbl2 → ¬ Reaches s1 z ctr) := by
            rcases inv.vals _ ctr hlk with hv2 | ⟨h1, h2⟩
            · have hctr_roots := (binv.vals _ ctr hv2).1
              have hmc1 : (getC s1 ctr).message = none := by
                rw [← G.msgSame ctr (ctx.lt ctr hctr_roots)]
                exact hmc
              have hfd := binv.firstDummy _ ctr hv2 hmc1 processed c rem inv.split hmz1 hbc
              have hctr_proc : ctr ∈ processed := by
                rcases List.mem_append.mp hfd with h | h
                · exact h
                · exact absurd (by simpa using h) hne
              have hctr_nrem : ctr ∉ rem := by
                intro hmem
                have hdis := (List.nodup_append.mp hnd).2.2
                exact hdis hctr_proc (List.mem_cons_of_mem _ hmem)
              refine ⟨hctr_nrem, ?_⟩
              intro z hz hnv hr
              have heq := roots_disjoint ctx.wf (ctx.free z (hrem_sub z hz))
                (ctx.free ctr hctr_roots) hr (Reaches.refl ctr)
              rw [heq] at hz
              exact hctr_nrem hz
            · refine ⟨?_, fun z hz _ => hfresh_out ctr h1 z hz⟩
              intro hmem
              have := ctx.lt ctr (hrem_sub ctr hmem)
              omega
          obtain ⟨hctr_nrem, hctr_kill⟩ := hctr_facts
          have hkids : ∀ x ∈ (getC s ctr).children,
              (∀ z ∈ rem, z ∉ valuesT tbl2 → ¬ Reaches s1 z x) ∧
              (∀ z ∈ rem, (getC s1 z).message = none → x ∉ (getC s1 z).children) := by
            intro x hx
            have hxpar : (getC s x).parent = some ctr := G.wf.pm ctr x hx
            constructor
            · intro z hz hnv hr
              have hunt := G'.untouched z hz hnv
              have hxpar1 : (getC s1 x).parent = some ctr := by
                rw [← hunt x hr]
                exact hxpar
              rcases reaches_eq_or_proper hr with heqx | hpr
              · rw [← heqx] at hxpar1
                rw [ctx.free z (hrem_sub z hz)] at hxpar1
                simp at hxpar1
              · rcases Relation.TransGen.tail'_iff.mp hpr with ⟨w, hzw, hwx⟩
                have hw2 : (getC s1 x).parent = some w := ctx.wf.pm w x hwx
                have hwctr : w = ctr := by
                  rw [hw2] at hxpar1
                  exact Option.some_inj.mp hxpar1
                rw [hwctr] at hzw
                exact hctr_kill z hz hnv hzw
            · intro z hz hm hmem1
              obtain ⟨ext, hext⟩ := G'.dummyPrefix z hz hm
              have hxz : x ∈ (getC s z).children := by
                rw [hext]
                exact List.mem_append_left _ hmem1
              have hpz := G.wf.pm z x hxz
              rw [hpz] at hxpar
              have hzc : z = ctr := Option.some_inj.mp hxpar
              rw [hzc] at hz
              exact hctr_nrem hz
          obtain ⟨s2, hsplice, G2, hlen2⟩ := spliceGo_ginv ctx
            ((getC s ctr).children.length + 1) s 0 G' hclt hctr_lt (Ne.symm hne)
            hcfree hregc hregctr (by omega) hkids (fun z hz _ => hc_out z hz)
          refine ⟨s2, tbl, ?_, G2, hsplit2, inv.keys, ?_⟩
          · simp only [mergeStep, hσ, Option.bind_eq_bind, Option.some_bind]
            rw [hlk]
            dsimp only
            rw [if_neg hne, hmc, hmz]
            dsimp only
            rw [hsplice]
            simp only [Option.bind_eq_bind, Option.some_bind]
            rfl
          · intro k v h
            rcases inv.vals k v h with h2 | ⟨h3, h4⟩
            · exact Or.inl h2
            · exact Or.inr ⟨h3, by rw [hlen2]; exact h4⟩
        · -- dummy representative adopts the messaged root
          obtain ⟨s2, hadd⟩ := @add_child_eq_some s ctr c G.wf
          have hctrfree : (getC s ctr).parent = none := G.region_dummy_free hregctr hmc
          have hnr : ¬ Reaches s c ctr := by
            intro hr
            exact hne (reaches_parentless G.wf hctrfree hr).symm
          have houtp : ∀ z ∈ rem, z ∉ valuesT tbl2 → ¬ Reaches s1 z ctr := by
            intro z hz hnv hr
            rcases inv.vals _ ctr hlk with hv2 | ⟨h1, h2⟩
            · have heq := roots_disjoint ctx.wf (ctx.free z (hrem_sub z hz))
                (ctx.free ctr ((binv.vals _ ctr hv2).1)) hr (Reaches.refl ctr)
              rw [heq] at hnv
              exact hnv (lookupT_mem_values hv2)
            · exact hfresh_out ctr h1 z hz hr
          have G2 : GStore s1 roots tbl2 rem s2 :=
            G'.add hadd hctr_lt hclt (by rw [hmz]; simp) hregctr hregc hnr houtp
              (fun z hz _ => hc_out z hz) (fun z hz hm => hroot_nchild c hcroots z)
          refine ⟨s2, tbl, ?_, G2, hsplit2, inv.keys, ?_⟩
          · simp only [mergeStep, hσ, Option.bind_eq_bind, Option.some_bind]
            rw [hlk]
            dsimp only
            rw [if_neg hne, hmc, hmz]
            dsimp only
            rw [hadd]
            simp only [Option.bind_eq_bind, Option.some_bind]
            rfl
          · intro k v h
            rcases inv.vals k v h with h2 | ⟨h3, h4⟩
            · exact Or.inl h2
            · exact Or.inr ⟨h3, by rw [add_child_length hadd]; exact h4⟩
      · have hv2 : lookupT tbl2 (subjectSub σ) = some ctr := by
          rcases inv.vals _ ctr hlk with hv2 | ⟨h1, h2⟩
          · exact hv2
          · exfalso
            have hfd := G.freshDummy ctr h1
            rw [hmc] at hfd
            simp at hfd
        have hctr_roots := (binv.vals _ ctr hv2).1
        have hctr_out : ∀ z ∈ rem, z ∉ valuesT tbl2 → ¬ Reaches s1 z ctr := by
          intro z hz hnv hr
          have heq := roots_disjoint ctx.wf (ctx.free z (hrem_sub z hz))
            (ctx.free ctr hctr_roots) hr (Reaches.refl ctr)
          rw [heq] at hnv
          exact hnv (lookupT_mem_values hv2)
        rcases hmz : (getC s c).message with _ | cm
        · -- messaged representative adopts the dummy root
          obtain ⟨s2, hadd⟩ := @add_child_eq_some s c ctr G.wf
          have hcfree : (getC s c).parent = none := G.region_dummy_free hregc hmz
          have hnr : ¬ Reaches s ctr c := by
            intro hr
            exact hne (reaches_parentless G.wf hcfree hr)
          have G2 : GStore s1 roots tbl2 rem s2 :=
            G'.add hadd hclt hctr_lt (by rw [hmc]; simp) hregc hregctr hnr
              (fun z hz _ => hc_out z hz) hctr_out
              (fun z hz hm => hroot_nchild ctr hctr_roots z)
          refine ⟨s2, tbl, ?_, G2, hsplit2, inv.keys, ?_⟩
          · simp only [mergeStep, hσ, Option.bind_eq_bind, Option.some_bind]
            rw [hlk]
            dsimp only
            rw [if_neg hne, hmc, hmz]
            dsimp only
            rw [hadd]
            simp only [Option.bind_eq_bind, Option.some_bind]
            rfl
          · intro k v h
            rcases inv.vals k v h with h2 | ⟨h3, h4⟩
            · exact Or.inl h2
            · exact Or.inr ⟨h3, by rw [add_child_length hadd]; exact h4⟩
        · -- both roots have messages: compare normalized-subject lengths
          have hctr_lt1 := ctx.lt ctr hctr_roots
          have hmc1 : (getC s1 ctr).message = some em := by
            rw [← G.msgSame ctr hctr_lt1]
            exact hmc
          have hmz1 : (getC s1 c).message = some cm := by
            rw [← G.msgSame c hclt1]
            exact hmz
          have hcnv : c ∉ valuesT tbl2 := by
            intro hcv
            obtain ⟨k', hk'⟩ := values_lookup binv.keysNd hcv
            have hb' := (binv.vals k' c hk').2.1
            have hkk : k' = subjectSub σ := by
              rw [hbc] at hb'
              exact (Option.some_inj.mp hb').symm
            rw [hkk] at hk'
            rw [hv2] at hk'
            exact hne (Option.some_inj.mp hk')
          have hunt := G.untouched c (List.mem_cons_self c rem) hcnv
          have hcfree : (getC s c).parent = none := by
            rw [hunt c (Reaches.refl c)]
            exact ctx.free c hcroots
          have hcongr : ∀ j, Reaches s1 c j →
              (getC s j).children = (getC s1 j).children := by
            intro j hj
            rw [hunt j hj]
          have hncc : ¬ Reaches s c ctr := by
            intro hr
            have hr1 : Reaches s1 c ctr := ((reaches_congr hcongr) ctr).mpr hr
            have heq := roots_disjoint ctx.wf (ctx.free c hcroots)
              (ctx.free ctr hctr_roots) hr1 (Reaches.refl ctr)
            exact hne heq.symm
          have hnrc : ¬ Reaches s ctr c := by
            intro hr
            exact hne (reaches_parentless G.wf hcfree hr)
          have hsube := ctx.subjP ctr em hmc1
          rcases hes : em.subject with _ | es
          · rw [hes] at hsube
            simp at hsube
          · have hsubz := ctx.subjP c cm hmz1
            rcases hcs : cm.subject with _ | cs2
            · rw [hcs] at hsubz
              simp at hsubz
            · rcases Nat.lt_trichotomy es.length cs2.length with hlt | heq0 | hgt
              · obtain ⟨s2, hadd⟩ := @add_child_eq_some s ctr c G.wf
                have G2 : GStore s1 roots tbl2 rem s2 :=
                  G'.add hadd hctr_lt hclt (by rw [hmz]; simp) hregctr hregc hncc
                    hctr_out (fun z hz _ => hc_out z hz)
                    (fun z hz hm => hroot_nchild c hcroots z)
                refine ⟨s2, tbl, ?_, G2, hsplit2, inv.keys, ?_⟩
                · simp only [mergeStep, hσ, Option.bind_eq_bind, Option.some_bind]
                  rw [hlk]
                  dsimp only
                  rw [if_neg hne, hmc, hmz]
                  dsimp only
                  rw [hes]
                  simp only [Option.bind_eq_bind, Option.some_bind]
                  rw [hcs]
                  simp only [Option.bind_eq_bind, Option.some_bind]
                  rw [if_pos hlt, hadd]
                  simp only [Option.bind_eq_bind, Option.some_bind]
                  rfl
                · intro k v h
                  rcases inv.vals k v h with h2 | ⟨h3, h4⟩
                  · exact Or.inl h2
                  · exact Or.inr ⟨h3, by rw [add_child_length hadd]; exact h4⟩
              · -- equal lengths: bundle both under a fresh dummy
                have GE : GStore s1 roots tbl2 rem (s ++ [Container.empty]) :=
                  G'.append ctx hrem_sub
                have hE_len : (s ++ [Container.empty]).length = s.length + 1 := by
                  simp
                have hnoedge : ∀ w, ¬ childEdge (s ++ [Container.empty]) w s.length := by
                  intro w hw
                  unfold childEdge at hw
                  rw [getC_append] at hw
                  rcases eq_or_ne w s.length with rfl | hwne
                  · rw [if_pos rfl] at hw
                    simp [Container.empty] at hw
                  · rw [if_neg hwne] at hw
                    have := G.wf.child_lt hw
                    omega
                have hnltE : s.length < (s ++ [Container.empty]).length := by omega
                have hctrltE : ctr < (s ++ [Container.empty]).length := by omega
                have hcltE : c < (s ++ [Container.empty]).length := by omega
                obtain ⟨sA, haddA⟩ :=
                  @add_child_eq_some (s ++ [Container.empty]) s.length ctr GE.wf
                have hmcE : (getC (s ++ [Container.empty]) ctr).message = some em := by
                  rw [getC_append, if_neg (Nat.ne_of_lt hctr_lt)]
                  exact hmc
                have hnrA : ¬ Reaches (s ++ [Container.empty]) ctr s.length := by
                  intro hr
                  have := reach_no_inedge hnoedge hr
                  omega
                have GA : GStore s1 roots tbl2 rem sA :=
                  GE.add haddA hnltE hctrltE (by rw [hmcE]; simp)
                    (by rw [hE_len]; exact Region.of_fresh G.len (by omega))
                    (by rw [hE_len]; exact Region.mono hregctr (by omega))
                    hnrA (fun z hz _ => hfresh_out s.length G.len z hz) hctr_out
                    (fun z hz hm => hroot_nchild ctr hctr_roots z)
                have hlenA := add_child_length haddA
                obtain ⟨sB, haddB⟩ := @add_child_eq_some sA s.length c GA.wf
                have hmzA : (getC sA c).message = some cm := by
                  rw [add_child_message haddA hnltE hctrltE, getC_append,
                    if_neg (Nat.ne_of_lt hclt)]
                  exact hmz
                have hnrB : ¬ Reaches sA c s.length := by
                  intro hr
                  have hnoedgeA : ∀ w, ¬ childEdge sA w s.length := by
                    intro w hw
                    rcases (add_child_childEdge GE.wf haddA hnltE hctrltE w
                      s.length).mp hw with ⟨hwn, hnctr⟩ | ⟨hold, -⟩
                    · exact absurd hnctr (by omega)
                    · exact hnoedge w hold
                  have := reach_no_inedge hnoedgeA hr
                  omega
                have GB : GStore s1 roots tbl2 rem sB :=
                  GA.add haddB (by omega) (by omega) (by rw [hmzA]; simp)
                    (by rw [hlenA, hE_len]; exact Region.of_fresh G.len (by omega))
                    (by rw [hlenA, hE_len]; exact Region.mono hregc (by omega))
                    hnrB (fun z hz _ => hfresh_out s.length G.len z hz)
                    (fun z hz _ => hc_out z hz)
                    (fun z hz hm => hroot_nchild c hcroots z)
                have hlenB := add_child_length haddB
                refine ⟨sB, setT tbl (subjectSub σ) s.length, ?_, GB, hsplit2, ?_, ?_⟩
                · simp only [mergeStep, hσ, Option.bind_eq_bind, Option.some_bind]
                  rw [hlk]
                  dsimp only
                  rw [if_neg hne, hmc, hmz]
                  dsimp only
                  rw [hes]
                  simp only [Option.bind_eq_bind, Option.some_bind]
                  rw [hcs]
                  simp only [Option.bind_eq_bind, Option.some_bind]
                  rw [if_neg (by omega), if_neg (by omega)]
                  rw [haddA]
                  simp only [Option.bind_eq_bind, Option.some_bind]
                  rw [haddB]
                  simp only [Option.bind_eq_bind, Option.some_bind]
                  rfl
                · rw [keys_setT, hlk]
                  simp only [Option.isSome_some, if_true]
                  exact inv.keys
                · intro k v h
                  rw [lookupT_setT] at h
                  rcases eq_or_ne k (subjectSub σ) with rfl | hkk
                  · rw [if_pos rfl] at h
                    have hv : v = s.length := by simpa using h.symm
                    refine Or.inr ⟨?_, ?_⟩
                    · rw [hv]
                      exact G.len
                    · rw [hv]
                      omega
                  · rw [if_neg hkk] at h
                    rcases inv.vals k v h with h2 | ⟨h3, h4⟩
                    · exact Or.inl h2
                    · exact Or.inr ⟨h3, by omega⟩
              · obtain ⟨s2, hadd⟩ := @add_child_eq_some s c ctr G.wf
                have G2 : GStore s1 roots tbl2 rem s2 :=
                  G'.add hadd hclt hctr_lt (by rw [hmc]; simp) hregc hregctr hnrc
                    (fun z hz _ => hc_out z hz) hctr_out
                    (fun z hz hm => hroot_nchild ctr hctr_roots z)
                refine ⟨s2, tbl, ?_, G2, hsplit2, inv.keys, ?_⟩
                · simp only [mergeStep, hσ, Option.bind_eq_bind, Option.some_bind]
                  rw [hlk]
                  dsimp only
                  rw [if_neg hne, hmc, hmz]
                  dsimp only
                  rw [hes]
                  simp only [Option.bind_eq_bind, Option.some_bind]
                  rw [hcs]
                  simp only [Option.bind_eq_bind, Option.some_bind]
                  rw [if_neg (by omega), if_pos hgt, hadd]
                  simp only [Option.bind_eq_bind, Option.some_bind]
                  rfl
                · intro k v h
                  rcases inv.vals k v h with h2 | ⟨h3, h4⟩
                  · exact Or.inl h2
                  · exact Or.inr ⟨h3, by rw [add_child_length hadd]; exact h4⟩

/-- The pruning output supports the grouping context, for inputs whose
messages all carry a subject. -/
theorem RootsCtx.of_forest {msgs : List Message} {st : LState} {s1 : Store}
    {out : List Nat} (hinv : LInv msgs st)
    (F : ForestOut st.store (rootSetOf st) s1 out)
    (hsubj : ∀ m ∈ msgs, m.subject.isSome) : RootsCtx s1 out := by
  constructor
  · exact F.wf
  · exact F.outFree
  · exact F.ndOut
  · intro r hr
    rw [F.len]
    rcases F.subOut r hr with ⟨r0, hr0, hrr⟩
    rcases reaches_lt hinv.wf hrr with heq | h
    · rw [heq]
      exact rootSetOf_lt hinv r0 hr0
    · exact h
  · exact F.deep
  · exact F.dummy2
  · intro x m hm
    have hm2 : (getC st.store x).message = some m := by
      rw [← F.msgs x]
      exact hm
    exact hsubj m (hinv.stored x m hm2)
  · intro r hr x hx hcyc
    have hcyc2 : ProperReach st.store x x := F.noNewCycle x hcyc
    rcases F.nodes r hr x hx with ⟨r0, hr0, hr0x⟩
    exact parentless_acyclic hinv.wf (rootSetOf_free r0 hr0) hr0x hcyc2

/-- The initial merge invariant over the pruned store. -/
theorem GInv_init {s1 : Store} {roots : List Nat} {tbl2 : Table}
    (ctx : RootsCtx s1 roots) :
    GInv s1 roots tbl2 [] roots s1 tbl2 := by
  refine ⟨⟨ctx.wf, Nat.le_refl _, fun x _ => rfl, ?_, ?_, ?_,
    fun z _ _ j _ => rfl, fun z _ _ => ⟨[], by simp⟩, fun x hx => hx⟩,
    by simp, rfl, fun k v h => Or.inl h⟩
  · intro x hx
    rw [getC_oob hx]
    rfl
  · intro x hreg hpar
    rcases hreg with ⟨r, hr, hrx⟩ | ⟨h1, h2⟩
    · rcases reaches_eq_or_proper hrx with heq | hpr
      · rw [← heq] at hpar
        exact absurd (ctx.free r hr) hpar
      · exact ctx.deep r hr x hpr
    · omega
  · intro p x hreg hedge
    rcases hreg with ⟨r, hr, hrp⟩ | ⟨h1, h2⟩
    · exact Or.inl ⟨r, hr, hrp.tail hedge⟩
    · omega

/-- The whole merge fold succeeds and yields the invariant with every root
processed. -/
theorem mergeFold_spec {s1 : Store} {roots : List Nat} {tbl2 : Table}
    (ctx : RootsCtx s1 roots) (binv : BuildInv s1 roots tbl2) :
    ∃ s3 tbl3, roots.foldlM mergeStep (s1, tbl2) = some (s3, tbl3) ∧
      GInv s1 roots tbl2 roots [] s3 tbl3 := by
  have main : ∀ (rem processed : List Nat) (s : Store) (tbl : Table),
      GInv s1 roots tbl2 processed rem s tbl →
      ∃ s' tbl', rem.foldlM mergeStep (s, tbl) = some (s', tbl') ∧
        GInv s1 roots tbl2 (processed ++ rem) [] s' tbl' := by
    intro rem
    induction rem with
    | nil =>
      intro processed s tbl inv
      exact ⟨s, tbl, rfl, by simpa using inv⟩
    | cons w rest ih =>
      intro processed s tbl inv
      obtain ⟨s2, tbl2', h1, hinv1⟩ := mergeStep_inv ctx binv inv
      obtain ⟨s', tbl', h2, hinv2⟩ := ih (processed ++ [w]) s2 tbl2' hinv1
      refine ⟨s', tbl', ?_, ?_⟩
      · rw [List.foldlM_cons, h1]
        simp only [Option.bind_eq_bind, Option.some_bind]
        exact h2
      · rw [List.append_assoc] at hinv2
        exact hinv2
  obtain ⟨s3, tbl3, h1, h2⟩ := main roots [] s1 tbl2 (GInv_init ctx)
  exact ⟨s3, tbl3, h1, by simpa using h2⟩

/-- Everything reachable from a returned thread is free of cycles. -/
theorem GInv.out_acyclic {s1 : Store} {roots : List Nat} {tbl2 : Table}
    {s3 : Store} {tbl3 : Table} (ctx : RootsCtx s1 roots)
    (binv : BuildInv s1 roots tbl2) (g : GInv s1 roots tbl2 roots [] s3 tbl3) :
    ∀ v ∈ valuesT tbl3, ∀ x, Reaches s3 v x → ¬ ProperReach s3 x x := by
  intro v hv x hvx hcyc
  have hkeysnd : (tbl3.map (fun p => p.1)).Nodup := by
    rw [g.keys]
    exact binv.keysNd
  obtain ⟨k, hk⟩ := values_lookup hkeysnd hv
  have hregv : Region s1 roots s3.length v := by
    rcases g.vals k v hk with h2 | ⟨h3, h4⟩
    · exact Region.of_root ((binv.vals k v h2).1)
    · exact Region.of_fresh h3 h4
  have hregx : Region s1 roots s3.length x := by
    clear hcyc hk hv
    induction hvx with
    | refl => exact hregv
    | tail hab hedge ih => exact g.store.regionClosed _ _ ih hedge
  have hcyc1 : ProperReach s1 x x := g.store.noNewCycle x hcyc
  rcases hregx with ⟨r, hr, hrx⟩ | ⟨h1, h2⟩
  · exact ctx.acyc r hr x hrx hcyc1
  · rcases Relation.TransGen.tail'_iff.mp hcyc1 with ⟨w, _, hwx⟩
    have := ctx.wf.child_lt hwx
    omega

/-- `thread` with subject grouping: the linker, pruning, table-building and
merge phases all succeed, and the result is the final subject table's values
over the final store. -/
theorem thread_true_spec (msgs : List Message)
    (hsubj : ∀ m ∈ msgs, m.subject.isSome) :
    ∃ st s1 out tbl2 s3 tbl3,
      linkPhase msgs = some st ∧ LInv msgs st ∧
      ForestOut st.store (rootSetOf st) s1 out ∧
      RootsCtx s1 out ∧ BuildInv s1 out tbl2 ∧
      GInv s1 out tbl2 out [] s3 tbl3 ∧
      thread msgs true = some (valuesT tbl3, s3) := by
  obtain ⟨st, hlink, hinv⟩ := linkPhase_spec msgs
  obtain ⟨s1, out, hrun, F⟩ := pruneFold_spec (rootSetOf st) hinv.wf
    (rootSetOf_nodup hinv) rootSetOf_free (rootSetOf_lt hinv)
  have ctx : RootsCtx s1 out := RootsCtx.of_forest hinv F hsubj
  obtain ⟨tbl2, hbuild, binv⟩ := buildFold_spec ctx
  obtain ⟨s3, tbl3, hmerge, ginv⟩ := mergeFold_spec ctx binv
  refine ⟨st, s1, out, tbl2, s3, tbl3, hlink, hinv, F, ctx, binv, ginv, ?_⟩
  unfold thread
  rw [hlink]
  simp only [Option.bind_eq_bind, Option.some_bind]
  have hassert : (rootSetOf st).all (fun i => decide ((getC st.store i).parent = none))
      = true := by
    rw [List.all_eq_true]
    intro i hi
    simpa using rootSetOf_free i hi
  rw [if_pos (by simpa using hassert)]
  rw [hrun []]
  simp only [Option.bind_eq_bind, Option.some_bind, List.nil_append]
  rw [if_neg (by simp)]
  rw [hbuild]
  simp only [Option.bind_eq_bind, Option.some_bind]
  rw [hmerge]
  simp only [Option.bind_eq_bind, Option.some_bind]
  rfl

/-! ### Idempotence of pruning -/

theorem store_ext {s s' : Store} (hlen : s'.length = s.length)
    (h : ∀ j, getC s' j = getC s j) : s' = s := by
  refine List.ext_getElem hlen ?_
  intro i h1 h2
  have hi := h i
  unfold getC at hi
  rw [List.getD_eq_getElem?_getD, List.getD_eq_getElem?_getD] at hi
  rw [List.getElem?_eq_getElem h1, List.getElem?_eq_getElem h2] at hi
  simpa using hi

theorem container_eta (x : Container) :
    ({ message := x.message, parent := x.parent, children := x.children } :
      Container) = x := rfl

/-- Under the pruned shape, `prune_container` returns the store unchanged
and the node itself. -/
def PruneIdP (fuel : Nat) : Prop :=
  ∀ (s : Store) (c : Nat), Wf s →
    (∀ x, Reaches s c x → ¬ ProperReach s x x) → c < s.length →
    (∀ x, ProperReach s c x → (getC s x).message ≠ none) →
    ((getC s c).message = none →
      (getC s c).parent = none ∧ 2 ≤ (getC s c).children.length) →
    (reachSet s c).ncard < fuel →
    prune_container fuel s c = some (s, [c])

/-- Under the pruned shape, the child loop returns the snapshot list and a
store that only detaches the snapshot children. -/
def KidsIdP (fuel : Nat) : Prop :=
  ∀ (cs : List Nat) (s : Store) (c : Nat), Wf s →
    cs.Nodup → c ∉ cs →
    (∀ ch ∈ cs, (getC s ch).parent = some c) →
    (∀ ch ∈ cs, ∀ x, Reaches s ch x → ¬ ProperReach s x x) →
    (∀ ch ∈ cs, (getC s ch).message ≠ none) →
    (∀ ch ∈ cs, ∀ x, ProperReach s ch x → (getC s x).message ≠ none) →
    (∀ ch ∈ cs, (reachSet s ch).ncard < fuel) →
    ∃ sK, pruneKids fuel s c cs = some (sK, cs) ∧
      sK.length = s.length ∧
      ∀ j, getC sK j =
        if j ∈ cs then { getC s j with parent := none }
        else if j = c then
          { getC s c with children := cs.foldl List.erase (getC s c).children }
        else getC s j

theorem kids_id_step {fuel : Nat} (hP : PruneIdP fuel) : KidsIdP fuel := by
  intro cs
  induction cs with
  | nil =>
    intro s c hwf _ _ _ _ _ _ _
    refine ⟨s, by simp [pruneKids], rfl, ?_⟩
    intro j
    rw [if_neg (List.not_mem_nil j)]
    rcases eq_or_ne j c with rfl | hjc
    · rw [if_pos rfl]
      simp only [List.foldl_nil]
    · rw [if_neg hjc]
  | cons ch rest ih =>
    intro s c hwf hnd hcnot hpar hacy hmsg hdeep hfuel
    have hchmem : ch ∈ (getC s c).children :=
      hwf.mp ch c (hpar ch (List.mem_cons_self ch rest))
    have hchlt : ch < s.length := hwf.child_lt hchmem
    have hprune : prune_container fuel s ch = some (s, [ch]) :=
      hP s ch hwf (hacy ch (List.mem_cons_self ch rest)) hchlt
        (hdeep ch (List.mem_cons_self ch rest))
        (fun hm => absurd hm (hmsg ch (List.mem_cons_self ch rest)))
        (hfuel ch (List.mem_cons_self ch rest))
    obtain ⟨s2, hrem⟩ : ∃ s2, remove_child s c ch = some s2 :=
      ⟨_, remove_child_some hchmem⟩
    have hget2 := remove_child_getC hrem
    have hlen2 := remove_child_length hrem
    have hwf2 := hwf.remove_child hrem
    have hndr := List.nodup_cons.mp hnd
    have hmono : ∀ a b, childEdge s2 a b → childEdge s a b := by
      intro a b hab
      exact ((remove_child_childEdge hwf hrem a b).mp hab).1
    have hreach2 : ∀ a b, Reaches s2 a b → Reaches s a b := by
      intro a b hab
      exact Relation.ReflTransGen.mono hmono hab
    obtain ⟨sK, hK, hlenK, hcharK⟩ := ih s2 c hwf2 hndr.2 (fun h => hcnot
        (List.mem_cons_of_mem _ h))
      (by
        intro w hw
        have hwch : ¬ w = ch := by
          intro he
          rw [he] at hw
          exact hndr.1 hw
        simp only [hget2 w, if_neg hwch]
        exact hpar w (List.mem_cons_of_mem _ hw))
      (by
        intro w hw x hx hcyc
        exact hacy w (List.mem_cons_of_mem _ hw) x (hreach2 w x hx)
          (Relation.TransGen.mono hmono hcyc))
      (by
        intro w hw
        simp only [hget2 w]
        exact hmsg w (List.mem_cons_of_mem _ hw))
      (by
        intro w hw x hx
        simp only [hget2 x]
        exact hdeep w (List.mem_cons_of_mem _ hw) x (Relation.TransGen.mono hmono hx))
      (by
        intro w hw
        refine Nat.lt_of_le_of_lt ?_ (hfuel w (List.mem_cons_of_mem _ hw))
        refine Set.ncard_le_ncard ?_ (reachSet_finite hwf w)
        intro x hx
        exact hreach2 w x hx)
    refine ⟨sK, ?_, by rw [hlenK, hlen2], ?_⟩
    · simp only [pruneKids, hprune, hrem, hK]
      rfl
    · intro j
      have hchne : ¬ ch = c := by
        intro h
        refine hcnot ?_
        rw [← h]
        exact List.mem_cons_self _ _
      rw [hcharK j]
      simp only [hget2]
      by_cases hjch : j = ch
      · simp [hjch, hndr.1, hchne]
      · by_cases hjc : j = c
        · have hcrest : c ∉ rest := fun h => hcnot (List.mem_cons_of_mem _ h)
          have hcch : ¬ c = ch := fun h => hchne h.symm
          simp [hjc, hcrest, hcnot, hcch]
        · by_cases hjr : j ∈ rest
          · simp [hjr, hjch, hjc]
          · simp [hjr, hjch, hjc]

/-- Re-attaching the detached snapshot children restores the original
store exactly. -/
theorem addAll_restore :
    ∀ (cs done : List Nat) (sA sOrig : Store) (c : Nat),
    sA.length = sOrig.length → c < sOrig.length →
    cs.Nodup → c ∉ cs →
    (∀ ch ∈ cs, (getC sOrig ch).parent = some c) →
    (∀ ch ∈ cs, ch < sOrig.length) →
    (∀ j, getC sA j =
      if j ∈ cs then { getC sOrig j with parent := none }
      else if j = c then { getC sOrig c with children := done }
      else getC sOrig j) →
    (getC sOrig c).children = done ++ cs →
    addAll sA c cs = some sOrig := by
  intro cs
  induction cs with
  | nil =>
    intro done sA sOrig c hlen hc _ _ _ _ hchar hdone
    have hAO : sA = sOrig := by
      refine store_ext hlen ?_
      intro j
      rw [hchar j, if_neg (List.not_mem_nil j)]
      rcases eq_or_ne j c with rfl | hjc
      · rw [if_pos rfl]
        rw [List.append_nil] at hdone
        rw [← hdone]
      · rw [if_neg hjc]
    rw [hAO]
    rfl
  | cons ch rest ih =>
    intro done sA sOrig c hlen hc hnd hcnot hpar hlt hchar hdone
    have hndr := List.nodup_cons.mp hnd
    have hchA : getC sA ch = { getC sOrig ch with parent := none } := by
      rw [hchar ch, if_pos (List.mem_cons_self _ _)]
    have hparA : (getC sA ch).parent = none := by
      rw [hchA]
    have hadd : add_child sA c ch = some (attach sA c ch) := by
      unfold add_child
      rw [hparA]
    have hclt : c < sA.length := by
      rw [hlen]
      exact hc
    have hchlt : ch < sA.length := by
      rw [hlen]
      exact hlt ch (List.mem_cons_self _ _)
    have hgetB := attach_getC hclt hchlt
    have hchne : ¬ ch = c := by
      intro h
      refine hcnot ?_
      rw [← h]
      exact List.mem_cons_self _ _
    have hlenB : (attach sA c ch).length = sOrig.length := by
      unfold attach
      rw [length_setC, length_setC]
      exact hlen
    have hrun := ih (done ++ [ch]) (attach sA c ch) sOrig c hlenB hc hndr.2
      (fun h => hcnot (List.mem_cons_of_mem _ h))
      (fun w hw => hpar w (List.mem_cons_of_mem _ hw))
      (fun w hw => hlt w (List.mem_cons_of_mem _ hw))
      (by
        intro j
        rw [hgetB j]
        by_cases hjch : j = ch
        · have hjc : ¬ j = c := by
            rw [hjch]
            exact hchne
          have hjr : j ∉ rest := by
            intro h
            rw [hjch] at h
            exact hndr.1 h
          rw [if_pos hjch, if_neg hjr, if_neg hjc]
          have hj2 : getC sA j = { getC sOrig j with parent := none } := by
            rw [hchar j]
            rw [if_pos (by rw [hjch]; exact List.mem_cons_self _ _)]
          rw [hj2]
          simp only
          rw [if_neg hjc]
          have hpj : (getC sOrig j).parent = some c := by
            rw [hjch]
            exact hpar ch (List.mem_cons_self _ _)
          rw [← hpj]
        · by_cases hjc : j = c
          · have hjr : j ∉ rest := by
              intro h
              rw [hjc] at h
              exact hcnot (List.mem_cons_of_mem _ h)
            rw [if_neg hjch, if_pos hjc, if_neg hjr, if_pos hjc]
            have hj2 : getC sA j = { getC sOrig c with children := done } := by
              rw [hchar j]
              rw [if_neg (by
                intro h
                rcases List.mem_cons.mp h with h1 | h1
                · exact hjch h1
                · exact hjr h1), if_pos hjc]
            rw [hj2]
          · by_cases hjr : j ∈ rest
            · rw [if_neg hjch, if_neg hjc, if_pos hjr]
              have hj2 : getC sA j = { getC sOrig j with parent := none } := by
                rw [hchar j]
                rw [if_pos (List.mem_cons_of_mem _ hjr)]
              rw [hj2]
            · rw [if_neg hjch, if_neg hjc, if_neg hjr, if_neg hjc]
              have hj2 : getC sA j = getC sOrig j := by
                rw [hchar j]
                rw [if_neg (by
                  intro h
                  rcases List.mem_cons.mp h with h1 | h1
                  · exact hjch h1
                  · exact hjr h1), if_neg hjc]
              rw [hj2])
      (by
        rw [hdone, List.append_assoc]
        rfl)
    show addAll sA c (ch :: rest) = some sOrig
    simp only [addAll, hadd, Option.bind_eq_bind, Option.some_bind]
    exact hrun

theorem prune_id_step {fuel : Nat} (hK : KidsIdP fuel) : PruneIdP (fuel + 1) := by
  intro s c hwf hacy hc hdeep hdummy hfuel
  have hcnot : c ∉ (getC s c).children := by
    intro h
    exact hacy c (Reaches.refl c) (Relation.TransGen.single h)
  obtain ⟨sK, hkids, hlenK, hcharK⟩ := hK (getC s c).children s c hwf (hwf.nd c) hcnot
    (fun ch hch => hwf.pm c ch hch)
    (fun ch hch x hx => hacy x (Relation.ReflTransGen.head hch hx))
    (fun ch hch => hdeep ch (Relation.TransGen.single hch))
    (fun ch hch x hx => hdeep x (Relation.TransGen.head hch hx))
    (fun ch hch => Nat.lt_of_lt_of_le
      (ncard_reach_child_lt hwf (hacy c (Reaches.refl c)) hch)
      (Nat.lt_succ_iff.mp hfuel))
  have hrestore : addAll sK c (getC s c).children = some s := by
    refine addAll_restore (getC s c).children [] sK s c hlenK hc (hwf.nd c) hcnot
      (fun ch hch => hwf.pm c ch hch) (fun ch hch => hwf.child_lt hch) ?_ (by simp)
    intro j
    rw [hcharK j]
    by_cases hj : j ∈ (getC s c).children
    · rw [if_pos hj, if_pos hj]
    · rw [if_neg hj, if_neg hj]
      rcases eq_or_ne j c with rfl | hjc
      · rw [if_pos rfl, if_pos rfl, foldl_erase_self (hwf.nd j)]
      · rw [if_neg hjc, if_neg hjc]
  simp only [prune_container, hkids, hrestore]
  rcases hm : (getC s c).message with _ | m
  · obtain ⟨hpar0, h2le⟩ := hdummy hm
    have hne_nil : (getC s c).children ≠ [] := by
      intro h
      rw [h] at h2le
      simp at h2le
    rw [if_neg (by
      intro hcon
      exact hne_nil hcon.2)]
    rw [if_neg (by
      intro hcon
      rcases hcon.2 with h1 | h1
      · rw [h1] at h2le
        omega
      · exact h1 hpar0)]
  · rw [if_neg (by
      intro hcon
      simp at hcon)]
    rw [if_neg (by
      intro hcon
      simp at hcon)]

theorem prune_id (fuel : Nat) : PruneIdP fuel := by
  induction fuel with
  | zero =>
    intro s c _ _ _ _ _ hfuel
    omega
  | succ f ih => exact prune_id_step (kids_id_step ih)

/-! ### The claims -/

/-- `has_descendant` holds reflexively: the DFS pops the start node first. -/
theorem has_descendant_self (s : Store) (c : Nat) : has_descendant s c c = true := by
  unfold has_descendant
  rw [show (s.length + 1) * (totalKids s + 2) + 2 =
      ((s.length + 1) * (totalKids s + 2) + 1) + 1 by omega]
  simp [hdStep]

/-- Concrete inputs used by the witnesses and counterexamples. -/
def mA : Message := ⟨"A", some "a", []⟩

def mX : Message := ⟨"X", some "x", ["Y"]⟩

def mY : Message := ⟨"Y", some "y", ["X"]⟩

def mE : Message := ⟨"E", some "", []⟩

def sXY : Store := [⟨some mX, some 1, [1]⟩, ⟨some mY, some 0, [0]⟩]

/-- C1.  For a well-formed input (every message has a subject), every
container of every tree returned by `thread` — with either value of
`group_by_subject` — is acyclic: `has_descendant` holds of it reflexively,
and no container reachable in a returned tree is a proper descendant of
itself. -/
theorem C1_thread_acyclic (msgs : List Message)
    (hsubj : ∀ m ∈ msgs, m.subject.isSome) (b : Bool) {out : List Nat} {sF : Store}
    (h : thread msgs b = some (out, sF)) :
    ∀ r ∈ out, ∀ x, Reaches sF r x →
      has_descendant sF x x = true ∧ ¬ ProperReach sF x x := by
  intro r hr x hx
  refine ⟨has_descendant_self sF x, ?_⟩
  cases b with
  | false =>
    obtain ⟨st, s1, out2, hlink, hinv, hth, F⟩ := thread_false_spec msgs
    rw [h] at hth
    have hpair := Option.some_inj.mp hth
    have hout : out = out2 := congrArg Prod.fst hpair
    have hsF : sF = s1 := congrArg Prod.snd hpair
    have ctx := RootsCtx.of_forest hinv F hsubj
    rw [hout] at hr
    rw [hsF] at hx ⊢
    exact ctx.acyc r hr x hx
  | true =>
    obtain ⟨st, s1, out2, tbl2, s3, tbl3, hlink, hinv, F, ctx, binv, ginv, hth⟩ :=
      thread_true_spec msgs hsubj
    rw [h] at hth
    have hpair := Option.some_inj.mp hth
    have hout : out = valuesT tbl3 := congrArg Prod.fst hpair
    have hsF : sF = s3 := congrArg Prod.snd hpair
    rw [hout] at hr
    rw [hsF] at hx ⊢
    exact GInv.out_acyclic ctx binv ginv r hr x hx

theorem C1_witness :
    (∀ m ∈ [mA], m.subject.isSome) ∧
    ∃ out sF, thread [mA] true = some (out, sF) ∧
      ∀ r ∈ out, ∀ x, Reaches sF r x →
        has_descendant sF x x = true ∧ ¬ ProperReach sF x x := by
  refine ⟨by decide, ?_⟩
  obtain ⟨st, s1, out2, tbl2, s3, tbl3, _, _, _, _, _, _, hth⟩ :=
    thread_true_spec [mA] (by decide)
  exact ⟨valuesT tbl3, s3, hth,
    C1_thread_acyclic [mA] (by decide) true hth⟩

/-- C2.  `thread` is total on well-formed input (every message has a
subject), for either value of `group_by_subject`; the empty input yields the
empty forest. -/
theorem C2_thread_total (msgs : List Message)
    (hsubj : ∀ m ∈ msgs, m.subject.isSome) (b : Bool) :
    ∃ out sF, thread msgs b = some (out, sF) ∧
      (msgs = [] → out = [] ∧ sF = []) := by
  cases b with
  | false =>
    obtain ⟨st, s1, out, hlink, hinv, hth, F⟩ := thread_false_spec msgs
    refine ⟨out, s1, hth, ?_⟩
    intro he
    subst he
    have h0 : thread ([] : List Message) false = some ([], []) := by rfl
    rw [h0] at hth
    have hp := Option.some_inj.mp hth
    exact ⟨(congrArg Prod.fst hp).symm, (congrArg Prod.snd hp).symm⟩
  | true =>
    obtain ⟨st, s1, out2, tbl2, s3, tbl3, _, _, _, _, _, _, hth⟩ :=
      thread_true_spec msgs hsubj
    refine ⟨valuesT tbl3, s3, hth, ?_⟩
    intro he
    subst he
    have h0 : thread ([] : List Message) true = some ([], []) := by rfl
    rw [h0] at hth
    have hp := Option.some_inj.mp hth
    exact ⟨(congrArg Prod.fst hp).symm, (congrArg Prod.snd hp).symm⟩

theorem C2_witness :
    (∀ m ∈ [mX, mY], m.subject.isSome) ∧
    ∃ out sF, thread [mX, mY] true = some (out, sF) ∧
      ([mX, mY] = ([] : List Message) → out = [] ∧ sF = []) :=
  ⟨by decide, C2_thread_total [mX, mY] (by decide) true⟩

/-- C3, counterexample.  Two messages with distinct identifiers that
reference each other: the linker parents both containers, the root set is
empty, and `thread` returns the empty forest — both messages are lost. -/
theorem C3_counterexample :
    mX.message_id ≠ mY.message_id ∧
    thread [mX, mY] false = some ([], sXY) :=
  ⟨by decide, by rfl⟩

/-- C3, amended.  With `group_by_subject = false`, the returned forest keeps
exactly the message-bearing containers reachable from a post-link parentless
container (messages trapped in reference cycles are dropped), messages are
preserved pointwise by pruning, and distinct identifiers occupy distinct
containers. -/
theorem C3_amended (msgs : List Message) :
    ∃ st out s1, linkPhase msgs = some st ∧
      thread msgs false = some (out, s1) ∧
      (∀ j, (getC s1 j).message = (getC st.store j).message) ∧
      (∀ x, (getC st.store x).message ≠ none →
        ((∃ r0 ∈ rootSetOf st, Reaches st.store r0 x) ↔ ∃ r ∈ out, Reaches s1 r x)) ∧
      (∀ i j m m', (getC s1 i).message = some m → (getC s1 j).message = some m' →
        m.message_id = m'.message_id → i = j) := by
  obtain ⟨st, s1, out, hlink, hinv, hth, F⟩ := thread_false_spec msgs
  refine ⟨st, out, s1, hlink, hth, F.msgs, F.cover, ?_⟩
  intro i j m m' hi hj hid
  rw [F.msgs i] at hi
  rw [F.msgs j] at hj
  have h1 := hinv.storedId i m hi
  have h2 := hinv.storedId j m' hj
  rw [hid] at h1
  rw [h1] at h2
  exact Option.some_inj.mp h2

theorem lookupT_mem_keys {t : Table} {k : String} {v : Nat}
    (h : lookupT t k = some v) : k ∈ t.map (fun p => p.1) := by
  unfold lookupT at h
  rcases hf : t.find? (fun p => p.1 == k) with _ | p
  · rw [hf] at h
    simp at h
  · have hpe := List.find?_some hf
    have h1 : p.1 = k := eq_of_beq hpe
    have h2 : p ∈ t := List.mem_of_find?_eq_some hf
    exact List.mem_map.mpr ⟨p, h2, h1⟩

def mS1 : Message := ⟨"a", some "same", []⟩

def mS2 : Message := ⟨"b", some "same", []⟩

def sC4 : Store := [⟨some mS1, none, []⟩, ⟨none, none, [2]⟩, ⟨some mS2, some 1, []⟩]

/-- C4, counterexample.  In the table-building pass, an existing
representative that HAS a message is replaced by a candidate that LACKS one
(container 1 is a dummy, container 0 carries a message, and the dummy takes
over the key) — the opposite of the spec's replacement rule. -/
theorem C4_counterexample :
    (getC sC4 0).message ≠ none ∧ (getC sC4 1).message = none ∧
    subjStep sC4 [("same", 0)] 1 = some [("same", 1)] :=
  ⟨by decide, by rfl, by rfl⟩

/-- C4, amended.  With an existing representative `e ≠ c` for the candidate
`c`'s nonempty normalized subject, the building step rebinds the key to `c`
exactly when `e` has a message and `c` has none (the code prefers the
dummy), or both have messages and `c`'s raw subject is strictly shorter. -/
theorem C4_amended {s : Store} {tbl : Table} {c e : Nat} {σ : String} {tbl' : Table}
    (hσ : containerSubj s c = some σ) (hk : subjectSub σ ≠ "")
    (hl : lookupT tbl (subjectSub σ) = some e) (hec : e ≠ c)
    (h : subjStep s tbl c = some tbl') :
    lookupT tbl' (subjectSub σ) = some c ↔
      ((getC s e).message ≠ none ∧ (getC s c).message = none) ∨
      (∃ em cm es cs, (getC s e).message = some em ∧ (getC s c).message = some cm ∧
        em.subject = some es ∧ cm.subject = some cs ∧ cs.length < es.length) := by
  simp only [subjStep, hσ, Option.bind_eq_bind, Option.some_bind] at h
  rw [if_neg hk, hl] at h
  dsimp only at h
  rcases hme : (getC s e).message with _ | em
  · have htbl : tbl' = tbl := by
      rcases hmc : (getC s c).message with _ | cm <;> rw [hme, hmc] at h <;>
        exact (Option.some_inj.mp h).symm
    rw [htbl, hl]
    constructor
    · intro hcc
      exact absurd (Option.some_inj.mp hcc) hec
    · intro hrhs
      rcases hrhs with ⟨hne, _⟩ | ⟨em, _, _, _, hsome, _⟩
      · exact absurd rfl hne
      · simp at hsome
  · rcases hmc : (getC s c).message with _ | cm
    · rw [hme, hmc] at h
      dsimp only at h
      have htbl : tbl' = setT tbl (subjectSub σ) c := (Option.some_inj.mp h).symm
      rw [htbl, lookupT_setT, if_pos rfl]
      constructor
      · intro _
        exact Or.inl ⟨by simp, rfl⟩
      · intro _
        rfl
    · rw [hme, hmc] at h
      dsimp only at h
      rcases hes : em.subject with _ | es
      · rw [hes] at h
        simp at h
      · rw [hes] at h
        simp only [Option.bind_eq_bind, Option.some_bind] at h
        rcases hcs : cm.subject with _ | cs
        · rw [hcs] at h
          simp at h
        · rw [hcs] at h
          simp only [Option.bind_eq_bind, Option.some_bind] at h
          by_cases hlen : es.length > cs.length
          · rw [if_pos hlen] at h
            have htbl : tbl' = setT tbl (subjectSub σ) c := (Option.some_inj.mp h).symm
            rw [htbl, lookupT_setT, if_pos rfl]
            constructor
            · intro _
              exact Or.inr ⟨em, cm, es, cs, rfl, rfl, hes, hcs, hlen⟩
            · intro _
              rfl
          · rw [if_neg hlen] at h
            have htbl : tbl' = tbl := (Option.some_inj.mp h).symm
            rw [htbl, hl]
            constructor
            · intro hcc
              exact absurd (Option.some_inj.mp hcc) hec
            · intro hrhs
              rcases hrhs with ⟨_, hnone⟩ |
                ⟨em2, cm2, es2, cs2, hme2, hmc2, hes2, hcs2, hlt⟩
              · simp at hnone
              · have hem : em2 = em := (Option.some_inj.mp hme2).symm
                have hcm : cm2 = cm := (Option.some_inj.mp hmc2).symm
                rw [hem, hes] at hes2
                rw [hcm, hcs] at hcs2
                have he2 : es2 = es := (Option.some_inj.mp hes2).symm
                have hc2 : cs2 = cs := (Option.some_inj.mp hcs2).symm
                rw [he2, hc2] at hlt
                omega

theorem C4_witness :
    (containerSubj sC4 1 = some "same") ∧ (subjectSub "same" ≠ "") ∧
    (lookupT [("same", 0)] (subjectSub "same") = some 0) ∧ ((0 : Nat) ≠ 1) ∧
    (lookupT [("same", 1)] (subjectSub "same") = some 1 ↔
      ((getC sC4 0).message ≠ none ∧ (getC sC4 1).message = none) ∨
      (∃ em cm es cs, (getC sC4 0).message = some em ∧
        (getC sC4 1).message = some cm ∧
        em.subject = some es ∧ cm.subject = some cs ∧ cs.length < es.length)) :=
  ⟨by rfl, by decide, by rfl, by decide,
    @C4_amended sC4 [("same", 0)] 1 0 "same" [("same", 1)]
      (by rfl) (by decide) (by rfl) (by decide) (by rfl)⟩

/-- C5, amended.  With grouping enabled, a pruned root whose normalized
subject is empty is excluded from the subject table and therefore never
appears among the returned representatives (it is dropped from the output,
not "left as-is"). -/
theorem C5_amended (msgs : List Message) (hsubj : ∀ m ∈ msgs, m.subject.isSome) :
    ∃ st s1 out s3 tbl3, linkPhase msgs = some st ∧
      ForestOut st.store (rootSetOf st) s1 out ∧
      thread msgs true = some (valuesT tbl3, s3) ∧
      ∀ r ∈ out, bkey s1 r = some "" → r ∉ valuesT tbl3 := by
  obtain ⟨st, s1, out, tbl2, s3, tbl3, hlink, hinv, F, ctx, binv, ginv, hth⟩ :=
    thread_true_spec msgs hsubj
  refine ⟨st, s1, out, s3, tbl3, hlink, F, hth, ?_⟩
  intro r hr hbr hrv
  have hknd : (tbl3.map (fun p => p.1)).Nodup := by
    rw [ginv.keys]
    exact binv.keysNd
  obtain ⟨k, hk⟩ := values_lookup hknd hrv
  rcases ginv.vals k r hk with h2 | ⟨h3, h4⟩
  · obtain ⟨_, hbk, hkne⟩ := binv.vals k r h2
    rw [hbr] at hbk
    exact hkne (Option.some_inj.mp hbk).symm
  · have := ctx.lt r hr
    omega

theorem C5_witness :
    (∀ m ∈ [mE], m.subject.isSome) ∧
    ∃ st s1 out s3 tbl3, linkPhase [mE] = some st ∧
      ForestOut st.store (rootSetOf st) s1 out ∧
      thread [mE] true = some (valuesT tbl3, s3) ∧
      ∀ r ∈ out, bkey s1 r = some "" → r ∉ valuesT tbl3 :=
  ⟨by decide, C5_amended [mE] (by decide)⟩

/-- C5, counterexample.  A single message whose subject normalizes to the
empty string: its pruned root exists (the forest is nonempty and carries the
message), yet `thread` with grouping returns the empty list — the root does
NOT still appear in the returned list. -/
theorem C5_counterexample :
    (∀ m ∈ [mE], m.subject.isSome) ∧
    ∃ st s1 out s3, linkPhase [mE] = some st ∧
      ForestOut st.store (rootSetOf st) s1 out ∧ out ≠ [] ∧
      thread [mE] true = some ([], s3) := by
  refine ⟨by decide, ?_⟩
  obtain ⟨st, s1, out, tbl2, s3, tbl3, hlink, hinv, F, ctx, binv, ginv, hth⟩ :=
    thread_true_spec [mE] (by decide)
  have hstval : st = ⟨[⟨some mE, none, []⟩], [("E", 0)]⟩ := by
    have hcomp : linkPhase [mE] = some ⟨[⟨some mE, none, []⟩], [("E", 0)]⟩ := by rfl
    rw [hcomp] at hlink
    exact (Option.some_inj.mp hlink).symm
  have hmsg_all : ∀ i m, (getC s1 i).message = some m → m = mE := by
    intro i m hm
    rw [F.msgs i] at hm
    have := hinv.stored i m hm
    simpa using this
  have hball : ∀ r ∈ out, bkey s1 r = some "" := by
    intro r hr
    obtain ⟨σ, hσ⟩ := ctx.subj_some hr
    have hσe : σ = "" := by
      unfold containerSubj at hσ
      rcases hm : (getC s1 r).message with _ | m
      · rw [hm] at hσ
        dsimp only at hσ
        rcases hch : (getC s1 r).children with _ | ⟨c0, t⟩
        · rw [hch] at hσ
          simp at hσ
        · rw [hch] at hσ
          dsimp only at hσ
          rcases hm0 : (getC s1 c0).message with _ | m0
          · rw [hm0] at hσ
            simp at hσ
          · rw [hm0] at hσ
            dsimp only at hσ
            rw [hmsg_all c0 m0 hm0] at hσ
            exact (Option.some_inj.mp
              ((show some "" = mE.subject from rfl).trans hσ)).symm
      · rw [hm] at hσ
        dsimp only at hσ
        rw [hmsg_all r m hm] at hσ
        exact (Option.some_inj.mp
          ((show some "" = mE.subject from rfl).trans hσ)).symm
    rw [hσe] at hσ
    unfold bkey
    rw [hσ]
    rfl
  have hvals : valuesT tbl3 = [] := by
    rw [List.eq_nil_iff_forall_not_mem]
    intro v hv
    have hknd : (tbl3.map (fun p => p.1)).Nodup := by
      rw [ginv.keys]
      exact binv.keysNd
    obtain ⟨k, hk⟩ := values_lookup hknd hv
    have hkeys : k ∈ tbl3.map (fun p => p.1) := lookupT_mem_keys hk
    rw [ginv.keys] at hkeys
    have hsome := mem_keys_lookupT hkeys
    rcases hw : lookupT tbl2 k with _ | w
    · rw [hw] at hsome
      simp at hsome
    · obtain ⟨hwout, hbw, hkne⟩ := binv.vals k w hw
      have := hball w hwout
      rw [hbw] at this
      exact hkne (Option.some_inj.mp this)
  rw [hvals] at hth
  have hout_ne : out ≠ [] := by
    have hm0 : (getC st.store 0).message ≠ none := by
      rw [hstval]
      simp [getC, mE]
    have hr0 : (0 : Nat) ∈ rootSetOf st := by
      rw [hstval]
      decide
    have hcov := (F.cover 0 hm0).mp ⟨0, hr0, Reaches.refl 0⟩
    obtain ⟨r, hrout, _⟩ := hcov
    intro he
    rw [he] at hrout
    simp at hrout
  exact ⟨st, s1, out, s3, hlink, F, hout_ne, hth⟩

def sOne : Store := [⟨some mA, none, []⟩]

theorem sOne_no_edges : ∀ a b, ¬ childEdge sOne a b := by
  intro a b h
  unfold childEdge at h
  rcases a with _ | n
  · simp [getC, sOne] at h
  · rw [getC_oob (by
      simp only [sOne, List.length_cons, List.length_nil]
      omega)] at h
    simp [Container.empty] at h

theorem sOne_wf : Wf sOne := by
  refine ⟨?_, ?_, ?_⟩
  · intro i c hc
    exact absurd hc (sOne_no_edges i c)
  · intro c p hp
    exfalso
    rcases c with _ | n
    · simp [getC, sOne] at hp
    · rw [getC_oob (by
        simp only [sOne, List.length_cons, List.length_nil]
        omega)] at hp
      simp [Container.empty] at hp
  · intro i
    rcases i with _ | n
    · simp [getC, sOne]
    · rw [getC_oob (by
        simp only [sOne, List.length_cons, List.length_nil]
        omega)]
      simp [Container.empty]

theorem sOne_reach : ∀ x, Reaches sOne 0 x → x = 0 := by
  intro x h
  induction h with
  | refl => rfl
  | tail _ he _ => exact absurd he (sOne_no_edges _ _)

theorem sOne_acyc : ∀ x, Reaches sOne 0 x → ¬ ProperReach sOne x x := by
  intro x _ hc
  rcases Relation.TransGen.tail'_iff.mp hc with ⟨w, _, hwx⟩
  exact sOne_no_edges w x hwx

theorem sOne_reachSet : (reachSet sOne 0).ncard < 2 := by
  have h : reachSet sOne 0 = {0} := by
    ext x
    constructor
    · intro hx
      exact sOne_reach x hx
    · intro hx
      have : x = 0 := hx
      rw [this]
      exact Reaches.refl 0
  rw [h, Set.ncard_singleton]
  omega

theorem sOne_prune : prune_container (pruneFuel sOne) sOne 0 = some (sOne, [0]) := by
  refine prune_id (pruneFuel sOne) sOne 0 sOne_wf sOne_acyc
    (by simp [sOne]) ?_ ?_ ?_
  · intro x hx
    exfalso
    rcases Relation.TransGen.head'_iff.mp hx with ⟨b, hb, _⟩
    exact sOne_no_edges 0 b hb
  · intro hm
    exact absurd hm (by simp [getC, sOne, mA])
  · show (reachSet sOne 0).ncard < sOne.length + 1
    simp only [sOne, List.length_cons, List.length_nil]
    exact sOne_reachSet

/-- C6.  One call of `prune_container` first finalizes the children
(recursive pass plus re-attachment), then returns: nothing for a dummy with
no children; the finalized children for a dummy with exactly one child or a
parent; the node itself otherwise. -/
theorem C6_prune_cases {fuel : Nat} {s : Store} {i : Nat} {s' : Store} {res : List Nat}
    (h : prune_container (fuel + 1) s i = some (s', res)) :
    ∃ sk kids s2, pruneKids fuel s i (getC s i).children = some (sk, kids) ∧
      addAll sk i kids = some s2 ∧
      res = (if (getC s2 i).message = none ∧ (getC s2 i).children = [] then []
        else if (getC s2 i).message = none ∧
            ((getC s2 i).children.length = 1 ∨ (getC s2 i).parent ≠ none) then
          (getC s2 i).children
        else [i]) := by
  simp only [prune_container] at h
  rcases hk : pruneKids fuel s i (getC s i).children with _ | ⟨sk, kids⟩
  · rw [hk] at h
    simp at h
  · rw [hk] at h
    dsimp only at h
    rcases ha : addAll sk i kids with _ | s2
    · rw [ha] at h
      simp at h
    · rw [ha] at h
      dsimp only at h
      refine ⟨sk, kids, s2, rfl, ha, ?_⟩
      by_cases h1 : (getC s2 i).message = none ∧ (getC s2 i).children = []
      · rw [if_pos h1] at h ⊢
        exact ((Prod.mk.injEq _ _ _ _).mp (Option.some_inj.mp h)).2.symm
      · rw [if_neg h1] at h ⊢
        by_cases h2 : (getC s2 i).message = none ∧
            ((getC s2 i).children.length = 1 ∨ (getC s2 i).parent ≠ none)
        · rw [if_pos h2] at h ⊢
          rcases hr : removeAll s2 i (getC s2 i).children with _ | s3
          · rw [hr] at h
            simp at h
          · rw [hr] at h
            dsimp only at h
            exact ((Prod.mk.injEq _ _ _ _).mp (Option.some_inj.mp h)).2.symm
        · rw [if_neg h2] at h ⊢
          exact ((Prod.mk.injEq _ _ _ _).mp (Option.some_inj.mp h)).2.symm

theorem C6_witness :
    ∃ sk kids s2, pruneKids 1 sOne 0 (getC sOne 0).children = some (sk, kids) ∧
      addAll sk 0 kids = some s2 ∧
      ([0] : List Nat) =
        (if (getC s2 0).message = none ∧ (getC s2 0).children = [] then []
          else if (getC s2 0).message = none ∧
              ((getC s2 0).children.length = 1 ∨ (getC s2 0).parent ≠ none) then
            (getC s2 0).children
          else [0]) :=
  @C6_prune_cases 1 sOne 0 sOne [0] sOne_prune

/-- C7.  Pruning is idempotent: if pruning an acyclic root returns the root
itself over some resulting store, pruning that root again leaves the store
untouched and returns the root again. -/
theorem C7_prune_idempotent {s : Store} {c : Nat} (hwf : Wf s)
    (hacy : ∀ x, Reaches s c x → ¬ ProperReach s x x) (hc : c < s.length)
    (hfree : (getC s c).parent = none) {s' : Store}
    (h1 : prune_container (pruneFuel s) s c = some (s', [c])) :
    prune_container (pruneFuel s') s' c = some (s', [c]) := by
  obtain ⟨s'', res, heq, P⟩ := prune_container_spec hwf hacy hc
    (show (reachSet s c).ncard < pruneFuel s from
      Nat.lt_succ_of_le (reachSet_ncard_le hwf hc))
  rw [h1] at heq
  have hpair := Option.some_inj.mp heq
  have hs2 : s'' = s' := (congrArg Prod.fst hpair).symm
  have hres : res = [c] := (congrArg Prod.snd hpair).symm
  rw [hs2, hres] at P
  have hc' : c < s'.length := by
    rw [P.len]
    exact hc
  have hacy' : ∀ x, Reaches s' c x → ¬ ProperReach s' x x := by
    intro x hx hcyc
    exact hacy x (P.nodes c (by simp) x hx) (P.noNewCycle x hcyc)
  have hdeep' := P.shapeDeep c (by simp)
  have hdummy' : (getC s' c).message = none →
      (getC s' c).parent = none ∧ 2 ≤ (getC s' c).children.length := by
    intro hm
    refine ⟨?_, P.shapeDummy c (by simp) hm⟩
    rw [P.parentI]
    exact hfree
  exact prune_id (pruneFuel s') s' c P.wf hacy' hc' hdeep' hdummy'
    (Nat.lt_succ_of_le (reachSet_ncard_le P.wf hc'))

theorem C7_witness :
    prune_container (pruneFuel sOne) sOne 0 = some (sOne, [0]) :=
  C7_prune_idempotent sOne_wf sOne_acyc (by simp [sOne]) (by rfl) sOne_prune

/-- C8.  `sort_threads` errors exactly for a key other than `message_id` or
`subject`; for a valid key it returns the input stably sorted by the key
function, which substitutes the caller's sentinel for a dummy container or a
missing field. -/
theorem C8_sort_error_iff (s : Store) (threads : List Nat) (key missing : String)
    (rev : Bool) :
    (¬ (key = "message_id" ∨ key = "subject") →
      sort_threads s threads key missing rev = Except.error "Wrong input argument") ∧
    ((key = "message_id" ∨ key = "subject") →
      ∃ out, sort_threads s threads key missing rev = Except.ok out ∧
        List.Sorted (fun a b => sortKey key missing s a ≤ sortKey key missing s b)
          out ∧
        out.Perm threads ∧
        (∀ a b, [a, b].Sublist threads →
          sortKey key missing s a ≤ sortKey key missing s b →
          [a, b].Sublist out)) ∧
    (∀ i, (getC s i).message = none → sortKey key missing s i = missing) ∧
    (∀ i m, (getC s i).message = some m → key = "subject" → m.subject = none →
      sortKey key missing s i = missing) := by
  refine ⟨?_, ?_, ?_, ?_⟩
  · intro hbad
    unfold sort_threads
    rw [if_neg hbad]
  · intro hok
    unfold sort_threads
    rw [if_pos hok]
    letI : IsTotal Nat (fun a b => sortKey key missing s a ≤ sortKey key missing s b) :=
      ⟨fun a b => le_total _ _⟩
    letI : IsTrans Nat (fun a b => sortKey key missing s a ≤ sortKey key missing s b) :=
      ⟨fun a b c h1 h2 => le_trans h1 h2⟩
    refine ⟨_, rfl, ?_, ?_, ?_⟩
    · exact List.sorted_insertionSort _ _
    · exact List.perm_insertionSort _ _
    · intro a b hsub hab
      exact List.pair_sublist_insertionSort hab hsub
  · intro i hm
    unfold sortKey
    rw [hm]
  · intro i m hm hkey hsubj
    unfold sortKey
    rw [hm]
    dsimp only
    rw [if_pos hkey, hsubj]

def stC9 : LState := ⟨[⟨none, none, [5]⟩], [("A", 0)]⟩

/-- C9.  Attaching a message whose identifier already has a container only
rewrites that container's message field: the table, the returned index, the
container's parent and children, and every other container are unchanged. -/
theorem C9_attach_frame {st : LState} {m : Message} {i : Nat}
    (h : lookupT st.tbl m.message_id = some i) (hi : i < st.store.length) :
    (step1a st m).1.tbl = st.tbl ∧ (step1a st m).2 = i ∧
    (getC (step1a st m).1.store i).message = some m ∧
    (getC (step1a st m).1.store i).parent = (getC st.store i).parent ∧
    (getC (step1a st m).1.store i).children = (getC st.store i).children ∧
    ∀ j, j ≠ i → getC (step1a st m).1.store j = getC st.store j := by
  obtain ⟨htbl, hidx⟩ := step1a_lookup_tbl h
  refine ⟨htbl, hidx, ?_, ?_, ?_, ?_⟩
  · rw [step1a_lookup_getC h i, if_pos ⟨rfl, hi⟩]
  · rw [step1a_lookup_getC h i, if_pos ⟨rfl, hi⟩]
  · rw [step1a_lookup_getC h i, if_pos ⟨rfl, hi⟩]
  · intro j hj
    rw [step1a_lookup_getC h j, if_neg (fun hh => hj hh.1)]

theorem C9_witness :
    (lookupT stC9.tbl mA.message_id = some 0) ∧ (0 < stC9.store.length) ∧
    ((step1a stC9 mA).1.tbl = stC9.tbl ∧ (step1a stC9 mA).2 = 0 ∧
      (getC (step1a stC9 mA).1.store 0).message = some mA ∧
      (getC (step1a stC9 mA).1.store 0).parent = (getC stC9.store 0).parent ∧
      (getC (step1a stC9 mA).1.store 0).children = (getC stC9.store 0).children ∧
      ∀ j, j ≠ 0 → getC (step1a stC9 mA).1.store j = getC stC9.store j) :=
  ⟨by rfl, by decide, C9_attach_frame (by rfl) (by decide)⟩

/-- C10.  After pruning an acyclic root, every parented container in the
returned trees has a message; a dummy can only be a returned root, and then
has at least two children, each with a message — so the grouper's read of a
dummy root's first child never fails. -/
theorem C10_pruned_shape {s : Store} {r : Nat} (hwf : Wf s)
    (hacy : ∀ x, Reaches s r x → ¬ ProperReach s x x) (hr : r < s.length) :
    ∃ s' res, prune_container (pruneFuel s) s r = some (s', res) ∧
      (∀ t ∈ res, ∀ x, ProperReach s' t x → (getC s' x).message ≠ none) ∧
      (∀ t ∈ res, (getC s' t).message = none →
        2 ≤ (getC s' t).children.length ∧
        ∀ c ∈ (getC s' t).children, (getC s' c).message ≠ none) := by
  obtain ⟨s', res, heq, P⟩ := prune_container_spec hwf hacy hr
    (show (reachSet s r).ncard < pruneFuel s from
      Nat.lt_succ_of_le (reachSet_ncard_le hwf hr))
  refine ⟨s', res, heq, P.shapeDeep, ?_⟩
  intro t ht hm
  refine ⟨P.shapeDummy t ht hm, ?_⟩
  intro ch hch
  exact P.shapeDeep t ht ch (Relation.TransGen.single hch)

theorem C10_witness :
    ∃ s' res, prune_container (pruneFuel sOne) sOne 0 = some (s', res) ∧
      (∀ t ∈ res, ∀ x, ProperReach s' t x → (getC s' x).message ≠ none) ∧
      (∀ t ∈ res, (getC s' t).message = none →
        2 ≤ (getC s' t).children.length ∧
        ∀ c ∈ (getC s' t).children, (getC s' c).message ≠ none) :=
  C10_pruned_shape sOne_wf sOne_acyc (by simp [sOne])

end Jwz